import Mathlib

/-!
Verification of the isotope-chemistry engine of the `tools` package
(`tools/elements.py` and `tools/utils.py`) via a shallow embedding in Lean.

Modelling conventions:
* Python floats are modelled as exact rationals (`ℚ`); the float literal
  `5.486e-4` becomes the rational `5486 / 10 ^ 7`.
* Python `dict`s are modelled as ordered association lists with Python's
  insertion-order and key-update semantics (`dSet` updates the value of an
  existing key in place, otherwise appends).
* Raising an exception is modelled with `Except`/`Option` result types.
* The regular-expression operations of the source are implemented directly as
  character-list scanners with the same matching semantics.
-/

deriving instance DecidableEq for Except

namespace Tools

/-! ## Characters and decimal numerals -/

/-- Numeric value of a decimal digit character. -/
def charVal (c : Char) : ℕ := c.toNat - 48

/-- Value of a most-significant-digit-first list of decimal digit characters,
as accumulated by Python `int` on a digit string. -/
def natOfDigits (l : List Char) : ℕ :=
  l.foldl (fun a c => a * 10 + charVal c) 0

/-- One decimal digit as a character. -/
def digitChar (d : ℕ) : Char := Char.ofNat (48 + d)

/-- Little-endian base-10 digits of `n`, with a fuel argument (any
`fuel ≥ n` gives the digits). -/
def natDigitsRev : ℕ → ℕ → List ℕ
  | 0, _ => []
  | _, 0 => []
  | fuel + 1, n => n % 10 :: natDigitsRev fuel (n / 10)

/-- Decimal rendering of a natural number (`str` in the source). -/
def natToString (n : ℕ) : String :=
  if n = 0 then "0" else String.mk ((natDigitsRev n n).reverse.map digitChar)

/-- Decimal rendering of an integer (`str` in the source). -/
def pyIntStr (v : ℤ) : String :=
  if v < 0 then "-" ++ natToString v.natAbs else natToString v.toNat

/-- Python `int(s)` on a string: optional sign followed by a nonempty run of
decimal digits; anything else raises `ValueError`, modelled as `none`.
(Whitespace and underscore forms accepted by Python never arise here.) -/
def pyInt (s : String) : Option ℤ :=
  match s.data with
  | [] => none
  | l =>
    let (sgn, ds) : ℤ × List Char :=
      match l with
      | '+' :: r => (1, r)
      | '-' :: r => (-1, r)
      | r => (1, r)
    if ds ≠ [] ∧ ds.all Char.isDigit then some (sgn * natOfDigits ds) else none

/-- Value of a little-endian decimal digit list. -/
def natOfDigitsRevVal : List ℕ → ℕ
  | [] => 0
  | d :: ds => d + 10 * natOfDigitsRevVal ds

/-- A symbol of the shape `[A-Z][a-z]?` (with the letter classes made
explicit). -/
def symbolOK (s : String) : Bool :=
  match s.data with
  | [c] => c.isUpper && !c.isLower && !c.isDigit
  | [c, d] => c.isUpper && !c.isLower && !c.isDigit && d.isLower && !d.isUpper && !d.isDigit
  | _ => false

/-- A character that only ever renders a decimal digit. -/
def digitish (c : Char) : Bool := c.isDigit && !c.isUpper && !c.isLower

/-- The flattened character list of a (symbol, digits) token sequence. -/
def renderPairs (ps : List (String × String)) : List Char :=
  ps.foldr (fun p acc => p.1.data ++ p.2.data ++ acc) []

/-! ## Ordered dictionaries (Python `dict` semantics) -/

/-- First value stored under a key. -/
def dFind [DecidableEq K] : List (K × V) → K → Option V
  | [], _ => none
  | (a, b) :: d, k => if a = k then some b else dFind d k

/-- `d.get(k, v0)` of Python. -/
def dGetD [DecidableEq K] (d : List (K × V)) (k : K) (v0 : V) : V :=
  (dFind d k).getD v0

/-- `d[k] = v` of Python: update the value of an existing key in place,
otherwise append the new binding. -/
def dSet [DecidableEq K] : List (K × V) → K → V → List (K × V)
  | [], k, v => [(k, v)]
  | (a, b) :: d, k, v => if a = k then (a, v) :: d else (a, b) :: dSet d k v

/-- `d1 | d2` of Python: keys of `d1` first, values of `d2` override. -/
def dMerge [DecidableEq K] (d1 d2 : List (K × V)) : List (K × V) :=
  d2.foldl (fun acc kv => dSet acc kv.1 kv.2) d1

/-- Keys of a dictionary. -/
def dKeys (d : List (K × V)) : List K := d.map Prod.fst

/-- The keys are pairwise distinct (always true of a Python `dict`). -/
def NodupKeys (d : List (K × V)) : Prop := (dKeys d).Nodup

instance [DecidableEq K] (d : List (K × V)) : Decidable (NodupKeys d) := by
  unfold NodupKeys
  infer_instance

/-! ## `tools/utils.py` -/

/-- `aggregate_dict_values(dict1, dict2)`: for every `k, v` in `dict1`,
`dict2[k] = dict2.get(k, 0) + v`; returns the updated `dict2`. -/
def aggregate_dict_values (d1 d2 : List (String × ℤ)) : List (String × ℤ) :=
  d1.foldl (fun acc kv => dSet acc kv.1 (dGetD acc kv.1 0 + kv.2)) d2

/-- `re.findall(r"\(([^)]+)\)(\d+)", s)`: non-overlapping scan for a
parenthesized nonempty `)`-free group followed by a nonempty digit run.
The fuel argument (any `fuel ≥ l.length`) only funds the recursion. -/
def findGroupsAux : ℕ → List Char → List (List Char × ℕ)
  | 0, _ => []
  | _, [] => []
  | fuel + 1, c :: rest =>
    if c = '(' then
      let content := rest.takeWhile (fun x => x ≠ ')')
      let after := rest.drop content.length
      if content ≠ [] ∧ after.head? = some ')' then
        let after2 := after.drop 1
        let ds := after2.takeWhile Char.isDigit
        if ds ≠ [] then
          (content, natOfDigits ds) :: findGroupsAux fuel (after2.drop ds.length)
        else findGroupsAux fuel rest
      else findGroupsAux fuel rest
    else findGroupsAux fuel rest

/-- Entry point of the grouped-element scan. -/
def findGroups (l : List Char) : List (List Char × ℕ) := findGroupsAux l.length l

/-- `re.findall(r"\([^()]*\)|([A-Za-z][A-Za-z0-9]*)", s)`: each match is either
a parenthesis-free bracketed group (whose capture is the empty string) or a
maximal alphanumeric token starting with a letter. -/
def findStandaloneAux : ℕ → List Char → List (List Char)
  | 0, _ => []
  | _, [] => []
  | fuel + 1, c :: rest =>
    if c = '(' then
      let content := rest.takeWhile (fun x => x ≠ '(' ∧ x ≠ ')')
      let after := rest.drop content.length
      if after.head? = some ')' then
        [] :: findStandaloneAux fuel (after.drop 1)
      else findStandaloneAux fuel rest
    else if c.isAlpha then
      let tok := rest.takeWhile (fun x => x.isAlpha ∨ x.isDigit)
      (c :: tok) :: findStandaloneAux fuel (rest.drop tok.length)
    else findStandaloneAux fuel rest

/-- Entry point of the standalone-token scan. -/
def findStandalone (l : List Char) : List (List Char) := findStandaloneAux l.length l

/-- `re.findall("[A-Z][^A-Z]*", s)`: maximal runs starting at an uppercase
letter. -/
def findElemsAux : ℕ → List Char → List (List Char)
  | 0, _ => []
  | _, [] => []
  | fuel + 1, c :: rest =>
    if c.isUpper then
      let tail := rest.takeWhile (fun x => ¬ x.isUpper)
      (c :: tail) :: findElemsAux fuel (rest.drop tail.length)
    else findElemsAux fuel rest

/-- Entry point of the element-token scan. -/
def findElems (l : List Char) : List (List Char) := findElemsAux l.length l

/-- Fixed table mapping common chemical abbreviations to molecular formulas. -/
def compound_abbreviations : List (String × String) :=
  [("ACN", "CH3CN"), ("DMSO", "(CH3)2SO"), ("FA", "CH2O2"), ("HAc", "CH3COOH"),
   ("TFA", "CF3CO2H"), ("IsoProp", "CH3CHOHCH3")]

/-- The inner `_get_element_count(element, multiplier)`: alphabetic characters
form the key, digit characters the count (default 1), scaled by the
multiplier. -/
def elemTokenCount (elem : List Char) (multiplier : ℕ) : String × ℕ :=
  let characters := elem.filter Char.isAlpha
  let integer := elem.filter Char.isDigit
  (String.mk characters, (if integer = [] then 1 else natOfDigits integer) * multiplier)

/-- `get_element_count(formula)`: parse a formula string (with optional leading
multiplier, abbreviation substitution, parenthesized groups) into an ordered
map from element symbol to count.  The `(.*)` of `re.match(r"^(\d+)(.*)", s)`
stops at a newline, as in Python. -/
def get_element_count (s : String) : List (String × ℤ) :=
  let lead := s.data.takeWhile Char.isDigit
  let (atom_count_multiplier, formula) : ℕ × List Char :=
    if lead ≠ [] then (natOfDigits lead, (s.data.drop lead.length).takeWhile (fun c => c ≠ '\n'))
    else (1, s.data)
  let formula :=
    match dFind compound_abbreviations (String.mk formula) with
    | some f => f.data
    | none => formula
  let grouped : List (List Char × ℕ) :=
    findGroups formula ++ (findStandalone formula).map (fun t => (t, 1))
  grouped.foldl
    (fun acc (p : List Char × ℕ) =>
      (findElems p.1).foldl
        (fun acc2 elem =>
          let kv := elemTokenCount elem (p.2 * atom_count_multiplier)
          aggregate_dict_values [(kv.1, (kv.2 : ℤ))] acc2)
        acc)
    []

/-- `re.split(r"([+-])", s)` viewed as the segment before the first sign and
the list of (sign, following segment) pairs; the Python loop over the odd/even
indices of the split visits exactly these pairs. -/
def splitSigns : List Char → String × List (Char × String)
  | [] => ("", [])
  | c :: rest =>
    let (t, ps) := splitSigns rest
    if c = '+' ∨ c = '-' then ("", (c, t) :: ps)
    else (String.mk (c :: t.data), ps)

/-- `re.findall(r"^\[(\d+)M", s)`: an anchored leading `[<digits>M`. -/
def bracketMult (s : String) : Option ℕ :=
  match s.data with
  | '[' :: rest =>
    let ds := rest.takeWhile Char.isDigit
    if ds ≠ [] ∧ (rest.drop ds.length).head? = some 'M' then some (natOfDigits ds)
    else none
  | _ => none

/-- `int(f"{sign}{v}")` for a sign character and a nonnegative count. -/
def pySignInt (sgn : Char) (v : ℤ) : ℤ := if sgn = '-' then -v else v

/-- `modify_formula_dict(formula_dict, adduct)`: scale by the optional leading
`[<N>M` multiplier, apply each signed term, and return `None` when any
resulting count is negative. -/
def modify_formula_dict (formula_dict : List (String × ℤ)) (adduct : String) :
    Option (List (String × ℤ)) :=
  let updated := formula_dict
  let (first, terms) := splitSigns adduct.data
  let updated :=
    match bracketMult first with
    | some n => updated.map (fun kv => (kv.1, (n : ℤ) * kv.2))
    | none => updated
  let updated := terms.foldl
    (fun acc (p : Char × String) =>
      let element_count := get_element_count p.2
      let element_count := element_count.map (fun kv => (kv.1, pySignInt p.1 kv.2))
      aggregate_dict_values acc element_count)
    updated
  if updated.any (fun kv => kv.2 < 0) then none else some updated

/-- `get_decoy_info(decoy)`: `re.match(r"([+-])(\d+)?(.*)", decoy)`.  The match
fails (raising `ValueError`) exactly when the string does not start with a
sign; the final `.*` stops at a newline. -/
def get_decoy_info (decoy : String) : Except Unit (String × ℕ × ℤ) :=
  match decoy.data with
  | c :: rest =>
    if c = '+' ∨ c = '-' then
      let sign : ℤ := if c = '+' then 1 else -1
      let ds := rest.takeWhile Char.isDigit
      let multiple := if ds = [] then 1 else natOfDigits ds
      .ok (String.mk ((rest.drop ds.length).takeWhile (fun x => x ≠ '\n')), multiple, sign)
    else .error ()
  | [] => .error ()

/-- `re.sub(r"[+-](\d+)?$", "", s)`: remove the first sign character followed
only by digits up to the end of the string (`$` also matches just before a
final newline, as in Python). -/
def pyStripChargeSuffix : List Char → List Char
  | [] => []
  | c :: rest =>
    if (c = '+' ∨ c = '-') ∧ rest.all Char.isDigit then []
    else if (c = '+' ∨ c = '-') ∧ rest.getLast? = some '\n' ∧ rest.dropLast.all Char.isDigit then
      ['\n']
    else c :: pyStripChargeSuffix rest

/-- `re.split(r"([A-Z][a-z]?)", s)` viewed as the non-captured prefix plus the
list of (captured symbol, following non-captured segment) pairs; the Python
dict comprehension over odd indices visits exactly these pairs. -/
def splitCapsAux : ℕ → List Char → String × List (String × String)
  | 0, _ => ("", [])
  | _, [] => ("", [])
  | _ + 1, [c] =>
    if c.isUpper then ("", [(String.mk [c], "")])
    else (String.mk [c], [])
  | fuel + 1, c :: d :: rest2 =>
    if c.isUpper then
      if d.isLower then
        let (p, ps) := splitCapsAux fuel rest2
        ("", (String.mk [c, d], p) :: ps)
      else
        let (p, ps) := splitCapsAux fuel (d :: rest2)
        ("", (String.mk [c], p) :: ps)
    else
      let (p, ps) := splitCapsAux fuel (d :: rest2)
      (String.mk (c :: p.data), ps)

/-- Entry point of the `([A-Z][a-z]?)` split. -/
def splitCaps (l : List Char) : String × List (String × String) :=
  splitCapsAux l.length l

/-- `str_to_dict(formula)`: strip a trailing charge suffix, split on element
symbols, and build the element → count dictionary; a count that `int` cannot
parse raises `ValueError`, modelled as `none`. -/
def str_to_dict (formula : String) : Option (List (String × ℤ)) :=
  let stripped := pyStripChargeSuffix formula.data
  let (_, pairs) := splitCaps stripped
  pairs.foldlM
    (fun acc (p : String × String) => do
      let n ← if p.2 = "" then some (1 : ℤ) else pyInt p.2
      some (dSet acc p.1 n))
    []

/-! ## `tools/elements.py`: isotopes, elements, compounds -/

/-- An individual isotope of an element (frozen dataclass `Isotope`). -/
structure Isotope where
  symbol : String
  mass : ℚ
  abundance : ℚ
deriving DecidableEq, Repr

/-- A chemical element (frozen dataclass `Element`).  The Python `isotopes`
set is modelled as a list; set iteration order is arbitrary in Python, so the
list order stands for one such order. -/
structure Element where
  symbol : String
  isotopes : List Isotope
deriving DecidableEq, Repr

/-- Stable insertion of an isotope into a list sorted by ascending
abundance. -/
def insertIso (i : Isotope) : List Isotope → List Isotope
  | [] => [i]
  | j :: l => if i.abundance ≤ j.abundance then i :: j :: l else j :: insertIso i l

/-- `sorted(isotopes)` of Python: a stable sort by the `Isotope.__lt__`
ordering (ascending abundance). -/
def sortIsotopes : List Isotope → List Isotope
  | [] => []
  | i :: l => insertIso i (sortIsotopes l)

/-- Placeholder isotope; `sorted(∅)[-1]` raises `IndexError` in Python, which
never happens for the hypotheses used below. -/
def junkIsotope : Isotope := { symbol := "", mass := 0, abundance := 0 }

/-- `Element.monoisotope`: the last element of the abundance-sorted isotope
list, i.e. the most abundant isotope. -/
def Element.monoisotope (e : Element) : Isotope :=
  (sortIsotopes e.isotopes).getLastD junkIsotope

/-- `Element.other_isotopes`: all but the most abundant isotope, ascending by
abundance. -/
def Element.other_isotopes (e : Element) : List Isotope :=
  (sortIsotopes e.isotopes).dropLast

/-- `IsotopeDB.__getitem__` with a string key: the first element whose symbol
matches, or that owns an isotope of that symbol; `none` models the
`KeyError`. -/
def strLookup : List Element → String → Option Element
  | [], _ => none
  | e :: rest, k =>
    if e.symbol == k || e.isotopes.any (fun i => i.symbol == k) then some e
    else strLookup rest k

/-- `IsotopeDB.__getitem__` with an `Isotope` key.  In the source,
`element == item` first compares `element.symbol == item.symbol` (false for
well-formed data); were the symbols equal, the comparison would touch the
missing `item.isotopes` attribute and raise, modelled as `.error`.  Otherwise
`item in element` tests full isotope membership. -/
def isoGetElem : List Element → Isotope → Except Unit Element
  | [], _ => .error ()
  | e :: rest, t =>
    if e.symbol = t.symbol then .error ()
    else if t ∈ e.isotopes then .ok e
    else isoGetElem rest t

/-- Error cases of `Compound` construction. -/
inductive CompError where
  | keyError
  | computationError
  | typeError
  | valueError
deriving DecidableEq, Repr

/-- `Compound.VALID_ELEMENTS`. -/
def VALID_ELEMENTS : List String :=
  ["C", "H", "O", "N", "P", "S", "F", "Cl", "Br", "I"]

/-- The resolution of each formula key in the isotope database, in order
(`self.isotope_db[k]` inside the `order_elements` comprehension; the first
missing key raises `KeyError`). -/
def lookupAll (db : List Element) : List (String × ℤ) → Except CompError (List (Element × ℤ))
  | [] => .ok []
  | kv :: rest =>
    match strLookup db kv.1 with
    | some e =>
      match lookupAll db rest with
      | .ok ps => .ok ((e, kv.2) :: ps)
      | .error err => .error err
    | none => .error CompError.keyError

/-- `Compound.order_elements`: merge a zero-initialized whitelist dictionary
with the supplied formula dictionary, drop zero counts, and resolve each
surviving key in the isotope database; the comprehension inserts the pairs
into an `Element`-keyed dictionary. -/
def order_elements (db : List Element) (formula : List (String × ℤ)) :
    Except CompError (List (Element × ℤ)) :=
  match lookupAll db
      ((dMerge (VALID_ELEMENTS.map (fun k => (k, 0))) formula).filter
        (fun kv => kv.2 ≠ 0)) with
  | .ok pairs => .ok (pairs.foldl (fun acc (p : Element × ℤ) => dSet acc p.1 p.2) [])
  | .error err => .error err

/-- The rendered canonical formula string (`Compound.order_elements`, last
line): element symbol followed by the count, the count omitted when 1. -/
def renderFormula (ec : List (Element × ℤ)) : String :=
  ec.foldl (fun s (p : Element × ℤ) =>
    s ++ p.1.symbol ++ (if p.2 = 1 then "" else pyIntStr p.2)) ""

/-- `Compound._compute_mass_and_abundance`, mass part. -/
def monomassOf (ec : List (Element × ℤ)) : ℚ :=
  ec.foldl (fun m (p : Element × ℤ) => m + p.1.monoisotope.mass * p.2) 0

/-- `Compound._compute_mass_and_abundance`, abundance part. -/
def monoabundOf (ec : List (Element × ℤ)) : ℚ :=
  ec.foldl (fun a (p : Element × ℤ) => a * p.1.monoisotope.abundance ^ p.2) 1

/-- A constructed `Compound` (fields set by `Compound.__init__`). -/
structure Compound where
  element_count : List (Element × ℤ)
  formula : String
  monomass : ℚ
  monoabund : ℚ
  monoisos : List Isotope
  nonmonoisos : List Isotope
deriving DecidableEq, Repr

/-- `Compound.__init__`: order the elements, compute monoisotopic mass and
abundance (raising `ComputationError` when the mass is zero), and partition
the isotopes (`_parse_isotopes`). -/
def mkCompound (formula : List (String × ℤ)) (db : List Element) :
    Except CompError Compound :=
  match order_elements db formula with
  | .error err => .error err
  | .ok ec =>
  let monomass := monomassOf ec
  if monomass = 0 then .error CompError.computationError
  else
    .ok { element_count := ec
          formula := renderFormula ec
          monomass := monomass
          monoabund := monoabundOf ec
          monoisos := ec.map (fun p => p.1.monoisotope)
          nonmonoisos := ec.flatMap (fun p => p.1.other_isotopes) }

/-- `Compound.from_str`: parse the formula string and construct (a failing
`int` conversion in `str_to_dict` raises `ValueError`). -/
def from_str (formula : String) (db : List Element) : Except CompError Compound :=
  match str_to_dict formula with
  | none => .error CompError.valueError
  | some d => mkCompound d db

/-- `Compound.get_updated_compound` (pure value level): apply the adduct to
the element counts and construct a new compound.  When `modify_formula_dict`
returns `None`, `Compound(None, db)` raises a `TypeError` inside
`order_elements`. -/
def get_updated_compound (element_count : List (String × ℤ)) (adduct : String)
    (db : List Element) : Except CompError Compound :=
  match modify_formula_dict element_count adduct with
  | none => .error CompError.typeError
  | some d => mkCompound d db

/-! ## Sample isotope data (values from the repository's reference table) -/

/-- Hydrogen. -/
def elemH : Element :=
  { symbol := "H",
    isotopes := [⟨"1H", mkRat 1007825032 (10 ^ 9), mkRat 999855 (10 ^ 6)⟩,
                 ⟨"2H", mkRat 2014101778 (10 ^ 9), mkRat 145 (10 ^ 6)⟩] }

/-- Carbon. -/
def elemC : Element :=
  { symbol := "C",
    isotopes := [⟨"12C", 12, mkRat 9894 (10 ^ 4)⟩,
                 ⟨"13C", mkRat 1300335484 (10 ^ 8), mkRat 106 (10 ^ 4)⟩] }

/-- Oxygen. -/
def elemO : Element :=
  { symbol := "O",
    isotopes := [⟨"16O", mkRat 1599491462 (10 ^ 8), mkRat 99757 (10 ^ 5)⟩,
                 ⟨"17O", mkRat 1699913176 (10 ^ 8), mkRat 3835 (10 ^ 7)⟩,
                 ⟨"18O", mkRat 1799915961 (10 ^ 8), mkRat 2045 (10 ^ 6)⟩] }

/-- Iron (not in `VALID_ELEMENTS`). -/
def elemFe : Element :=
  { symbol := "Fe",
    isotopes := [⟨"56Fe", mkRat 5593493633 (10 ^ 8), mkRat 91754 (10 ^ 5)⟩,
                 ⟨"54Fe", mkRat 5393960899 (10 ^ 8), mkRat 5845 (10 ^ 5)⟩] }

/-- Fluorine: a single isotope of abundance 1. -/
def elemF : Element :=
  { symbol := "F", isotopes := [⟨"19F", mkRat 18998403163 (10 ^ 9), 1⟩] }

/-- A small isotope database for concrete instantiations. -/
def sampleDB : List Element := [elemC, elemH, elemO, elemF, elemFe]

/-- The compound built from `{F: 1}` over `sampleDB`. -/
def compoundF : Compound :=
  { element_count := [(elemF, 1)]
    formula := "F"
    monomass := mkRat 18998403163 (10 ^ 9)
    monoabund := 1
    monoisos := [⟨"19F", mkRat 18998403163 (10 ^ 9), 1⟩]
    nonmonoisos := [] }

/-- The `54Fe` isotope of the sample database. -/
def iso54 : Isotope := ⟨"54Fe", mkRat 5393960899 (10 ^ 8), mkRat 5845 (10 ^ 5)⟩

/-- The compound built from `{Fe: 1}` over `sampleDB`. -/
def compoundFe : Compound :=
  { element_count := [(elemFe, 1)]
    formula := "Fe"
    monomass := mkRat 5593493633 (10 ^ 8)
    monoabund := mkRat 91754 (10 ^ 5)
    monoisos := [⟨"56Fe", mkRat 5593493633 (10 ^ 8), mkRat 91754 (10 ^ 5)⟩]
    nonmonoisos := [⟨"54Fe", mkRat 5393960899 (10 ^ 8), mkRat 5845 (10 ^ 5)⟩] }

/-! ## `Compound.isopattern` -/

/-- Round half to even (the rounding of `numpy.round`/`pandas.round`,
modelled exactly on rationals). -/
def roundHalfEven (q : ℚ) : ℤ :=
  let f := ⌊q⌋
  if q - f < 1 / 2 then f
  else if 1 / 2 < q - f then f + 1
  else if f % 2 = 0 then f else f + 1

/-- Round to `d` decimal places, half to even. -/
def roundTo (d : ℕ) (q : ℚ) : ℚ := (roundHalfEven (q * 10 ^ d) : ℚ) / 10 ^ d

/-- One isotopologue row of the working `DataFrame`: the per-isotope count
columns (keyed by isotope symbol, in a fixed column order shared by all
rows), the scalar columns, and the `noniso` substitution-target column
(`none` models `NaN`).  `generation` and `stop` hold small integers in the
source; `stop` is modelled as a Bool (`true` = 1). -/
structure Row where
  counts : List (String × ℚ)
  mass : ℚ
  abundance : ℚ
  generation : ℕ
  stop : Bool
  noniso : Option Isotope
deriving DecidableEq, Repr

/-- The nested `isotope_permutation(row, limit)`: transfer one atom from the
monoisotope of the target's element to the target non-monoisotope.  A row
whose target has no monoisotopic atoms left becomes an all-`None` series,
modelled as `none`; a failed database lookup propagates as `.error`. -/
def isotope_permutation (db : List Element) (limit : ℚ) (row : Row) :
    Except Unit (Option Row) :=
  if row.stop then .ok (some row)
  else
    match row.noniso with
    | none => .ok (some row)
    | some nonmono =>
      match isoGetElem db nonmono with
      | .error err => .error err
      | .ok elem =>
      let monoiso := elem.monoisotope
      let monoCount := dGetD row.counts monoiso.symbol 0
      if monoCount = 0 then .ok none
      else
        let mass := row.mass - monoiso.mass + nonmono.mass
        let monoiso_abund_proportion := monoCount / monoiso.abundance
        let targetCount := dGetD row.counts nonmono.symbol 0
        let abundance :=
          row.abundance * (nonmono.abundance / (targetCount + 1) * monoiso_abund_proportion)
        let counts1 := dSet row.counts monoiso.symbol (monoCount - 1)
        let counts2 := dSet counts1 nonmono.symbol (dGetD counts1 nonmono.symbol 0 + 1)
        .ok (some { counts := counts2
                    mass := mass
                    abundance := abundance
                    generation := row.generation + 1
                    stop := decide (abundance < limit)
                    noniso := row.noniso })

/-- `peaks.apply(isotope_permutation, ...)` over all rows; a raised exception
in any row aborts the whole call. -/
def applyPerm (db : List Element) (limit : ℚ) : List Row → Except Unit (List (Option Row))
  | [] => .ok []
  | r :: rest =>
    match isotope_permutation db limit r with
    | .error err => .error err
    | .ok o =>
      match applyPerm db limit rest with
      | .error err => .error err
      | .ok os => .ok (o :: os)

/-- Deduplication key: all count columns plus mass rounded to 9 and abundance
rounded to 3 decimal places (the `generation`, `stop` and `noniso` columns are
excluded). -/
def dedupKey (r : Row) : List (String × ℚ) × ℚ × ℚ :=
  (r.counts, roundTo 9 r.mass, roundTo 3 r.abundance)

/-- `peaks.drop(_peaks[_peaks.duplicated()].index)` restricted to rows of
generation `it + 1`: keep the first row of each key, drop later duplicates. -/
def dedupGo (it : ℕ) (seen : List (List (String × ℚ) × ℚ × ℚ)) :
    List Row → List Row
  | [] => []
  | r :: rest =>
    if r.generation = it + 1 then
      if dedupKey r ∈ seen then dedupGo it seen rest
      else r :: dedupGo it (dedupKey r :: seen) rest
    else r :: dedupGo it seen rest

/-- Remove duplicated isotope combinations among the rows of the new
generation. -/
def dedupRows (it : ℕ) (l : List Row) : List Row := dedupGo it [] l

/-- `row.assign(stop=1)`. -/
def setStop1 (r : Row) : Row := { r with stop := true }

/-- `over_limit.explode(["noniso"])` after assigning the full non-monoisotope
list to each row: one child per target (an empty list explodes to a single
`NaN` row, as in pandas). -/
def explodeRow (c : Compound) (r : Row) : List Row :=
  match c.nonmonoisos with
  | [] => [{ r with noniso := none }]
  | l => l.map (fun t => { r with noniso := some t })

/-- The mutable loop state: the `peaks` frame plus the `iteration` and
`n_tries` counters. -/
structure PatState where
  peaks : List Row
  iteration : ℕ
  n_tries : ℕ
deriving DecidableEq, Repr

/-- The `while` condition: an active row at the current generation remains and
the accumulated row count has not reached `max_iter`. -/
def loopCond (maxIter : ℕ) (s : PatState) : Bool :=
  s.peaks.any (fun r => decide (r.generation = s.iteration) && !r.stop) &&
    decide (s.n_tries < maxIter)

/-- One iteration of the generation loop. -/
def loopBody (db : List Element) (c : Compound) (limit : ℚ) (s : PatState) :
    Except Unit PatState :=
  match applyPerm db limit s.peaks with
  | .error err => .error err
  | .ok l =>
  let p2 := l.reduceOption
  let p3 := if s.iteration ≠ 0 then dedupRows s.iteration p2 else p2
  let it := s.iteration + 1
  let n := p3.length
  let over := p3.filter (fun r => decide (r.generation = it) && !r.stop)
  if over.isEmpty then .ok ⟨p3, it, n⟩
  else .ok ⟨p3.map setStop1 ++ over.flatMap (explodeRow c), it, n⟩

/-- The `while` loop with explicit fuel; `isopattern_loop_terminates` shows
that fuel `max_iter + 1` always reaches a state where the condition fails, so
the fuel-based model coincides with the unbounded loop. -/
def loopRun (db : List Element) (c : Compound) (limit : ℚ) (maxIter : ℕ) :
    ℕ → PatState → Except Unit PatState
  | 0, s => .ok s
  | fuel + 1, s =>
    if loopCond maxIter s then (loopBody db c limit s).bind (loopRun db c limit maxIter fuel)
    else .ok s

/-- The initial `peaks` frame: one row per candidate substitution target plus
the root row (whose `noniso` is `NaN`); the count columns list the
non-monoisotope columns first, then the monoisotope columns holding the
element counts. -/
def initRow (c : Compound) (stop0 : Bool) (noniso : Option Isotope) : Row :=
  { counts := c.nonmonoisos.map (fun t => (t.symbol, (0 : ℚ)))
      ++ List.zipWith (fun (t : Isotope) (v : ℤ) => (t.symbol, (v : ℚ)))
           c.monoisos (c.element_count.map Prod.snd)
    mass := c.monomass
    abundance := c.monoabund
    generation := 0
    stop := stop0
    noniso := noniso }

/-- The initial loop state; the root row is stopped immediately when the
compound is a single monoisotopic element of abundance 1. -/
def initState (c : Compound) : PatState :=
  let stopRow0 :=
    decide (c.monoisos.length = 1 ∧ (c.monoisos.headD junkIsotope).abundance = 1)
  { peaks := initRow c stopRow0 none :: c.nonmonoisos.map (fun t => initRow c false (some t))
    iteration := 0
    n_tries := 0 }

/-- The loop phase of `isopattern`. -/
def loopResult (db : List Element) (c : Compound) (limit : ℚ) (maxIter : ℕ) :
    Except Unit PatState :=
  loopRun db c limit maxIter (maxIter + 1) (initState c)

/-- The rows retained after the loop: zero-abundance rows are dropped and,
for a nonzero charge, the mass column is converted to m/z with the electron
mass `5.486e-4`. -/
def retainedRows (db : List Element) (c : Compound) (charge : ℤ) (limit : ℚ)
    (maxIter : ℕ) : Except Unit (List Row) :=
  match loopResult db c limit maxIter with
  | .error err => .error err
  | .ok s =>
  let peaks := s.peaks.filter (fun r => decide (r.abundance ≠ 0))
  let peaks :=
    if charge ≠ 0 then
      peaks.map (fun r =>
        { r with mass := (r.mass - 5486 / 10 ^ 7 * (charge : ℚ)) / |(charge : ℚ)| })
    else peaks
  .ok peaks

/-- `series.min()` over a column (`NaN` on an empty frame never feeds back
into any retained row, so the default is irrelevant). -/
def seriesMin : List ℚ → ℚ
  | [] => 0
  | x :: xs => xs.foldl min x

/-- `series.max()` over a column. -/
def seriesMax : List ℚ → ℚ
  | [] => 0
  | x :: xs => xs.foldl max x

/-- Stable insertion sort (`sort_values`; any correct sort models it, the
claims only concern sortedness). -/
def insertRow (le : Row → Row → Bool) (r : Row) : List Row → List Row
  | [] => [r]
  | x :: xs => if le r x then r :: x :: xs else x :: insertRow le r xs

/-- Sort the retained rows by the given comparison. -/
def sortRows (le : Row → Row → Bool) : List Row → List Row
  | [] => []
  | x :: xs => insertRow le x (sortRows le xs)

/-- `Compound.isopattern` with `get_details=False`: the final
(mass, abundance) pairs; `scale == "rel"` min–max rescales to 0–100 and sorts
descending by abundance, anything else sorts ascending by mass. -/
def isopattern (db : List Element) (c : Compound) (charge : ℤ) (limit : ℚ)
    (maxIter : ℕ) (scale : String) : Except Unit (List (ℚ × ℚ)) :=
  match retainedRows db c charge limit maxIter with
  | .error err => .error err
  | .ok peaks =>
  if scale = "rel" then
    let mn := seriesMin (peaks.map Row.abundance)
    let mx := seriesMax (peaks.map Row.abundance)
    let peaks := peaks.map (fun r =>
      { r with abundance := 100 * (r.abundance - mn) / (mx - mn) })
    let peaks := sortRows (fun a b => decide (b.abundance ≤ a.abundance)) peaks
    .ok (peaks.map (fun r => (r.mass, r.abundance)))
  else
    .ok ((sortRows (fun a b => decide (a.mass ≤ b.mass)) peaks).map
      (fun r => (r.mass, r.abundance)))

/-- A concrete active row over iron, targeting `54Fe`. -/
def rowFe : Row :=
  { counts := [("54Fe", 0), ("56Fe", 1)]
    mass := mkRat 5593493633 (10 ^ 8)
    abundance := mkRat 91754 (10 ^ 5)
    generation := 0
    stop := false
    noniso := some iso54 }

/-- The root row of the iron pattern (no substitution target). -/
def rowFeStart : Row := { rowFe with noniso := none }

/-- The row produced by one substitution step on `rowFe`. -/
def rowFe1 : Row :=
  { counts := [("54Fe", 1), ("56Fe", 0)]
    mass := mkRat 5393960899 (10 ^ 8)
    abundance := mkRat 5845 (10 ^ 5)
    generation := 1
    stop := false
    noniso := some iso54 }

/-! ## Imperative heap model for the mutation claims

`modify_formula_dict` and `aggregate_dict_values` mutate Python dictionaries
in place.  To state frame conditions, dictionaries live in a heap of cells
addressed by index; every other value is immutable. -/

/-- A heap of dictionary cells. -/
abbrev Heap := List (List (String × ℤ))

/-- Read a cell. -/
def hGet (h : Heap) (i : ℕ) : List (String × ℤ) := h.getD i []

/-- Write a cell. -/
def hSet (h : Heap) (i : ℕ) (d : List (String × ℤ)) : Heap := h.set i d

/-- Allocate a fresh cell holding `d`, returning the new heap and the cell
index. -/
def hAlloc (h : Heap) (d : List (String × ℤ)) : Heap × ℕ := (h ++ [d], h.length)

/-- `aggregate_dict_values(dict1, dict2)` as a heap operation: reads cell
`i`, updates cell `j` in place, and returns `j` (the function returns its
mutated second argument). -/
def aggImp (h : Heap) (i j : ℕ) : Heap × ℕ :=
  (hSet h j (aggregate_dict_values (hGet h i) (hGet h j)), j)

/-- One signed adduct term as a freshly built dictionary (the dict
comprehension `{k: int(f"{sign}{v}") ...}`). -/
def signedTerm (sgn : Char) (term : String) : List (String × ℤ) :=
  (get_element_count term).map (fun kv => (kv.1, pySignInt sgn kv.2))

/-- `modify_formula_dict` as a heap operation.  `formula_dict.copy()` and the
scaling comprehension allocate fresh cells; each loop iteration allocates the
term dictionary and then mutates it via `aggregate_dict_values`, rebinding
`updated_formula` to the mutated term cell. -/
def modifyFormulaDictImp (h : Heap) (fd : ℕ) (adduct : String) : Heap × Option ℕ :=
  let copy := hAlloc h (hGet h fd)
  let first := (splitSigns adduct.data).1
  let terms := (splitSigns adduct.data).2
  let scaled : Heap × ℕ :=
    match bracketMult first with
    | some n => hAlloc copy.1 ((hGet copy.1 copy.2).map (fun kv => (kv.1, (n : ℤ) * kv.2)))
    | none => copy
  let res := terms.foldl
    (fun (st : Heap × ℕ) (p : Char × String) =>
      let al := hAlloc st.1 (signedTerm p.1 p.2)
      aggImp al.1 st.2 al.2)
    scaled
  if (hGet res.1 res.2).any (fun kv => kv.2 < 0) then (res.1, none) else (res.1, some res.2)

/-- `Compound.get_updated_compound` as a heap operation: the original
compound's `element_count` cell is passed to `modify_formula_dict`, and a new
compound is constructed from the result (reading, never writing). -/
def getUpdatedCompoundImp (h : Heap) (ecRef : ℕ) (adduct : String)
    (db : List Element) : Heap × Except CompError Compound :=
  let res := modifyFormulaDictImp h ecRef adduct
  match res.2 with
  | none => (res.1, .error CompError.typeError)
  | some i => (res.1, mkCompound (hGet res.1 i) db)

/-! ## Spec-side grammar (for the decoy-parsing claim)

The claim compares the implementation against the grammar
`Sign [Digits] ElementSymbol` with `ElementSymbol := UpperLetter [LowerLetter]`
stated in the specification; this definition follows the specification's
words, not the source. -/

/-- The specification's decoy grammar `Sign [Digits] ElementSymbol`. -/
def decoyGrammarSpec (s : String) : Bool :=
  match s.data with
  | c :: rest =>
    (c = '+' ∨ c = '-') &&
      (let sym := rest.dropWhile Char.isDigit
       match sym with
       | [u] => u.isUpper
       | [u, l] => u.isUpper && l.isLower
       | _ => false)
  | [] => false

/-- The scaling applied to the base formula dictionary by the optional
leading `[<N>M` multiplier. -/
def scaledBase (d : List (String × ℤ)) (first : String) : List (String × ℤ) :=
  match bracketMult first with
  | some n => d.map (fun kv => (kv.1, (n : ℤ) * kv.2))
  | none => d

/-- The numeric multiplier of the optional leading `[<N>M` (1 when absent). -/
def multOf (first : String) : ℤ :=
  match bracketMult first with
  | some n => (n : ℤ)
  | none => 1

/-- The per-element count that `modify_formula_dict` is claimed to deliver:
the base count scaled by the optional leading `<N>M` multiplier plus the
signed contribution of each adduct term. -/
def modifiedCount (d : List (String × ℤ)) (adduct : String) (k : String) : ℤ :=
  multOf (splitSigns adduct.data).1 * dGetD d k 0 +
    ((splitSigns adduct.data).2.map
      (fun p => pySignInt p.1 (dGetD (get_element_count p.2) k 0))).sum

/-! ## Dictionary lemmas -/

theorem dFind_dSet_self [DecidableEq K] (d : List (K × V)) (k : K) (v : V) :
    dFind (dSet d k v) k = some v := by
  induction d with
  | nil => simp [dSet, dFind]
  | cons a d ih =>
    by_cases h : a.1 = k
    · simp [dSet, h, dFind]
    · simp [dSet, h, dFind, ih]

theorem dFind_dSet_ne [DecidableEq K] (d : List (K × V)) (k k' : K) (v : V)
    (h : k' ≠ k) : dFind (dSet d k v) k' = dFind d k' := by
  have hks : k ≠ k' := Ne.symm h
  induction d with
  | nil => simp [dSet, dFind, hks]
  | cons a d ih =>
    by_cases ha : a.1 = k
    · have han : ¬ a.1 = k' := by rw [ha]; exact hks
      simp [dSet, ha, dFind, han, hks]
    · simp only [dSet, if_neg ha, dFind]
      rw [ih]

theorem dGetD_dSet_self [DecidableEq K] (d : List (K × V)) (k : K) (v v0 : V) :
    dGetD (dSet d k v) k v0 = v := by
  simp [dGetD, dFind_dSet_self]

theorem dGetD_dSet_ne [DecidableEq K] (d : List (K × V)) (k k' : K) (v v0 : V)
    (h : k' ≠ k) : dGetD (dSet d k v) k' v0 = dGetD d k' v0 := by
  simp [dGetD, dFind_dSet_ne _ _ _ _ h]

theorem dKeys_dSet_mem [DecidableEq K] (d : List (K × V)) (k : K) (v : V)
    (h : k ∈ dKeys d) : dKeys (dSet d k v) = dKeys d := by
  induction d with
  | nil => simp [dKeys] at h
  | cons a d ih =>
    by_cases ha : a.1 = k
    · simp [dSet, ha, dKeys]
    · have hk : k ∈ dKeys d := by
        simp only [dKeys, List.map_cons, List.mem_cons] at h
        rcases h with h | h
        · exact absurd h.symm ha
        · exact h
      simp only [dSet, if_neg ha, dKeys, List.map_cons]
      have hh := ih hk
      simp only [dKeys] at hh
      rw [hh]

theorem dKeys_dSet_not_mem [DecidableEq K] (d : List (K × V)) (k : K) (v : V)
    (h : k ∉ dKeys d) : dKeys (dSet d k v) = dKeys d ++ [k] := by
  induction d with
  | nil => simp [dSet, dKeys]
  | cons a d ih =>
    simp only [dKeys, List.map_cons, List.mem_cons, not_or] at h
    have ha : ¬ a.1 = k := fun hh => h.1 hh.symm
    simp only [dSet, if_neg ha, dKeys, List.map_cons]
    have hh := ih (by simpa [dKeys] using h.2)
    simp only [dKeys] at hh
    rw [hh]
    simp

theorem nodupKeys_dSet [DecidableEq K] (d : List (K × V)) (k : K) (v : V)
    (h : NodupKeys d) : NodupKeys (dSet d k v) := by
  by_cases hk : k ∈ dKeys d
  · unfold NodupKeys
    rw [dKeys_dSet_mem d k v hk]
    exact h
  · unfold NodupKeys
    rw [dKeys_dSet_not_mem d k v hk, List.nodup_append]
    refine ⟨h, List.nodup_singleton _, ?_⟩
    intro x hx hx2
    simp only [List.mem_singleton] at hx2
    subst hx2
    exact hk hx

theorem dFind_eq_none [DecidableEq K] (d : List (K × V)) (k : K)
    (h : k ∉ dKeys d) : dFind d k = none := by
  induction d with
  | nil => rfl
  | cons a d ih =>
    simp only [dKeys, List.map_cons, List.mem_cons, not_or] at h
    have ha : ¬ a.1 = k := fun hh => h.1 hh.symm
    simp only [dFind, if_neg ha]
    exact ih h.2

theorem mem_dSet [DecidableEq K] (d : List (K × V)) (k : K) (v : V) :
    ∀ x ∈ dSet d k v, x ∈ d ∨ x = (k, v) := by
  induction d with
  | nil =>
    intro x hx
    simp only [dSet, List.mem_singleton] at hx
    exact Or.inr hx
  | cons a d ih =>
    intro x hx
    by_cases ha : a.1 = k
    · simp only [dSet, if_pos ha, List.mem_cons] at hx
      rcases hx with hx | hx
      · right; rw [hx, ha]
      · left; exact List.mem_cons_of_mem a hx
    · simp only [dSet, if_neg ha, List.mem_cons] at hx
      rcases hx with hx | hx
      · left; rw [hx]; exact List.mem_cons_self a d
      · rcases ih x hx with h | h
        · left; exact List.mem_cons_of_mem a h
        · right; exact h

theorem dFind_eq_of_mem [DecidableEq K] (d : List (K × V))
    (h : NodupKeys d) : ∀ kv ∈ d, dFind d kv.1 = some kv.2 := by
  induction d with
  | nil => simp
  | cons a d ih =>
    intro kv hkv
    simp only [List.mem_cons] at hkv
    simp only [NodupKeys, dKeys, List.map_cons, List.nodup_cons] at h
    rcases hkv with hkv | hkv
    · subst hkv
      simp [dFind]
    · have hne : ¬ a.1 = kv.1 := by
        intro he
        apply h.1
        rw [he]
        exact List.mem_map_of_mem Prod.fst hkv
      simp only [dFind, if_neg hne]
      exact ih h.2 kv hkv

/-! ## `aggregate_dict_values` lemmas -/

theorem agg_cons (a : String × ℤ) (d1 d2 : List (String × ℤ)) :
    aggregate_dict_values (a :: d1) d2 =
      aggregate_dict_values d1 (dSet d2 a.1 (dGetD d2 a.1 0 + a.2)) := by
  simp [aggregate_dict_values]

theorem agg_nodup (d1 d2 : List (String × ℤ)) (h : NodupKeys d2) :
    NodupKeys (aggregate_dict_values d1 d2) := by
  induction d1 generalizing d2 with
  | nil => simpa [aggregate_dict_values] using h
  | cons a d1 ih =>
    rw [agg_cons]
    exact ih _ (nodupKeys_dSet _ _ _ h)

theorem agg_getD (d1 d2 : List (String × ℤ)) (h : NodupKeys d1) (k : String) :
    dGetD (aggregate_dict_values d1 d2) k 0 = dGetD d2 k 0 + dGetD d1 k 0 := by
  induction d1 generalizing d2 with
  | nil => simp [aggregate_dict_values, dGetD, dFind]
  | cons a d1 ih =>
    rcases a with ⟨a1, a2⟩
    rw [agg_cons]
    simp only [NodupKeys, dKeys, List.map_cons, List.nodup_cons] at h
    rw [ih _ h.2]
    by_cases hk : k = a1
    · subst hk
      rw [dGetD_dSet_self]
      have h1 : dGetD d1 k 0 = 0 := by
        simp [dGetD, dFind_eq_none d1 k h.1]
      have h2 : dGetD ((k, a2) :: d1) k 0 = a2 := by
        simp [dGetD, dFind]
      rw [h1, h2]
      ring
    · rw [dGetD_dSet_ne _ _ _ _ _ hk]
      have h2 : dFind ((a1, a2) :: d1) k = dFind d1 k := by
        have hne : ¬ (a1 = k) := fun hh => hk hh.symm
        simp [dFind, hne]
      simp only [dGetD, h2]

theorem mem_of_dFind [DecidableEq K] (d : List (K × V)) (k : K) (v : V)
    (h : dFind d k = some v) : (k, v) ∈ d := by
  induction d with
  | nil => simp [dFind] at h
  | cons a d ih =>
    by_cases ha : a.1 = k
    · simp only [dFind, if_pos ha, Option.some.injEq] at h
      have hav : (k, v) = a := by
        rw [Prod.ext_iff]
        exact ⟨ha.symm, h.symm⟩
      rw [hav]
      exact List.mem_cons_self a d
    · simp only [dFind, if_neg ha] at h
      exact List.mem_cons_of_mem a (ih h)

theorem foldl_preserve {α β : Type} (P : β → Prop) (f : β → α → β)
    (hf : ∀ b a, P b → P (f b a)) : ∀ (l : List α) (b : β), P b → P (l.foldl f b) := by
  intro l
  induction l with
  | nil => intro b hb; exact hb
  | cons a l ih => intro b hb; exact ih _ (hf b a hb)

theorem gec_nodup (s : String) : NodupKeys (get_element_count s) := by
  unfold get_element_count
  apply foldl_preserve NodupKeys
  · intro b p hb
    apply foldl_preserve NodupKeys
    · intro b2 elem hb2
      exact agg_nodup _ _ hb2
    · exact hb
  · simp [NodupKeys, dKeys]

theorem dFind_map_val [DecidableEq K] (d : List (K × V)) (f : V → V) (k : K) :
    dFind (d.map (fun kv => (kv.1, f kv.2))) k = (dFind d k).map f := by
  induction d with
  | nil => simp [dFind]
  | cons a d ih =>
    by_cases ha : a.1 = k
    · simp [dFind, ha]
    · simp [dFind, ha, ih]

theorem dKeys_map_val [DecidableEq K] (d : List (K × V)) (f : V → V) :
    dKeys (d.map (fun kv => (kv.1, f kv.2))) = dKeys d := by
  induction d with
  | nil => rfl
  | cons a d ih =>
    simp only [dKeys, List.map_cons] at ih ⊢
    rw [ih]

theorem nodupKeys_map_val [DecidableEq K] (d : List (K × V)) (f : V → V)
    (h : NodupKeys d) : NodupKeys (d.map (fun kv => (kv.1, f kv.2))) := by
  unfold NodupKeys
  rw [dKeys_map_val]
  exact h

theorem signedTerm_getD (sgn : Char) (t : String) (k : String) :
    dGetD (signedTerm sgn t) k 0 = pySignInt sgn (dGetD (get_element_count t) k 0) := by
  unfold signedTerm dGetD
  rw [dFind_map_val]
  cases dFind (get_element_count t) k with
  | none => simp [pySignInt]
  | some v => simp

theorem signedTerm_nodup (sgn : Char) (t : String) : NodupKeys (signedTerm sgn t) :=
  nodupKeys_map_val _ _ (gec_nodup t)

theorem modify_fold_getD (terms : List (Char × String)) (acc : List (String × ℤ))
    (hacc : NodupKeys acc) :
    NodupKeys (terms.foldl
        (fun acc (p : Char × String) =>
          aggregate_dict_values acc
            ((get_element_count p.2).map (fun kv => (kv.1, pySignInt p.1 kv.2))))
        acc) ∧
    ∀ k, dGetD (terms.foldl
        (fun acc (p : Char × String) =>
          aggregate_dict_values acc
            ((get_element_count p.2).map (fun kv => (kv.1, pySignInt p.1 kv.2))))
        acc) k 0 =
      dGetD acc k 0 +
        (terms.map (fun p => pySignInt p.1 (dGetD (get_element_count p.2) k 0))).sum := by
  induction terms generalizing acc with
  | nil => exact ⟨hacc, by simp⟩
  | cons p terms ih =>
    have hstep : NodupKeys (aggregate_dict_values acc (signedTerm p.1 p.2)) :=
      agg_nodup _ _ (signedTerm_nodup p.1 p.2)
    have hrec := ih (aggregate_dict_values acc (signedTerm p.1 p.2)) hstep
    refine ⟨?_, ?_⟩
    · simpa [signedTerm] using hrec.1
    · intro k
      have h1 := hrec.2 k
      have h2 : dGetD (aggregate_dict_values acc (signedTerm p.1 p.2)) k 0 =
          dGetD acc k 0 + pySignInt p.1 (dGetD (get_element_count p.2) k 0) := by
        rw [agg_getD _ _ hacc, signedTerm_getD]
        ring
      simp only [signedTerm] at h1 h2
      simp only [List.foldl_cons, List.map_cons, List.sum_cons]
      rw [h1, h2]
      ring

theorem scaledBase_nodup (d : List (String × ℤ)) (first : String)
    (hnd : NodupKeys d) : NodupKeys (scaledBase d first) := by
  unfold scaledBase
  cases bracketMult first with
  | none => exact hnd
  | some n => exact nodupKeys_map_val _ _ hnd

theorem scaledBase_getD (d : List (String × ℤ)) (first : String) (k : String) :
    dGetD (scaledBase d first) k 0 = multOf first * dGetD d k 0 := by
  unfold scaledBase multOf
  cases bracketMult first with
  | none => simp
  | some n =>
    simp only [dGetD, dFind_map_val]
    cases dFind d k with
    | none => simp
    | some v => simp

theorem modify_formula_dict_eq (d : List (String × ℤ)) (adduct : String) :
    modify_formula_dict d adduct =
      (let u := (splitSigns adduct.data).2.foldl
          (fun acc (p : Char × String) =>
            aggregate_dict_values acc
              ((get_element_count p.2).map (fun kv => (kv.1, pySignInt p.1 kv.2))))
          (scaledBase d (splitSigns adduct.data).1)
       if u.any (fun kv => kv.2 < 0) then none else some u) := by
  unfold modify_formula_dict scaledBase
  rcases splitSigns adduct.data with ⟨first, terms⟩
  rfl

/-- Claim C5: `modify_formula_dict` returns `None` exactly when some count of
the resulting map (base map scaled by the optional leading `<N>M` multiplier
plus each signed term's per-element counts) is negative — a `None` return
value, never a raised error — and otherwise returns exactly that map. -/
theorem modify_formula_dict_spec (d : List (String × ℤ)) (adduct : String)
    (hnd : NodupKeys d) :
    (modify_formula_dict d adduct = none ↔ ∃ k, modifiedCount d adduct k < 0) ∧
    (∀ u, modify_formula_dict d adduct = some u →
      ∀ k, dGetD u k 0 = modifiedCount d adduct k) := by
  rw [modify_formula_dict_eq]
  unfold modifiedCount
  set first := (splitSigns adduct.data).1 with hfirst
  set terms := (splitSigns adduct.data).2 with hterms
  simp only
  have hbase_nodup : NodupKeys (scaledBase d first) := scaledBase_nodup d first hnd
  have hfold := modify_fold_getD terms (scaledBase d first) hbase_nodup
  set u := terms.foldl
      (fun acc (p : Char × String) =>
        aggregate_dict_values acc
          ((get_element_count p.2).map (fun kv => (kv.1, pySignInt p.1 kv.2))))
      (scaledBase d first) with hu
  have hudG : ∀ k, dGetD u k 0 =
      multOf first * dGetD d k 0 +
      (terms.map (fun p => pySignInt p.1 (dGetD (get_element_count p.2) k 0))).sum := by
    intro k
    rw [← scaledBase_getD d first k]
    exact hfold.2 k
  constructor
  · constructor
    · intro hnone
      by_cases hany : u.any (fun kv => decide (kv.2 < 0))
      · rw [List.any_eq_true] at hany
        rcases hany with ⟨kv, hmem, hlt⟩
        refine ⟨kv.1, ?_⟩
        rw [← hudG kv.1]
        have hf := dFind_eq_of_mem u hfold.1 kv hmem
        simp only [dGetD, hf, Option.getD]
        simpa using hlt
      · simp only [hany] at hnone
        exact absurd hnone (by simp)
    · intro hex
      rcases hex with ⟨k, hk⟩
      rw [← hudG k] at hk
      have hfind : ∃ v, dFind u k = some v ∧ v < 0 := by
        cases hf : dFind u k with
        | none => simp [dGetD, hf] at hk
        | some v =>
          refine ⟨v, rfl, ?_⟩
          simpa [dGetD, hf] using hk
      rcases hfind with ⟨v, hv, hvneg⟩
      have hmem := mem_of_dFind u k v hv
      have hany : u.any (fun kv => decide (kv.2 < 0)) = true := by
        rw [List.any_eq_true]
        exact ⟨(k, v), hmem, by simpa using hvneg⟩
      simp [hany]
  · intro u' hu' k
    by_cases hany : u.any (fun kv => decide (kv.2 < 0))
    · simp [hany] at hu'
    · simp only [hany] at hu'
      simp only [Bool.false_eq_true, if_false, Option.some.injEq] at hu'
      rw [← hu', hudG k]

/-- Witness for C5 at the test vector `{N:0, C:5, O:2, H:8}` with adduct
`[M+H-NH4]`. -/
theorem modify_formula_dict_spec_witness :
    modify_formula_dict [("N", 0), ("C", 5), ("O", 2), ("H", 8)] "[M+H-NH4]" = none ∧
    modifiedCount [("N", 0), ("C", 5), ("O", 2), ("H", 8)] "[M+H-NH4]" "N" < 0 :=
  ⟨((modify_formula_dict_spec [("N", 0), ("C", 5), ("O", 2), ("H", 8)] "[M+H-NH4]"
      (by decide)).1).mpr ⟨"N", by decide⟩, by decide⟩

/-! ## Claim C7: decoy parsing -/

/-- Claim C7 counterexample: the input `"+"` does not match the grammar
`Sign [Digits] ElementSymbol`, yet `get_decoy_info` raises no error — it
returns `("", 1, +1)` — so the claimed "raises exactly when the input does not
match the grammar" is false. -/
theorem get_decoy_info_counterexample :
    get_decoy_info "+" = .ok ("", 1, 1) ∧ decoyGrammarSpec "+" = false := by
  decide

/-- Claim C7 (amended): `get_decoy_info` maps `"+2Fe"` to `("Fe", 2, +1)` and
`"-H"` to `("H", 1, -1)`, and it raises exactly when the input does not start
with a sign character (so `"Fe+"` raises, but strings such as `"+"` that
start with a sign and still violate the `Sign [Digits] ElementSymbol` grammar
do not). -/
theorem get_decoy_info_spec :
    get_decoy_info "+2Fe" = .ok ("Fe", 2, 1) ∧
    get_decoy_info "-H" = .ok ("H", 1, -1) ∧
    get_decoy_info "Fe+" = .error () ∧
    ∀ s : String, get_decoy_info s = .error () ↔
      ¬ ∃ c rest, s.data = c :: rest ∧ (c = '+' ∨ c = '-') := by
  refine ⟨by decide, by decide, by decide, ?_⟩
  intro s
  cases hs : s.data with
  | nil =>
    simp only [get_decoy_info, hs]
    constructor
    · intro _ hex
      rcases hex with ⟨c, rest, habs, _⟩
      cases habs
    · intro _
      trivial
  | cons c rest =>
    by_cases hc : c = '+' ∨ c = '-'
    · simp only [get_decoy_info, hs, if_pos hc]
      constructor
      · intro h
        cases h
      · intro h
        exact absurd ⟨c, rest, rfl, hc⟩ h
    · simp only [get_decoy_info, hs, if_neg hc]
      constructor
      · intro _ hex
        rcases hex with ⟨c', rest', heq, hc'⟩
        cases heq
        exact hc hc'
      · intro _
        trivial

/-! ## Compound construction lemmas -/

theorem mkCompound_ok (f : List (String × ℤ)) (db : List Element) (c : Compound)
    (h : mkCompound f db = .ok c) :
    ∃ ec, order_elements db f = .ok ec ∧ monomassOf ec ≠ 0 ∧
      c = { element_count := ec
            formula := renderFormula ec
            monomass := monomassOf ec
            monoabund := monoabundOf ec
            monoisos := ec.map (fun p => p.1.monoisotope)
            nonmonoisos := ec.flatMap (fun p => p.1.other_isotopes) } := by
  unfold mkCompound at h
  cases hoe : order_elements db f with
  | error err => rw [hoe] at h; cases h
  | ok ec =>
    rw [hoe] at h
    simp only at h
    by_cases hm : monomassOf ec = 0
    · rw [if_pos hm] at h; cases h
    · rw [if_neg hm] at h
      simp only [Except.ok.injEq] at h
      exact ⟨ec, rfl, hm, h.symm⟩

theorem order_elements_ok (db : List Element) (f : List (String × ℤ))
    (ec : List (Element × ℤ)) (h : order_elements db f = .ok ec) :
    ∃ pairs,
      lookupAll db ((dMerge (VALID_ELEMENTS.map (fun k => (k, 0))) f).filter
        (fun kv => decide (kv.2 ≠ 0))) = .ok pairs ∧
      ec = pairs.foldl (fun acc (p : Element × ℤ) => dSet acc p.1 p.2) [] := by
  unfold order_elements at h
  cases hla : lookupAll db ((dMerge (VALID_ELEMENTS.map (fun k => (k, 0))) f).filter
      (fun kv => decide (kv.2 ≠ 0))) with
  | error err => rw [hla] at h; cases h
  | ok pairs =>
    rw [hla] at h
    simp only [Except.ok.injEq] at h
    exact ⟨pairs, rfl, h.symm⟩

theorem strLookup_mem (db : List Element) (k : String) (e : Element)
    (h : strLookup db k = some e) : e ∈ db := by
  induction db with
  | nil => cases h
  | cons a db ih =>
    unfold strLookup at h
    by_cases hc : (a.symbol == k || a.isotopes.any (fun i => i.symbol == k)) = true
    · rw [if_pos hc] at h
      simp only [Option.some.injEq] at h
      rw [← h]
      exact List.mem_cons_self a db
    · rw [if_neg hc] at h
      exact List.mem_cons_of_mem a (ih h)

theorem lookupAll_mem (db : List Element) (l : List (String × ℤ))
    (pairs : List (Element × ℤ)) (h : lookupAll db l = .ok pairs) :
    ∀ p ∈ pairs, ∃ kv ∈ l, strLookup db kv.1 = some p.1 ∧ p.2 = kv.2 := by
  induction l generalizing pairs with
  | nil =>
    unfold lookupAll at h
    simp only [Except.ok.injEq] at h
    rw [← h]
    simp
  | cons kv rest ih =>
    unfold lookupAll at h
    cases hsl : strLookup db kv.1 with
    | none => rw [hsl] at h; cases h
    | some e =>
      rw [hsl] at h
      cases hrec : lookupAll db rest with
      | error err => rw [hrec] at h; cases h
      | ok ps =>
        rw [hrec] at h
        simp only [Except.ok.injEq] at h
        rw [← h]
        intro p hp
        rcases List.mem_cons.mp hp with hp | hp
        · subst hp
          exact ⟨kv, List.mem_cons_self kv rest, hsl, rfl⟩
        · rcases ih ps hrec p hp with ⟨kv', hkv', hsl', hv'⟩
          exact ⟨kv', List.mem_cons_of_mem kv hkv', hsl', hv'⟩

theorem mem_foldl_dSet [DecidableEq K] (l : List (K × V)) :
    ∀ acc, ∀ x ∈ l.foldl (fun acc (p : K × V) => dSet acc p.1 p.2) acc,
      x ∈ acc ∨ x ∈ l := by
  induction l with
  | nil =>
    intro acc x hx
    exact Or.inl hx
  | cons a l ih =>
    intro acc x hx
    simp only [List.foldl_cons] at hx
    rcases ih (dSet acc a.1 a.2) x hx with h | h
    · rcases mem_dSet acc a.1 a.2 x h with h2 | h2
      · exact Or.inl h2
      · right
        rw [h2, Prod.mk.eta]
        exact List.mem_cons_self a l
    · exact Or.inr (List.mem_cons_of_mem a h)

/-! ## Claim C8: the element-count invariants -/

/-- Claim C8 (amended): for every successfully constructed compound, the
element-count mapping contains no zero count and every element present is an
entry of the isotope database resolved from the formula keys; the
`VALID_ELEMENTS` whitelist only fixes the element order — no rejection of
non-whitelist elements happens (see the counterexample). -/
theorem compound_elements_spec (db : List Element) (f : List (String × ℤ))
    (c : Compound) (h : mkCompound f db = .ok c) :
    (∀ p ∈ c.element_count, p.2 ≠ 0) ∧ (∀ p ∈ c.element_count, p.1 ∈ db) := by
  rcases mkCompound_ok f db c h with ⟨ec, hoe, hm, hc⟩
  rcases order_elements_ok db f ec hoe with ⟨pairs, hla, hec⟩
  have hpairs : ∀ p ∈ pairs, p.2 ≠ 0 ∧ p.1 ∈ db := by
    intro p hp
    rcases lookupAll_mem db _ pairs hla p hp with ⟨kv, hkv, hsl, hv⟩
    constructor
    · rw [hv]
      have := List.mem_filter.mp hkv
      simpa using this.2
    · exact strLookup_mem db kv.1 p.1 hsl
  have hmem : ∀ p ∈ c.element_count, p ∈ pairs := by
    intro p hp
    rw [hc] at hp
    simp only at hp
    rw [hec] at hp
    rcases mem_foldl_dSet pairs [] p hp with h2 | h2
    · cases h2
    · exact h2
  exact ⟨fun p hp => (hpairs p (hmem p hp)).1, fun p hp => (hpairs p (hmem p hp)).2⟩

/-- Evaluation of the construction of `{Fe: 1}` over the sample database. -/
theorem mkCompound_Fe_eval : mkCompound [("Fe", 1)] sampleDB = .ok compoundFe := by
  have h1 : order_elements sampleDB [("Fe", 1)] = .ok [(elemFe, 1)] := by
    simp +decide only [order_elements, lookupAll, VALID_ELEMENTS, dMerge, dSet, strLookup,
      sampleDB, elemC, elemH, elemO, elemF, elemFe, List.filter, List.foldl, List.map]
  have hmono : Element.monoisotope elemFe =
      ⟨"56Fe", mkRat 5593493633 (10 ^ 8), mkRat 91754 (10 ^ 5)⟩ := by
    norm_num [Element.monoisotope, sortIsotopes, insertIso, elemFe, junkIsotope]
  have hother : Element.other_isotopes elemFe =
      [⟨"54Fe", mkRat 5393960899 (10 ^ 8), mkRat 5845 (10 ^ 5)⟩] := by
    norm_num [Element.other_isotopes, sortIsotopes, insertIso, elemFe, junkIsotope]
  have hsym : elemFe.symbol = "Fe" := rfl
  rw [mkCompound, h1]
  simp only [monomassOf, monoabundOf, renderFormula, List.foldl, List.map, List.flatMap,
    hmono, hother, hsym]
  norm_num [compoundFe, Compound.mk.injEq, pyIntStr, hmono, hother]

/-- Claim C8 counterexample: the compound `{Fe: 1}` — iron supplied directly
in the formula, not via any adduct — is accepted by construction although
`"Fe"` is outside the whitelist, so "construction rejects elements outside
this set" is false. -/
theorem compound_whitelist_counterexample :
    (∃ c, mkCompound [("Fe", 1)] sampleDB = .ok c ∧
      ∃ p ∈ c.element_count, p.1.symbol = "Fe" ∧ p.2 = 1) ∧
    "Fe" ∉ VALID_ELEMENTS := by
  constructor
  · refine ⟨compoundFe, mkCompound_Fe_eval, ⟨(elemFe, 1), ?_, rfl, rfl⟩⟩
    simp [compoundFe]
  · decide

/-- Witness for C8 at the compound `{Fe: 1}`. -/
theorem compound_elements_spec_witness :
    (∀ p ∈ compoundFe.element_count, p.2 ≠ 0) ∧
    (∀ p ∈ compoundFe.element_count, p.1 ∈ sampleDB) :=
  compound_elements_spec sampleDB [("Fe", 1)] compoundFe mkCompound_Fe_eval

/-! ## Claim C6: monoisotopic mass and abundance -/

theorem mem_insertIso (i : Isotope) (l : List Isotope) :
    ∀ x ∈ insertIso i l, x = i ∨ x ∈ l := by
  induction l with
  | nil =>
    intro x hx
    simp only [insertIso, List.mem_singleton] at hx
    exact Or.inl hx
  | cons j l ih =>
    intro x hx
    unfold insertIso at hx
    by_cases hc : i.abundance ≤ j.abundance
    · rw [if_pos hc] at hx
      rcases List.mem_cons.mp hx with h | h
      · exact Or.inl h
      · exact Or.inr h
    · rw [if_neg hc] at hx
      rcases List.mem_cons.mp hx with h | h
      · exact Or.inr (h ▸ List.mem_cons_self j l)
      · rcases ih x h with h2 | h2
        · exact Or.inl h2
        · exact Or.inr (List.mem_cons_of_mem j h2)

theorem mem_sortIsotopes (l : List Isotope) : ∀ x ∈ sortIsotopes l, x ∈ l := by
  induction l with
  | nil => simp [sortIsotopes]
  | cons i l ih =>
    intro x hx
    unfold sortIsotopes at hx
    rcases mem_insertIso i (sortIsotopes l) x hx with h | h
    · exact h ▸ List.mem_cons_self i l
    · exact List.mem_cons_of_mem i (ih x h)

theorem insertIso_ne_nil (i : Isotope) (l : List Isotope) : insertIso i l ≠ [] := by
  cases l with
  | nil => simp [insertIso]
  | cons j l =>
    unfold insertIso
    by_cases hc : i.abundance ≤ j.abundance
    · simp [hc]
    · simp [hc]

theorem sortIsotopes_ne_nil (l : List Isotope) (h : l ≠ []) : sortIsotopes l ≠ [] := by
  cases l with
  | nil => exact absurd rfl h
  | cons i l => exact insertIso_ne_nil i (sortIsotopes l)

theorem getLastD_mem (l : List Isotope) (d : Isotope) (h : l ≠ []) :
    l.getLastD d ∈ l := by
  induction l generalizing d with
  | nil => exact absurd rfl h
  | cons a l ih =>
    cases hl : l with
    | nil => simp [List.getLastD]
    | cons b l2 =>
      rw [List.getLastD_cons]
      have hm := ih a (by rw [hl]; simp)
      rw [hl] at hm
      exact List.mem_cons_of_mem a hm

theorem monoisotope_mem (e : Element) (h : e.isotopes ≠ []) :
    e.monoisotope ∈ e.isotopes := by
  unfold Element.monoisotope
  exact mem_sortIsotopes _ _
    (getLastD_mem _ _ (sortIsotopes_ne_nil _ h))

theorem order_elements_entry_vals (db : List Element) (f : List (String × ℤ))
    (ec : List (Element × ℤ)) (h : order_elements db f = .ok ec) :
    ∀ p ∈ ec, p.1 ∈ db ∧ p.2 ≠ 0 ∧ ∃ kv ∈ f, p.2 = kv.2 := by
  rcases order_elements_ok db f ec h with ⟨pairs, hla, hec⟩
  intro p hp
  have hp2 : p ∈ pairs := by
    rw [hec] at hp
    rcases mem_foldl_dSet pairs [] p hp with h2 | h2
    · cases h2
    · exact h2
  rcases lookupAll_mem db _ pairs hla p hp2 with ⟨kv, hkv, hsl, hv⟩
  have hkv2 := List.mem_filter.mp hkv
  have hkvne : kv.2 ≠ 0 := by simpa using hkv2.2
  have hkvm : kv ∈ VALID_ELEMENTS.map (fun k => (k, (0 : ℤ))) ∨ kv ∈ f :=
    mem_foldl_dSet f (VALID_ELEMENTS.map (fun k => (k, 0))) kv hkv2.1
  refine ⟨strLookup_mem db kv.1 p.1 hsl, by rw [hv]; exact hkvne, ?_⟩
  rcases hkvm with hbase | hf
  · exfalso
    rcases List.mem_map.mp hbase with ⟨k, _, hk⟩
    apply hkvne
    rw [← hk]
  · exact ⟨kv, hf, hv⟩

theorem monomassOf_nonneg (ec : List (Element × ℤ))
    (h : ∀ p ∈ ec, 0 ≤ p.1.monoisotope.mass * (p.2 : ℚ)) : 0 ≤ monomassOf ec := by
  unfold monomassOf
  have hgen : ∀ (l : List (Element × ℤ)) (init : ℚ), 0 ≤ init →
      (∀ p ∈ l, 0 ≤ p.1.monoisotope.mass * (p.2 : ℚ)) →
      0 ≤ l.foldl (fun m (p : Element × ℤ) => m + p.1.monoisotope.mass * p.2) init := by
    intro l
    induction l with
    | nil => intro init h0 _; simpa using h0
    | cons a l ih =>
      intro init h0 hl
      simp only [List.foldl_cons]
      exact ih _ (add_nonneg h0 (hl a (List.mem_cons_self a l)))
        (fun p hp => hl p (List.mem_cons_of_mem a hp))
  exact hgen ec 0 le_rfl h

theorem monoabundOf_bounds (ec : List (Element × ℤ))
    (h : ∀ p ∈ ec, 0 < p.1.monoisotope.abundance ^ p.2 ∧
      p.1.monoisotope.abundance ^ p.2 ≤ 1) :
    0 < monoabundOf ec ∧ monoabundOf ec ≤ 1 := by
  unfold monoabundOf
  have hgen : ∀ (l : List (Element × ℤ)) (init : ℚ), 0 < init → init ≤ 1 →
      (∀ p ∈ l, 0 < p.1.monoisotope.abundance ^ p.2 ∧
        p.1.monoisotope.abundance ^ p.2 ≤ 1) →
      0 < l.foldl (fun a (p : Element × ℤ) => a * p.1.monoisotope.abundance ^ p.2) init ∧
      l.foldl (fun a (p : Element × ℤ) => a * p.1.monoisotope.abundance ^ p.2) init ≤ 1 := by
    intro l
    induction l with
    | nil => intro init h0 h1 _; simpa using ⟨h0, h1⟩
    | cons a l ih =>
      intro init h0 h1 hl
      have ha := hl a (List.mem_cons_self a l)
      simp only [List.foldl_cons]
      refine ih _ (mul_pos h0 ha.1) ?_ (fun p hp => hl p (List.mem_cons_of_mem a hp))
      calc init * a.1.monoisotope.abundance ^ a.2 ≤ 1 * 1 :=
        mul_le_mul h1 ha.2 (le_of_lt ha.1) zero_le_one
      _ = 1 := by ring
  exact hgen ec 1 one_pos le_rfl h

/-- Claim C6: with the element counts nonnegative and the reference masses
nonnegative, construction raises `ComputationError` exactly when the computed
total monoisotopic mass is zero; a successfully constructed compound has
`monomass > 0`, and when every isotope abundance lies in `(0, 1]` its
`monoabund` lies in `(0, 1]`. -/
theorem compound_mass_abundance_spec (db : List Element) (f : List (String × ℤ))
    (ec : List (Element × ℤ)) (hoe : order_elements db f = .ok ec)
    (hcnt : ∀ kv ∈ f, 0 ≤ kv.2)
    (hmass : ∀ e ∈ db, ∀ i ∈ e.isotopes, 0 ≤ i.mass)
    (hne : ∀ e ∈ db, e.isotopes ≠ []) :
    (mkCompound f db = .error CompError.computationError ↔ monomassOf ec = 0) ∧
    (∀ c, mkCompound f db = .ok c → 0 < c.monomass) ∧
    ((∀ e ∈ db, ∀ i ∈ e.isotopes, 0 < i.abundance ∧ i.abundance ≤ 1) →
      ∀ c, mkCompound f db = .ok c → 0 < c.monoabund ∧ c.monoabund ≤ 1) := by
  have hvals := order_elements_entry_vals db f ec hoe
  have hpos : ∀ p ∈ ec, 0 < p.2 := by
    intro p hp
    rcases hvals p hp with ⟨_, hne0, kv, hkv, hv⟩
    have := hcnt kv hkv
    omega
  have hmkunf : mkCompound f db =
      (if monomassOf ec = 0 then .error CompError.computationError
       else .ok { element_count := ec
                  formula := renderFormula ec
                  monomass := monomassOf ec
                  monoabund := monoabundOf ec
                  monoisos := ec.map (fun p => p.1.monoisotope)
                  nonmonoisos := ec.flatMap (fun p => p.1.other_isotopes) }) := by
    unfold mkCompound
    rw [hoe]
  refine ⟨?_, ?_, ?_⟩
  · rw [hmkunf]
    by_cases hm : monomassOf ec = 0
    · simp [hm]
    · simp only [if_neg hm]
      constructor
      · intro hh; cases hh
      · intro hh; exact absurd hh hm
  · intro c hc
    rw [hmkunf] at hc
    by_cases hm : monomassOf ec = 0
    · rw [if_pos hm] at hc; cases hc
    · rw [if_neg hm] at hc
      simp only [Except.ok.injEq] at hc
      have hnn : 0 ≤ monomassOf ec := by
        apply monomassOf_nonneg
        intro p hp
        rcases hvals p hp with ⟨hpd, _, _⟩
        have h1 : 0 ≤ p.1.monoisotope.mass :=
          hmass p.1 hpd p.1.monoisotope (monoisotope_mem p.1 (hne p.1 hpd))
        have h2 : (0 : ℚ) ≤ (p.2 : ℚ) := by
          have := hpos p hp
          exact_mod_cast le_of_lt this
        exact mul_nonneg h1 h2
      rw [← hc]
      simp only
      exact lt_of_le_of_ne hnn (fun hh => hm hh.symm)
  · intro habund c hc
    rw [hmkunf] at hc
    by_cases hm : monomassOf ec = 0
    · rw [if_pos hm] at hc; cases hc
    · rw [if_neg hm] at hc
      simp only [Except.ok.injEq] at hc
      have hb : 0 < monoabundOf ec ∧ monoabundOf ec ≤ 1 := by
        apply monoabundOf_bounds
        intro p hp
        rcases hvals p hp with ⟨hpd, _, _⟩
        have ha := habund p.1 hpd p.1.monoisotope (monoisotope_mem p.1 (hne p.1 hpd))
        have hp2 : (0 : ℤ) ≤ p.2 := le_of_lt (hpos p hp)
        constructor
        · exact zpow_pos ha.1 p.2
        · rw [show p.2 = (p.2.toNat : ℤ) from (Int.toNat_of_nonneg hp2).symm, zpow_natCast]
          exact pow_le_one₀ (le_of_lt ha.1) ha.2
      rw [← hc]
      exact hb

/-- Evaluation of `order_elements` for `{F: 1}` over the sample database. -/
theorem order_elements_F_eval :
    order_elements sampleDB [("F", 1)] = .ok [(elemF, 1)] := by
  simp +decide only [order_elements, lookupAll, VALID_ELEMENTS, dMerge, dSet, strLookup,
    sampleDB, elemC, elemH, elemO, elemF, elemFe, List.filter, List.foldl, List.map]

/-- Evaluation of the construction of `{F: 1}` over the sample database. -/
theorem mkCompound_F_eval : mkCompound [("F", 1)] sampleDB = .ok compoundF := by
  have hmono : Element.monoisotope elemF =
      ⟨"19F", mkRat 18998403163 (10 ^ 9), 1⟩ := by
    norm_num [Element.monoisotope, sortIsotopes, insertIso, elemF, junkIsotope]
  have hother : Element.other_isotopes elemF = [] := by
    norm_num [Element.other_isotopes, sortIsotopes, insertIso, elemF, junkIsotope]
  have hsym : elemF.symbol = "F" := rfl
  rw [mkCompound, order_elements_F_eval]
  simp only [monomassOf, monoabundOf, renderFormula, List.foldl, List.map, List.flatMap,
    hmono, hother, hsym]
  norm_num [compoundF, Compound.mk.injEq, pyIntStr]

/-- Witness for C6 at the compound `{F: 1}`. -/
theorem compound_mass_abundance_spec_witness :
    0 < compoundF.monomass ∧ 0 < compoundF.monoabund ∧ compoundF.monoabund ≤ 1 := by
  have h := compound_mass_abundance_spec sampleDB [("F", 1)] [(elemF, 1)]
    order_elements_F_eval (by decide) (by decide) (by decide)
  have habund : ∀ e ∈ sampleDB, ∀ i ∈ e.isotopes, 0 < i.abundance ∧ i.abundance ≤ 1 := by
    decide
  have h3 := h.2.2 habund compoundF mkCompound_F_eval
  exact ⟨h.2.1 compoundF mkCompound_F_eval, h3.1, h3.2⟩

/-! ## Claim C2: one substitution step -/

/-- Claim C2: for an active row (`stop == 0`) with substitution target `t`
owned by element `e`, a step with at least one monoisotopic atom available
performs exactly the claimed update — new mass
`mass − monoisotopeMass + targetMass`; new abundance
`abundance × (targetAbundance / (targetCountBefore + 1)) ×
(monoCountBefore / monoisotopeAbundance)`; monoisotope count decremented,
target count incremented, generation incremented, and `stop = 1` exactly when
the new abundance falls below the limit — while a row whose target has no
monoisotopic atom left is discarded (an all-`None` row). -/
theorem isotope_permutation_spec (db : List Element) (limit : ℚ) (r : Row)
    (t : Isotope) (e : Element)
    (hstop : r.stop = false) (ht : r.noniso = some t)
    (he : isoGetElem db t = .ok e)
    (hsym : e.monoisotope.symbol ≠ t.symbol) :
    (dGetD r.counts e.monoisotope.symbol 0 = 0 →
      isotope_permutation db limit r = .ok none) ∧
    (dGetD r.counts e.monoisotope.symbol 0 ≠ 0 →
      isotope_permutation db limit r = .ok (some
        { counts := dSet (dSet r.counts e.monoisotope.symbol
              (dGetD r.counts e.monoisotope.symbol 0 - 1)) t.symbol
              (dGetD r.counts t.symbol 0 + 1)
          mass := r.mass - e.monoisotope.mass + t.mass
          abundance := r.abundance * (t.abundance / (dGetD r.counts t.symbol 0 + 1)
            * (dGetD r.counts e.monoisotope.symbol 0 / e.monoisotope.abundance))
          generation := r.generation + 1
          stop := decide (r.abundance * (t.abundance / (dGetD r.counts t.symbol 0 + 1)
            * (dGetD r.counts e.monoisotope.symbol 0 / e.monoisotope.abundance)) < limit)
          noniso := some t })) := by
  constructor
  · intro hm
    unfold isotope_permutation
    rw [hstop, ht]
    simp only [Bool.false_eq_true, if_false]
    rw [he]
    simp [hm]
  · intro hm
    unfold isotope_permutation
    rw [hstop, ht]
    simp only [Bool.false_eq_true, if_false]
    rw [he]
    simp only [if_neg hm]
    have hread : dGetD (dSet r.counts e.monoisotope.symbol
        (dGetD r.counts e.monoisotope.symbol 0 - 1)) t.symbol 0 =
        dGetD r.counts t.symbol 0 :=
      dGetD_dSet_ne _ _ _ _ _ (fun hh => hsym hh.symm)
    rw [hread]

/-- Witness for C2: the step applied to the concrete iron row. -/
theorem isotope_permutation_spec_witness :
    ∃ r', isotope_permutation sampleDB 0 rowFe = .ok (some r') :=
  ⟨_, (isotope_permutation_spec sampleDB 0 rowFe iso54 elemFe rfl rfl
    (by decide) (by decide)).2 (by decide)⟩

/-! ## Claim C9: frame conditions of the mutating dictionary operations -/

theorem hGet_append (h : Heap) (d : List (String × ℤ)) (i : ℕ) (hi : i < h.length) :
    hGet (h ++ [d]) i = hGet h i := by
  unfold hGet
  induction h generalizing i with
  | nil => cases hi
  | cons a h ih =>
    cases i with
    | zero => rfl
    | succ i =>
      simp only [List.cons_append, List.getD_cons_succ]
      exact ih i (by simpa using hi)

theorem hGet_append_self (h : Heap) (d : List (String × ℤ)) :
    hGet (h ++ [d]) h.length = d := by
  unfold hGet
  induction h with
  | nil => rfl
  | cons a h ih =>
    simpa only [List.cons_append, List.length_cons, List.getD_cons_succ] using ih

theorem hGet_set_self (h : Heap) (j : ℕ) (d : List (String × ℤ)) (hj : j < h.length) :
    hGet (hSet h j d) j = d := by
  unfold hGet hSet
  induction h generalizing j with
  | nil => cases hj
  | cons a h ih =>
    cases j with
    | zero => rfl
    | succ j =>
      simp only [List.set_cons_succ, List.getD_cons_succ]
      exact ih j (by simpa using hj)

theorem hGet_set_ne (h : Heap) (i j : ℕ) (d : List (String × ℤ)) (hij : i ≠ j) :
    hGet (hSet h j d) i = hGet h i := by
  unfold hGet hSet
  induction h generalizing i j with
  | nil => rfl
  | cons a h ih =>
    cases j with
    | zero =>
      cases i with
      | zero => exact absurd rfl hij
      | succ i => rfl
    | succ j =>
      cases i with
      | zero => rfl
      | succ i =>
        simp only [List.set_cons_succ, List.getD_cons_succ]
        exact ih i j (fun hh => hij (by rw [hh]))

theorem hSet_length (h : Heap) (j : ℕ) (d : List (String × ℤ)) :
    (hSet h j d).length = h.length := by
  simp [hSet]

theorem modify_terms_fold_frame (terms : List (Char × String)) :
    ∀ (st0 : Heap × ℕ), st0.2 < st0.1.length →
      (∀ i, i < st0.1.length →
        hGet (terms.foldl
          (fun (st : Heap × ℕ) (p : Char × String) =>
            let al := hAlloc st.1 (signedTerm p.1 p.2)
            aggImp al.1 st.2 al.2) st0).1 i = hGet st0.1 i) ∧
      (terms.foldl
          (fun (st : Heap × ℕ) (p : Char × String) =>
            let al := hAlloc st.1 (signedTerm p.1 p.2)
            aggImp al.1 st.2 al.2) st0).2 <
        (terms.foldl
          (fun (st : Heap × ℕ) (p : Char × String) =>
            let al := hAlloc st.1 (signedTerm p.1 p.2)
            aggImp al.1 st.2 al.2) st0).1.length ∧
      st0.1.length ≤ (terms.foldl
          (fun (st : Heap × ℕ) (p : Char × String) =>
            let al := hAlloc st.1 (signedTerm p.1 p.2)
            aggImp al.1 st.2 al.2) st0).1.length ∧
      hGet (terms.foldl
          (fun (st : Heap × ℕ) (p : Char × String) =>
            let al := hAlloc st.1 (signedTerm p.1 p.2)
            aggImp al.1 st.2 al.2) st0).1
        (terms.foldl
          (fun (st : Heap × ℕ) (p : Char × String) =>
            let al := hAlloc st.1 (signedTerm p.1 p.2)
            aggImp al.1 st.2 al.2) st0).2 =
        terms.foldl (fun acc (p : Char × String) =>
          aggregate_dict_values acc (signedTerm p.1 p.2)) (hGet st0.1 st0.2) := by
  induction terms with
  | nil =>
    intro st0 hst0
    exact ⟨fun i _ => rfl, hst0, le_rfl, rfl⟩
  | cons p terms ih =>
    intro st0 hst0
    simp only [List.foldl_cons]
    have hstep : (let al := hAlloc st0.1 (signedTerm p.1 p.2)
        aggImp al.1 st0.2 al.2) =
        (hSet (st0.1 ++ [signedTerm p.1 p.2]) st0.1.length
          (aggregate_dict_values (hGet st0.1 st0.2) (signedTerm p.1 p.2)), st0.1.length) := by
      simp only [hAlloc, aggImp]
      rw [hGet_append st0.1 _ st0.2 hst0, hGet_append_self]
    rw [hstep]
    set h2 := hSet (st0.1 ++ [signedTerm p.1 p.2]) st0.1.length
      (aggregate_dict_values (hGet st0.1 st0.2) (signedTerm p.1 p.2)) with hh2
    have hlen2 : h2.length = st0.1.length + 1 := by
      rw [hh2, hSet_length]
      simp
    have huf2 : st0.1.length < h2.length := by omega
    have hcells : ∀ i, i < st0.1.length → hGet h2 i = hGet st0.1 i := by
      intro i hi
      rw [hh2, hGet_set_ne _ _ _ _ (by omega), hGet_append st0.1 _ i hi]
    have hval : hGet h2 st0.1.length =
        aggregate_dict_values (hGet st0.1 st0.2) (signedTerm p.1 p.2) := by
      rw [hh2]
      exact hGet_set_self _ _ _ (by simp)
    rcases ih (h2, st0.1.length) huf2 with ⟨ih1, ih2, ih3, ih4⟩
    refine ⟨?_, ih2, ?_, ?_⟩
    · intro i hi
      rw [ih1 i (by simp only; omega), hcells i hi]
    · calc st0.1.length ≤ h2.length := by omega
      _ ≤ _ := ih3
    · rw [ih4]
      simp only
      rw [hval]

theorem modify_run_spec (terms : List (Char × String)) (h : Heap) (start : Heap × ℕ)
    (hless : start.2 < start.1.length)
    (hcells : ∀ i, i < h.length → hGet start.1 i = hGet h i)
    (hlen : h.length ≤ start.1.length) :
    (∀ i, i < h.length →
      hGet (if (hGet (terms.foldl
            (fun (st : Heap × ℕ) (p : Char × String) =>
              let al := hAlloc st.1 (signedTerm p.1 p.2)
              aggImp al.1 st.2 al.2) start).1
          (terms.foldl
            (fun (st : Heap × ℕ) (p : Char × String) =>
              let al := hAlloc st.1 (signedTerm p.1 p.2)
              aggImp al.1 st.2 al.2) start).2).any (fun kv => kv.2 < 0)
        then ((terms.foldl
            (fun (st : Heap × ℕ) (p : Char × String) =>
              let al := hAlloc st.1 (signedTerm p.1 p.2)
              aggImp al.1 st.2 al.2) start).1, (none : Option ℕ))
        else ((terms.foldl
            (fun (st : Heap × ℕ) (p : Char × String) =>
              let al := hAlloc st.1 (signedTerm p.1 p.2)
              aggImp al.1 st.2 al.2) start).1,
          some (terms.foldl
            (fun (st : Heap × ℕ) (p : Char × String) =>
              let al := hAlloc st.1 (signedTerm p.1 p.2)
              aggImp al.1 st.2 al.2) start).2)).1 i = hGet h i) ∧
    ((if (hGet (terms.foldl
            (fun (st : Heap × ℕ) (p : Char × String) =>
              let al := hAlloc st.1 (signedTerm p.1 p.2)
              aggImp al.1 st.2 al.2) start).1
          (terms.foldl
            (fun (st : Heap × ℕ) (p : Char × String) =>
              let al := hAlloc st.1 (signedTerm p.1 p.2)
              aggImp al.1 st.2 al.2) start).2).any (fun kv => kv.2 < 0)
        then ((terms.foldl
            (fun (st : Heap × ℕ) (p : Char × String) =>
              let al := hAlloc st.1 (signedTerm p.1 p.2)
              aggImp al.1 st.2 al.2) start).1, (none : Option ℕ))
        else ((terms.foldl
            (fun (st : Heap × ℕ) (p : Char × String) =>
              let al := hAlloc st.1 (signedTerm p.1 p.2)
              aggImp al.1 st.2 al.2) start).1,
          some (terms.foldl
            (fun (st : Heap × ℕ) (p : Char × String) =>
              let al := hAlloc st.1 (signedTerm p.1 p.2)
              aggImp al.1 st.2 al.2) start).2)).2.map
        (fun r => hGet (if (hGet (terms.foldl
            (fun (st : Heap × ℕ) (p : Char × String) =>
              let al := hAlloc st.1 (signedTerm p.1 p.2)
              aggImp al.1 st.2 al.2) start).1
          (terms.foldl
            (fun (st : Heap × ℕ) (p : Char × String) =>
              let al := hAlloc st.1 (signedTerm p.1 p.2)
              aggImp al.1 st.2 al.2) start).2).any (fun kv => kv.2 < 0)
        then ((terms.foldl
            (fun (st : Heap × ℕ) (p : Char × String) =>
              let al := hAlloc st.1 (signedTerm p.1 p.2)
              aggImp al.1 st.2 al.2) start).1, (none : Option ℕ))
        else ((terms.foldl
            (fun (st : Heap × ℕ) (p : Char × String) =>
              let al := hAlloc st.1 (signedTerm p.1 p.2)
              aggImp al.1 st.2 al.2) start).1,
          some (terms.foldl
            (fun (st : Heap × ℕ) (p : Char × String) =>
              let al := hAlloc st.1 (signedTerm p.1 p.2)
              aggImp al.1 st.2 al.2) start).2)).1 r) =
      (if (terms.foldl (fun acc (p : Char × String) =>
            aggregate_dict_values acc (signedTerm p.1 p.2)) (hGet start.1 start.2)).any
          (fun kv => kv.2 < 0)
        then none
        else some (terms.foldl (fun acc (p : Char × String) =>
          aggregate_dict_values acc (signedTerm p.1 p.2)) (hGet start.1 start.2)))) := by
  rcases modify_terms_fold_frame terms start hless with ⟨f1, f2, f3, f4⟩
  set res := terms.foldl
    (fun (st : Heap × ℕ) (p : Char × String) =>
      let al := hAlloc st.1 (signedTerm p.1 p.2)
      aggImp al.1 st.2 al.2) start with hres
  by_cases hneg : (hGet res.1 res.2).any (fun kv => kv.2 < 0)
  · rw [f4] at hneg
    constructor
    · intro i hi
      rw [if_pos (by rw [f4]; exact hneg)]
      simp only
      rw [f1 i (by omega), hcells i hi]
    · rw [if_pos (by rw [f4]; exact hneg), if_pos hneg]
      rfl
  · rw [f4] at hneg
    constructor
    · intro i hi
      rw [if_neg (by rw [f4]; exact hneg)]
      simp only
      rw [f1 i (by omega), hcells i hi]
    · rw [if_neg (by rw [f4]; exact hneg), if_neg hneg]
      simp [f4]

/-- Claim C9: `modify_formula_dict` leaves its `formula_dict` argument's cell
(and every other existing cell) unchanged, working only on freshly allocated
cells, and the dictionary it returns is the pure `modify_formula_dict` of the
argument's contents; consequently `get_updated_compound` leaves the original
compound's `element_count` cell unchanged (its scalar fields being immutable
values) and returns the freshly constructed compound of the modified
dictionary. -/
theorem mutation_frame_spec (h : Heap) (fd : ℕ) (adduct : String) (db : List Element)
    (hfd : fd < h.length) :
    (∀ i, i < h.length → hGet (modifyFormulaDictImp h fd adduct).1 i = hGet h i) ∧
    ((modifyFormulaDictImp h fd adduct).2.map
        (fun r => hGet (modifyFormulaDictImp h fd adduct).1 r) =
      modify_formula_dict (hGet h fd) adduct) ∧
    (∀ i, i < h.length → hGet (getUpdatedCompoundImp h fd adduct db).1 i = hGet h i) ∧
    (getUpdatedCompoundImp h fd adduct db).2 =
      get_updated_compound (hGet h fd) adduct db := by
  have key :
      (∀ i, i < h.length → hGet (modifyFormulaDictImp h fd adduct).1 i = hGet h i) ∧
      ((modifyFormulaDictImp h fd adduct).2.map
          (fun r => hGet (modifyFormulaDictImp h fd adduct).1 r) =
        modify_formula_dict (hGet h fd) adduct) := by
    rw [modify_formula_dict_eq]
    unfold modifyFormulaDictImp
    simp only [signedTerm]
    cases hbm : bracketMult (splitSigns adduct.data).1 with
    | none =>
      have hrun := modify_run_spec (splitSigns adduct.data).2 h (hAlloc h (hGet h fd))
        (by simp [hAlloc]) (by intro i hi; simp only [hAlloc]; exact hGet_append h _ i hi)
        (by simp [hAlloc])
      have hstartval : hGet (hAlloc h (hGet h fd)).1 (hAlloc h (hGet h fd)).2 =
          scaledBase (hGet h fd) (splitSigns adduct.data).1 := by
        simp only [hAlloc]
        rw [hGet_append_self]
        unfold scaledBase
        rw [hbm]
      rw [hstartval] at hrun
      simp only [signedTerm] at hrun
      exact hrun
    | some n =>
      have hstartval : hGet (hAlloc (hAlloc h (hGet h fd)).1
          ((hGet (hAlloc h (hGet h fd)).1 (hAlloc h (hGet h fd)).2).map
            (fun kv => (kv.1, (n : ℤ) * kv.2)))).1
          (hAlloc (hAlloc h (hGet h fd)).1
          ((hGet (hAlloc h (hGet h fd)).1 (hAlloc h (hGet h fd)).2).map
            (fun kv => (kv.1, (n : ℤ) * kv.2)))).2 =
          scaledBase (hGet h fd) (splitSigns adduct.data).1 := by
        simp only [hAlloc]
        rw [hGet_append_self, hGet_append_self]
        unfold scaledBase
        rw [hbm]
      have hrun := modify_run_spec (splitSigns adduct.data).2 h
        (hAlloc (hAlloc h (hGet h fd)).1
          ((hGet (hAlloc h (hGet h fd)).1 (hAlloc h (hGet h fd)).2).map
            (fun kv => (kv.1, (n : ℤ) * kv.2))))
        (by simp [hAlloc])
        (by
          intro i hi
          simp only [hAlloc]
          rw [hGet_append _ _ i (by simp; omega)]
          exact hGet_append h _ i hi)
        (by simp [hAlloc])
      rw [hstartval] at hrun
      simp only [signedTerm] at hrun
      exact hrun
  refine ⟨key.1, key.2, ?_, ?_⟩
  · intro i hi
    unfold getUpdatedCompoundImp
    rcases hr : modifyFormulaDictImp h fd adduct with ⟨h1, r⟩
    have hcell := key.1 i hi
    rw [hr] at hcell
    cases r with
    | none => exact hcell
    | some j => exact hcell
  · unfold getUpdatedCompoundImp get_updated_compound
    have hagree := key.2
    rcases hr : modifyFormulaDictImp h fd adduct with ⟨h1, r⟩
    rw [hr] at hagree
    simp only at hagree
    cases r with
    | none =>
      rw [Option.map_none'] at hagree
      rw [← hagree]
    | some j =>
      rw [Option.map_some'] at hagree
      rw [← hagree]

/-- Witness for C9: the heap-level and pure results agree, and the original
cell is untouched, for a one-cell heap and the adduct `+H`. -/
theorem mutation_frame_spec_witness :
    hGet (modifyFormulaDictImp [[("H", 1)]] 0 "+H").1 0 = [("H", 1)] ∧
    (getUpdatedCompoundImp [[("H", 1)]] 0 "+H" sampleDB).2 =
      get_updated_compound [("H", 1)] "+H" sampleDB := by
  have h := mutation_frame_spec [[("H", 1)]] 0 "+H" sampleDB (by decide)
  constructor
  · have h1 := h.1 0 (by decide)
    rw [h1]
    rfl
  · have h4 := h.2.2.2
    simpa [hGet] using h4

/-! ## Claim C10: stripping a trailing charge suffix -/

/-- The last element of a list, when it exists, is a member. -/
theorem getLastQ_mem {α : Type} : ∀ (l : List α) (y : α), l.getLast? = some y → y ∈ l
  | [], _, h => by cases h
  | [a], y, h => by
    simp only [List.getLast?_singleton, Option.some.injEq] at h
    simp [h]
  | a :: b :: rest, y, h => by
    rw [List.getLast?_cons_cons] at h
    exact List.mem_cons_of_mem a (getLastQ_mem (b :: rest) y h)

/-- Appending to a list whose last half is nonempty keeps its last element. -/
theorem getLastQ_append_cons {α : Type} : ∀ (xs : List α) (a : α) (ys : List α),
    (xs ++ a :: ys).getLast? = (a :: ys).getLast?
  | [], _, _ => rfl
  | [c], a, ys => by
    rw [List.cons_append, List.nil_append, List.getLast?_cons_cons]
  | c :: d :: xs, a, ys => by
    rw [List.cons_append, List.cons_append, List.getLast?_cons_cons]
    exact getLastQ_append_cons (d :: xs) a ys

/-- A sign character followed only by digits is exactly the suffix that
`re.sub(r"[+-](\d+)?$", "", ·)` removes: the characters before it never start
a match, because the remainder of the string contains the appended sign
(not a digit) and never ends in a newline. -/
theorem pyStripChargeSuffix_append (xs : List Char) (sgn : Char) (ds : List Char)
    (hsgn : sgn = '+' ∨ sgn = '-') (hds : ds.all Char.isDigit = true) :
    pyStripChargeSuffix (xs ++ sgn :: ds) = xs := by
  have hsd : Char.isDigit sgn = false := by
    rcases hsgn with h | h <;> rw [h] <;> rfl
  have hsn : sgn ≠ '\n' := by
    rcases hsgn with h | h <;> rw [h] <;> decide
  induction xs with
  | nil =>
    rw [List.nil_append, pyStripChargeSuffix]
    rw [if_pos ⟨hsgn, hds⟩]
  | cons c xs ih =>
    rw [List.cons_append, pyStripChargeSuffix]
    have hall : ¬ ((xs ++ sgn :: ds).all Char.isDigit = true) := by
      intro hall
      have hmem : sgn ∈ xs ++ sgn :: ds := by simp
      have := List.all_eq_true.mp hall sgn hmem
      rw [hsd] at this
      cases this
    have hlast : ¬ ((xs ++ sgn :: ds).getLast? = some '\n') := by
      intro hl
      rw [getLastQ_append_cons] at hl
      have hmem := getLastQ_mem _ _ hl
      rcases List.mem_cons.mp hmem with h | h
      · exact hsn h.symm
      · have := List.all_eq_true.mp hds _ h
        cases this
    rw [if_neg (fun hh => hall hh.2), if_neg (fun hh => hlast hh.2.1), ih]

/-- Evaluation of `order_elements` for `{C: 1, H: 2}` over the sample
database. -/
theorem order_elements_CH2_eval :
    order_elements sampleDB [("C", 1), ("H", 2)] = .ok [(elemC, 1), (elemH, 2)] := by
  simp +decide only [order_elements, lookupAll, VALID_ELEMENTS, dMerge, dSet, strLookup,
    sampleDB, elemC, elemH, elemO, elemF, elemFe, List.filter, List.foldl, List.map]

/-- Evaluation of `order_elements` for `{C: 1, H: 1}` over the sample
database. -/
theorem order_elements_CH_eval :
    order_elements sampleDB [("C", 1), ("H", 1)] = .ok [(elemC, 1), (elemH, 1)] := by
  simp +decide only [order_elements, lookupAll, VALID_ELEMENTS, dMerge, dSet, strLookup,
    sampleDB, elemC, elemH, elemO, elemF, elemFe, List.filter, List.foldl, List.map]

/-- The most abundant carbon isotope in the sample database. -/
theorem elemC_monoisotope_eval :
    Element.monoisotope elemC = ⟨"12C", 12, mkRat 9894 (10 ^ 4)⟩ := by
  norm_num [Element.monoisotope, sortIsotopes, insertIso, elemC, junkIsotope]

/-- The most abundant hydrogen isotope in the sample database. -/
theorem elemH_monoisotope_eval :
    Element.monoisotope elemH =
      ⟨"1H", mkRat 1007825032 (10 ^ 9), mkRat 999855 (10 ^ 6)⟩ := by
  norm_num [Element.monoisotope, sortIsotopes, insertIso, elemH, junkIsotope]

/-- Counterexample to C10.  The string `"CH+2+"` ends in the charge suffix
`"+"` (a sign followed by zero digits), yet `str_to_dict` does not behave as
if that suffix were absent: `re.sub` removes only the final `"+"`, so the
inner `"+2"` survives and is parsed as the count of H, whereas on `"CH+2"`
the whole `"+2"` is removed.  The resulting atom-count maps, and hence the
compounds built by `from_str`, differ. -/
theorem charge_suffix_counterexample :
    ("CH+2+").data = ("CH+2").data ++ ['+'] ∧
    str_to_dict "CH+2+" = some [("C", 1), ("H", 2)] ∧
    str_to_dict "CH+2" = some [("C", 1), ("H", 1)] ∧
    from_str "CH+2+" sampleDB ≠ from_str "CH+2" sampleDB := by
  refine ⟨by decide, by decide, by decide, ?_⟩
  intro heq
  rw [from_str, from_str,
    (by decide : str_to_dict "CH+2+" = some [("C", 1), ("H", 2)]),
    (by decide : str_to_dict "CH+2" = some [("C", 1), ("H", 1)])] at heq
  simp only at heq
  rw [mkCompound, mkCompound, order_elements_CH2_eval, order_elements_CH_eval] at heq
  simp only at heq
  have hm1 : monomassOf [(elemC, 1), (elemH, 2)] ≠ 0 := by
    simp only [monomassOf, List.foldl, elemC_monoisotope_eval, elemH_monoisotope_eval]
    norm_num
  have hm2 : monomassOf [(elemC, 1), (elemH, 1)] ≠ 0 := by
    simp only [monomassOf, List.foldl, elemC_monoisotope_eval, elemH_monoisotope_eval]
    norm_num
  rw [if_neg hm1, if_neg hm2] at heq
  simp only [Except.ok.injEq, Compound.mk.injEq] at heq
  exact absurd heq.1 (by decide)

/-- C10, amended: when the base formula string itself carries no trailing
charge suffix (it is a fixed point of the `re.sub` strip), appending a sign
and an optional run of digits changes neither the atom-count map produced by
`str_to_dict` nor the compound built by `Compound.from_str`. -/
theorem charge_suffix_spec (s : String) (sgn : Char) (ds : List Char)
    (hsgn : sgn = '+' ∨ sgn = '-') (hds : ds.all Char.isDigit = true)
    (hs : pyStripChargeSuffix s.data = s.data) (db : List Element) :
    str_to_dict (String.mk (s.data ++ sgn :: ds)) = str_to_dict s ∧
    from_str (String.mk (s.data ++ sgn :: ds)) db = from_str s db := by
  have h1 : str_to_dict (String.mk (s.data ++ sgn :: ds)) = str_to_dict s := by
    unfold str_to_dict
    rw [show (String.mk (s.data ++ sgn :: ds)).data = s.data ++ sgn :: ds from rfl]
    rw [pyStripChargeSuffix_append s.data sgn ds hsgn hds, hs]
  refine ⟨h1, ?_⟩
  rw [from_str, from_str, h1]

/-- Witness for C10 at the suffix-free base `"CH"` and the suffix `"+2"`. -/
theorem charge_suffix_spec_witness :
    (('+' = '+' ∨ '+' = '-') ∧ ['2'].all Char.isDigit = true ∧
      pyStripChargeSuffix ("CH").data = ("CH").data) ∧
    str_to_dict (String.mk (("CH").data ++ '+' :: ['2'])) = str_to_dict "CH" ∧
    from_str (String.mk (("CH").data ++ '+' :: ['2'])) sampleDB = from_str "CH" sampleDB := by
  refine ⟨⟨Or.inl rfl, by decide, by decide⟩, ?_⟩
  exact charge_suffix_spec "CH" '+' ['2'] (Or.inl rfl) (by decide) (by decide) sampleDB

/-! ## Claim C3: output scaling and ordering -/

/-- The seed is below a `max`-fold. -/
theorem foldl_max_init (l : List ℚ) : ∀ a : ℚ, a ≤ l.foldl max a := by
  induction l with
  | nil => intro a; exact le_refl a
  | cons c l ih =>
    intro a
    exact le_trans (le_max_left a c) (ih (max a c))

/-- Every member is below a `max`-fold. -/
theorem foldl_max_le (l : List ℚ) : ∀ (a x : ℚ), x ∈ l → x ≤ l.foldl max a := by
  induction l with
  | nil => intro a x hx; cases hx
  | cons c l ih =>
    intro a x hx
    rcases List.mem_cons.mp hx with rfl | hx
    · exact le_trans (le_max_right a x) (foldl_max_init l (max a x))
    · exact ih (max a c) x hx

/-- A `max`-fold returns its seed or a member. -/
theorem foldl_max_mem (l : List ℚ) : ∀ a : ℚ, l.foldl max a = a ∨ l.foldl max a ∈ l := by
  induction l with
  | nil => intro a; exact Or.inl rfl
  | cons c l ih =>
    intro a
    rcases ih (max a c) with h | h
    · rcases max_choice a c with hm | hm
      · exact Or.inl (by rw [List.foldl_cons, h, hm])
      · exact Or.inr (by rw [List.foldl_cons, h, hm]; exact List.mem_cons_self c l)
    · exact Or.inr (List.mem_cons_of_mem c h)

/-- A `min`-fold is below its seed. -/
theorem foldl_min_init (l : List ℚ) : ∀ a : ℚ, l.foldl min a ≤ a := by
  induction l with
  | nil => intro a; exact le_refl a
  | cons c l ih =>
    intro a
    exact le_trans (ih (min a c)) (min_le_left a c)

/-- A `min`-fold is below every member. -/
theorem foldl_min_le (l : List ℚ) : ∀ (a x : ℚ), x ∈ l → l.foldl min a ≤ x := by
  induction l with
  | nil => intro a x hx; cases hx
  | cons c l ih =>
    intro a x hx
    rcases List.mem_cons.mp hx with rfl | hx
    · exact le_trans (foldl_min_init l (min a x)) (min_le_right a x)
    · exact ih (min a c) x hx

/-- A `min`-fold returns its seed or a member. -/
theorem foldl_min_mem (l : List ℚ) : ∀ a : ℚ, l.foldl min a = a ∨ l.foldl min a ∈ l := by
  induction l with
  | nil => intro a; exact Or.inl rfl
  | cons c l ih =>
    intro a
    rcases ih (min a c) with h | h
    · rcases min_choice a c with hm | hm
      · exact Or.inl (by rw [List.foldl_cons, h, hm])
      · exact Or.inr (by rw [List.foldl_cons, h, hm]; exact List.mem_cons_self c l)
    · exact Or.inr (List.mem_cons_of_mem c h)

/-- The column maximum is attained by a member. -/
theorem seriesMax_mem : ∀ l : List ℚ, l ≠ [] → seriesMax l ∈ l
  | [], h => absurd rfl h
  | x :: xs, _ => by
    rw [seriesMax]
    rcases foldl_max_mem xs x with h | h
    · rw [h]; exact List.mem_cons_self x xs
    · exact List.mem_cons_of_mem x h

/-- Every column entry is at most the column maximum. -/
theorem le_seriesMax : ∀ (l : List ℚ) (x : ℚ), x ∈ l → x ≤ seriesMax l
  | [], x, hx => absurd hx (List.not_mem_nil x)
  | y :: ys, x, hx => by
    rw [seriesMax]
    rcases List.mem_cons.mp hx with rfl | hx
    · exact foldl_max_init ys x
    · exact foldl_max_le ys y x hx

/-- The column minimum is attained by a member. -/
theorem seriesMin_mem : ∀ l : List ℚ, l ≠ [] → seriesMin l ∈ l
  | [], h => absurd rfl h
  | x :: xs, _ => by
    rw [seriesMin]
    rcases foldl_min_mem xs x with h | h
    · rw [h]; exact List.mem_cons_self x xs
    · exact List.mem_cons_of_mem x h

/-- The column minimum is at most every column entry. -/
theorem seriesMin_le : ∀ (l : List ℚ) (x : ℚ), x ∈ l → seriesMin l ≤ x
  | [], x, hx => absurd hx (List.not_mem_nil x)
  | y :: ys, x, hx => by
    rw [seriesMin]
    rcases List.mem_cons.mp hx with rfl | hx
    · exact foldl_min_init ys x
    · exact foldl_min_le ys y x hx

/-- Insertion produces a permutation of the cons. -/
theorem insertRow_perm (le : Row → Row → Bool) (r : Row) :
    ∀ l, (insertRow le r l).Perm (r :: l)
  | [] => List.Perm.refl _
  | x :: xs => by
    rw [insertRow]
    by_cases h : le r x = true
    · rw [if_pos h]
    · rw [if_neg h]
      exact (List.Perm.cons x (insertRow_perm le r xs)).trans (List.Perm.swap r x xs)

/-- Sorting permutes the rows. -/
theorem sortRows_perm (le : Row → Row → Bool) : ∀ l, (sortRows le l).Perm l
  | [] => List.Perm.refl _
  | x :: xs =>
    (insertRow_perm le x (sortRows le xs)).trans (List.Perm.cons x (sortRows_perm le xs))

/-- Insertion into a sorted list keeps it sorted (for a total transitive
comparison). -/
theorem insertRow_pairwise (le : Row → Row → Bool)
    (htot : ∀ a b, le a b = true ∨ le b a = true)
    (htrans : ∀ a b c, le a b = true → le b c = true → le a c = true) (r : Row) :
    ∀ l, l.Pairwise (fun a b => le a b = true) →
      (insertRow le r l).Pairwise (fun a b => le a b = true)
  | [], _ => List.pairwise_singleton _ _
  | x :: xs, h => by
    rw [insertRow]
    rcases List.pairwise_cons.mp h with ⟨hx, hxs⟩
    by_cases hle : le r x = true
    · rw [if_pos hle]
      refine List.Pairwise.cons ?_ h
      intro b hb
      rcases List.mem_cons.mp hb with rfl | hb
      · exact hle
      · exact htrans r x b hle (hx b hb)
    · rw [if_neg hle]
      refine List.Pairwise.cons ?_ (insertRow_pairwise le htot htrans r xs hxs)
      intro b hb
      rcases List.mem_cons.mp ((insertRow_perm le r xs).mem_iff.mp hb) with rfl | hb
      · exact (htot b x).resolve_left hle
      · exact hx b hb

/-- Insertion sort sorts (for a total transitive comparison). -/
theorem sortRows_pairwise (le : Row → Row → Bool)
    (htot : ∀ a b, le a b = true ∨ le b a = true)
    (htrans : ∀ a b c, le a b = true → le b c = true → le a c = true) :
    ∀ l, (sortRows le l).Pairwise (fun a b => le a b = true)
  | [] => List.Pairwise.nil
  | x :: xs => insertRow_pairwise le htot htrans x _ (sortRows_pairwise le htot htrans xs)

/-- Claim C3 (amended): with scale `"rel"` the output is sorted descending by
abundance and - provided the retained rows exhibit two distinct abundances -
min-max rescaled so that 100 and 0 are attained and every abundance lies in
`[0, 100]`; with any other scale the output is the retained (mass, abundance)
multiset sorted non-decreasing by mass.  When all retained abundances are
equal the rescale divides by zero, so no abundance equals 100. -/
theorem isopattern_scale_spec (db : List Element) (c : Compound) (charge : ℤ)
    (limit : ℚ) (maxIter : ℕ) (scale : String) (peaks : List Row)
    (out : List (ℚ × ℚ))
    (hret : retainedRows db c charge limit maxIter = .ok peaks)
    (hout : isopattern db c charge limit maxIter scale = .ok out) :
    (scale = "rel" →
      out.Pairwise (fun p q => q.2 ≤ p.2) ∧
      ((∃ r1 ∈ peaks, ∃ r2 ∈ peaks, r1.abundance < r2.abundance) →
        (∃ p ∈ out, p.2 = 100) ∧ (∃ p ∈ out, p.2 = 0) ∧
        ∀ p ∈ out, 0 ≤ p.2 ∧ p.2 ≤ 100)) ∧
    (scale ≠ "rel" →
      out.Pairwise (fun p q => p.1 ≤ q.1) ∧
      out.Perm (peaks.map (fun r => (r.mass, r.abundance)))) := by
  unfold isopattern at hout
  rw [hret] at hout
  simp only at hout
  constructor
  · intro hs
    rw [if_pos hs] at hout
    simp only [Except.ok.injEq] at hout
    subst hout
    constructor
    · refine List.Pairwise.map _ ?_ (sortRows_pairwise _ ?_ ?_ _)
      · intro a b hab
        exact of_decide_eq_true hab
      · intro a b
        rcases le_total b.abundance a.abundance with h | h
        · exact Or.inl (decide_eq_true h)
        · exact Or.inr (decide_eq_true h)
      · intro a b d hab hbd
        exact decide_eq_true (le_trans (of_decide_eq_true hbd) (of_decide_eq_true hab))
    · rintro ⟨r1, hr1, r2, hr2, hlt⟩
      have hmn1 : seriesMin (peaks.map Row.abundance) ≤ r1.abundance :=
        seriesMin_le _ _ (List.mem_map_of_mem Row.abundance hr1)
      have hmx2 : r2.abundance ≤ seriesMax (peaks.map Row.abundance) :=
        le_seriesMax _ _ (List.mem_map_of_mem Row.abundance hr2)
      have hlt2 : seriesMin (peaks.map Row.abundance) < seriesMax (peaks.map Row.abundance) :=
        lt_of_le_of_lt hmn1 (lt_of_lt_of_le hlt hmx2)
      have hpos : 0 < seriesMax (peaks.map Row.abundance) - seriesMin (peaks.map Row.abundance) :=
        sub_pos.mpr hlt2
      have hne : seriesMax (peaks.map Row.abundance) - seriesMin (peaks.map Row.abundance) ≠ 0 :=
        ne_of_gt hpos
      have hnil : peaks.map Row.abundance ≠ [] := by
        intro hh
        rw [List.map_eq_nil_iff] at hh
        rw [hh] at hr1
        exact List.not_mem_nil r1 hr1
      refine ⟨?_, ?_, ?_⟩
      · rcases List.mem_map.mp (seriesMax_mem _ hnil) with ⟨rM, hrM, hM⟩
        refine ⟨({ rM with abundance := 100 * (rM.abundance - seriesMin (peaks.map Row.abundance)) /
          (seriesMax (peaks.map Row.abundance) - seriesMin (peaks.map Row.abundance)) }.mass,
          { rM with abundance := 100 * (rM.abundance - seriesMin (peaks.map Row.abundance)) /
          (seriesMax (peaks.map Row.abundance) - seriesMin (peaks.map Row.abundance)) }.abundance), ?_, ?_⟩
        · apply List.mem_map_of_mem
          apply (sortRows_perm _ _).mem_iff.mpr
          exact List.mem_map_of_mem _ hrM
        · simp only
          rw [hM]
          exact mul_div_cancel_right₀ 100 hne
      · rcases List.mem_map.mp (seriesMin_mem _ hnil) with ⟨rm, hrm, hm⟩
        refine ⟨({ rm with abundance := 100 * (rm.abundance - seriesMin (peaks.map Row.abundance)) /
          (seriesMax (peaks.map Row.abundance) - seriesMin (peaks.map Row.abundance)) }.mass,
          { rm with abundance := 100 * (rm.abundance - seriesMin (peaks.map Row.abundance)) /
          (seriesMax (peaks.map Row.abundance) - seriesMin (peaks.map Row.abundance)) }.abundance), ?_, ?_⟩
        · apply List.mem_map_of_mem
          apply (sortRows_perm _ _).mem_iff.mpr
          exact List.mem_map_of_mem _ hrm
        · simp only
          rw [hm, sub_self, mul_zero, zero_div]
      · intro p hp
        rcases List.mem_map.mp hp with ⟨r', hr', hpr⟩
        have hr'2 := (sortRows_perm _ _).mem_iff.mp hr'
        rcases List.mem_map.mp hr'2 with ⟨r, hr, hrr⟩
        rw [← hpr, ← hrr]
        simp only
        have hrmn : seriesMin (peaks.map Row.abundance) ≤ r.abundance :=
          seriesMin_le _ _ (List.mem_map_of_mem Row.abundance hr)
        have hrmx : r.abundance ≤ seriesMax (peaks.map Row.abundance) :=
          le_seriesMax _ _ (List.mem_map_of_mem Row.abundance hr)
        constructor
        · apply div_nonneg _ (le_of_lt hpos)
          apply mul_nonneg (by norm_num)
          exact sub_nonneg.mpr hrmn
        · rw [mul_div_assoc]
          have hq : (r.abundance - seriesMin (peaks.map Row.abundance)) /
              (seriesMax (peaks.map Row.abundance) - seriesMin (peaks.map Row.abundance)) ≤ 1 := by
            rw [div_le_one hpos]
            exact sub_le_sub_right hrmx _
          calc 100 * ((r.abundance - seriesMin (peaks.map Row.abundance)) /
                (seriesMax (peaks.map Row.abundance) - seriesMin (peaks.map Row.abundance)))
              ≤ 100 * 1 := by
                apply mul_le_mul_of_nonneg_left hq
                norm_num
            _ = 100 := mul_one 100
  · intro hs
    rw [if_neg hs] at hout
    simp only [Except.ok.injEq] at hout
    subst hout
    constructor
    · refine List.Pairwise.map _ ?_ (sortRows_pairwise _ ?_ ?_ _)
      · intro a b hab
        exact of_decide_eq_true hab
      · intro a b
        rcases le_total a.mass b.mass with h | h
        · exact Or.inl (decide_eq_true h)
        · exact Or.inr (decide_eq_true h)
      · intro a b d hab hbd
        exact decide_eq_true (le_trans (of_decide_eq_true hab) (of_decide_eq_true hbd))
    · exact List.Perm.map _ (sortRows_perm _ _)

/-- The fluorine compound is retained unchanged: its single row is stopped
at initialization, so the loop never runs. -/
theorem retainedF_eval : retainedRows sampleDB compoundF 0 (mkRat 1 1000) 10 =
    .ok [initRow compoundF true none] := by decide

/-- Counterexample to C3: for the fluorine compound - successfully
constructed, hence non-degenerate - only one row is retained, the min and max
abundances coincide, and the min-max rescale divides by zero (`NaN` in the
source, `0` in the rational model): the relative-scale output contains no
abundance equal to 100. -/
theorem isopattern_rescale_counterexample :
    isopattern sampleDB compoundF 0 (mkRat 1 1000) 10 "rel" =
      .ok [(mkRat 18998403163 (10 ^ 9), 0)] ∧
    ∀ p ∈ [(mkRat 18998403163 (10 ^ 9), (0 : ℚ))], p.2 ≠ 100 := by
  refine ⟨?_, by decide⟩
  unfold isopattern
  rw [retainedF_eval]
  simp only [reduceIte]
  norm_num [seriesMin, seriesMax, sortRows, insertRow, initRow, compoundF]

/-- The initial frame of the iron pattern. -/
theorem initState_Fe_eval : initState compoundFe = ⟨[rowFeStart, rowFe], 0, 0⟩ := by decide

/-- One substitution step on the iron target row. -/
theorem permStep_Fe_eval :
    isotope_permutation sampleDB (mkRat 1 1000) rowFe = .ok (some rowFe1) := by
  have hget : isoGetElem sampleDB iso54 = .ok elemFe := by decide
  have hmono : Element.monoisotope elemFe =
      ⟨"56Fe", mkRat 5593493633 (10 ^ 8), mkRat 91754 (10 ^ 5)⟩ := by
    norm_num [Element.monoisotope, sortIsotopes, insertIso, elemFe, junkIsotope]
  unfold isotope_permutation
  rw [show rowFe.stop = false from rfl, show rowFe.noniso = some iso54 from rfl]
  simp only [Bool.false_eq_true, if_false]
  rw [hget]
  simp only [hmono]
  simp +decide only [rowFe, iso54, dGetD, dFind, dSet, Option.getD]
  norm_num [rowFe1, iso54, Isotope.mk.injEq, Row.mk.injEq]

/-- One full loop iteration over the initial iron frame. -/
theorem loopBody_Fe_eval :
    loopBody sampleDB compoundFe (mkRat 1 1000) ⟨[rowFeStart, rowFe], 0, 0⟩ =
      .ok ⟨[{ rowFeStart with stop := true }, { rowFe1 with stop := true }, rowFe1], 1, 2⟩ := by
  have h0 : isotope_permutation sampleDB (mkRat 1 1000) rowFeStart = .ok (some rowFeStart) := by
    decide
  have ha : applyPerm sampleDB (mkRat 1 1000) [rowFeStart, rowFe] =
      .ok [some rowFeStart, some rowFe1] := by
    simp only [applyPerm, h0, permStep_Fe_eval]
  unfold loopBody
  rw [ha]
  simp +decide only [List.reduceOption, List.filterMap, List.filter, List.map, List.isEmpty,
    List.flatMap, explodeRow, setStop1, compoundFe, rowFe1, rowFe, rowFeStart]

/-- The retained rows of the iron pattern with one permitted iteration. -/
theorem retainedRows_Fe_eval :
    retainedRows sampleDB compoundFe 0 (mkRat 1 1000) 1 =
      .ok [{ rowFeStart with stop := true }, { rowFe1 with stop := true }, rowFe1] := by
  have hloop : loopResult sampleDB compoundFe (mkRat 1 1000) 1 =
      .ok ⟨[{ rowFeStart with stop := true }, { rowFe1 with stop := true }, rowFe1], 1, 2⟩ := by
    unfold loopResult loopRun
    rw [initState_Fe_eval]
    rw [if_pos (by decide : loopCond 1 (⟨[rowFeStart, rowFe], 0, 0⟩ : PatState) = true)]
    rw [loopBody_Fe_eval]
    simp only [Except.bind]
    rw [loopRun]
    rw [if_neg (by decide : ¬ loopCond 1 (⟨[{ rowFeStart with stop := true },
      { rowFe1 with stop := true }, rowFe1], 1, 2⟩ : PatState) = true)]
  unfold retainedRows
  rw [hloop]
  simp +decide only [List.filter]

/-- The relative-scale iron pattern: abundances 100, 0, 0, sorted
descending. -/
theorem isopattern_Fe_eval :
    isopattern sampleDB compoundFe 0 (mkRat 1 1000) 1 "rel" =
      .ok [(mkRat 5593493633 (10 ^ 8), 100), (mkRat 5393960899 (10 ^ 8), 0),
           (mkRat 5393960899 (10 ^ 8), 0)] := by
  unfold isopattern
  rw [retainedRows_Fe_eval]
  simp only [reduceIte]
  have hmn : seriesMin (List.map Row.abundance [{ rowFeStart with stop := true },
      { rowFe1 with stop := true }, rowFe1]) = mkRat 5845 (10 ^ 5) := by
    simp +decide only [seriesMin, List.map, List.foldl, rowFeStart, rowFe, rowFe1, min_def]
  have hmx : seriesMax (List.map Row.abundance [{ rowFeStart with stop := true },
      { rowFe1 with stop := true }, rowFe1]) = mkRat 91754 (10 ^ 5) := by
    simp +decide only [seriesMax, List.map, List.foldl, rowFeStart, rowFe, rowFe1, max_def]
  rw [hmn, hmx]
  simp only [List.map, rowFeStart, rowFe, rowFe1]
  norm_num
  simp +decide only [sortRows, insertRow, List.map]

/-- Witness for C3: the iron pattern run for one iteration has retained rows
with two distinct abundances, and the relative-scale output attains 100 and 0
with every abundance in `[0, 100]`. -/
theorem isopattern_scale_spec_witness :
    (∃ p ∈ [(mkRat 5593493633 (10 ^ 8), (100 : ℚ)), (mkRat 5393960899 (10 ^ 8), 0),
            (mkRat 5393960899 (10 ^ 8), 0)], p.2 = 100) ∧
    (∃ p ∈ [(mkRat 5593493633 (10 ^ 8), (100 : ℚ)), (mkRat 5393960899 (10 ^ 8), 0),
            (mkRat 5393960899 (10 ^ 8), 0)], p.2 = 0) ∧
    ∀ p ∈ [(mkRat 5593493633 (10 ^ 8), (100 : ℚ)), (mkRat 5393960899 (10 ^ 8), 0),
            (mkRat 5393960899 (10 ^ 8), 0)], 0 ≤ p.2 ∧ p.2 ≤ 100 := by
  have h := isopattern_scale_spec sampleDB compoundFe 0 (mkRat 1 1000) 1 "rel"
    [{ rowFeStart with stop := true }, { rowFe1 with stop := true }, rowFe1]
    [(mkRat 5593493633 (10 ^ 8), 100), (mkRat 5393960899 (10 ^ 8), 0),
     (mkRat 5393960899 (10 ^ 8), 0)]
    retainedRows_Fe_eval isopattern_Fe_eval
  exact (h.1 rfl).2 ⟨{ rowFe1 with stop := true }, by decide,
    { rowFeStart with stop := true }, by decide, by decide⟩


/-! ## Claim C4: formula round-trip -/

/-- Rebuilding a string from its character list. -/
theorem strMk_data : ∀ s : String, String.mk s.data = s
  | ⟨_⟩ => rfl

/-- Digit characters decode to their value. -/
theorem charVal_digitChar : ∀ d : ℕ, d < 10 → charVal (digitChar d) = d := by decide

/-- Digit characters are digits and nothing else. -/
theorem digitChar_digitish : ∀ d : ℕ, d < 10 → digitish (digitChar d) = true := by decide

/-- The little-endian digits of a number are below ten. -/
theorem natDigitsRev_lt : ∀ (fuel n : ℕ), ∀ d ∈ natDigitsRev fuel n, d < 10
  | 0, 0, d, hd => by cases hd
  | 0, _ + 1, d, hd => by cases hd
  | fuel + 1, 0, d, hd => by cases hd
  | fuel + 1, n + 1, d, hd => by
    rw [show natDigitsRev (fuel + 1) (n + 1) =
      (n + 1) % 10 :: natDigitsRev fuel ((n + 1) / 10) from rfl] at hd
    rcases List.mem_cons.mp hd with rfl | hd
    · exact Nat.mod_lt _ (by norm_num)
    · exact natDigitsRev_lt fuel ((n + 1) / 10) d hd

/-- The little-endian digits decode to the number. -/
theorem natDigitsRev_val : ∀ (fuel n : ℕ), n ≤ fuel →
    natOfDigitsRevVal (natDigitsRev fuel n) = n
  | 0, 0, _ => rfl
  | 0, _ + 1, h => absurd h (by omega)
  | fuel + 1, 0, _ => rfl
  | fuel + 1, n + 1, h => by
    rw [show natDigitsRev (fuel + 1) (n + 1) =
      (n + 1) % 10 :: natDigitsRev fuel ((n + 1) / 10) from rfl, natOfDigitsRevVal]
    have hdiv : (n + 1) / 10 ≤ fuel := by omega
    rw [natDigitsRev_val fuel ((n + 1) / 10) hdiv]
    omega

/-- Appending one digit multiplies the decoded value by ten. -/
theorem natOfDigits_concat (xs : List Char) (c : Char) :
    natOfDigits (xs ++ [c]) = 10 * natOfDigits xs + charVal c := by
  unfold natOfDigits
  rw [List.foldl_append]
  simp only [List.foldl_cons, List.foldl_nil]
  ring

/-- Decoding the reversed rendering of a little-endian digit list. -/
theorem natOfDigits_reverse (ds : List ℕ) (h : ∀ d ∈ ds, d < 10) :
    natOfDigits (ds.reverse.map digitChar) = natOfDigitsRevVal ds := by
  induction ds with
  | nil => rfl
  | cons d ds ih =>
    rw [List.reverse_cons, List.map_append, List.map_cons, List.map_nil,
      natOfDigits_concat, natOfDigitsRevVal]
    rw [ih (fun x hx => h x (List.mem_cons_of_mem d hx))]
    rw [charVal_digitChar d (h d (List.mem_cons_self d ds))]
    ring

/-- The decimal rendering of a positive number: its characters. -/
theorem natToString_data (n : ℕ) (h : n ≠ 0) :
    (natToString n).data = (natDigitsRev n n).reverse.map digitChar := by
  rw [natToString, if_neg h]

/-- The decimal rendering of a positive number is a nonempty digit string. -/
theorem natToString_digitish (n : ℕ) (h : n ≠ 0) :
    (natToString n).data ≠ [] ∧ (natToString n).data.all digitish = true := by
  rw [natToString_data n h]
  constructor
  · intro hh
    rw [List.map_eq_nil_iff, List.reverse_eq_nil_iff] at hh
    rcases n with _ | m
    · exact h rfl
    · rw [show natDigitsRev (m + 1) (m + 1) =
        (m + 1) % 10 :: natDigitsRev m ((m + 1) / 10) from rfl] at hh
      cases hh
  · rw [List.all_eq_true]
    intro c hc
    rcases List.mem_map.mp hc with ⟨d, hd, rfl⟩
    exact digitChar_digitish d (natDigitsRev_lt n n d (List.mem_reverse.mp hd))

/-- Decoding the decimal rendering of a positive number. -/
theorem natOfDigits_natToString (n : ℕ) (h : n ≠ 0) :
    natOfDigits (natToString n).data = n := by
  rw [natToString_data n h,
    natOfDigits_reverse (natDigitsRev n n) (natDigitsRev_lt n n),
    natDigitsRev_val n n (le_refl n)]

/-- `int` parses any nonempty digit string to its decimal value. -/
theorem pyInt_digits (s : String) (hne : s.data ≠ [])
    (hall : s.data.all Char.isDigit = true) :
    pyInt s = some ((natOfDigits s.data : ℤ)) := by
  unfold pyInt
  rcases hd : s.data with _ | ⟨c, cs⟩
  · exact absurd hd hne
  · have hc : c.isDigit = true := by
      rw [hd, List.all_cons, Bool.and_eq_true] at hall
      exact hall.1
    have hcp : c ≠ '+' := by
      intro hh
      rw [hh] at hc
      cases hc
    have hcm : c ≠ '-' := by
      intro hh
      rw [hh] at hc
      cases hc
    rw [hd] at hall
    split
    · rename_i heq
      exact absurd heq (List.cons_ne_nil c cs)
    · have hm : (match c :: cs with
          | '+' :: r => ((1 : ℤ), r)
          | '-' :: r => ((-1 : ℤ), r)
          | r => ((1 : ℤ), r)) = ((1 : ℤ), c :: cs) := by
        split
        · rename_i r2 heq2
          rw [List.cons.injEq] at heq2
          exact absurd heq2.1 hcp
        · rename_i r2 heq2
          rw [List.cons.injEq] at heq2
          exact absurd heq2.1 hcm
        · rfl
      rw [hm]
      simp only []
      rw [if_pos ⟨List.cons_ne_nil c cs, hall⟩, one_mul]

/-- The symbol-split scanner ignores extra fuel. -/
theorem splitCapsAux_fuel : ∀ (fuel : ℕ) (l : List Char) (fuel' : ℕ),
    l.length ≤ fuel → l.length ≤ fuel' →
    splitCapsAux fuel l = splitCapsAux fuel' l
  | 0, l, fuel', h, _ => by
    rw [List.length_eq_zero.mp (Nat.le_zero.mp h)]
    cases fuel' <;> rfl
  | fuel + 1, [], fuel', _, _ => by cases fuel' <;> rfl
  | fuel + 1, [c], fuel', _, h' => by
    rcases fuel' with _ | fuel2
    · exact absurd h' (by simp)
    · rfl
  | fuel + 1, c :: d :: rest2, fuel', h, h' => by
    rcases fuel' with _ | fuel2
    · exact absurd h' (by simp)
    · have h1 : (d :: rest2).length ≤ fuel := by
        simp only [List.length_cons] at h ⊢
        omega
      have h1' : (d :: rest2).length ≤ fuel2 := by
        simp only [List.length_cons] at h' ⊢
        omega
      have h2 : rest2.length ≤ fuel := by
        simp only [List.length_cons] at h
        omega
      have h2' : rest2.length ≤ fuel2 := by
        simp only [List.length_cons] at h'
        omega
      rw [splitCapsAux, splitCapsAux]
      by_cases hcu : c.isUpper
      · rw [if_pos hcu, if_pos hcu]
        by_cases hdl : d.isLower
        · rw [if_pos hdl, if_pos hdl, splitCapsAux_fuel fuel rest2 fuel2 h2 h2']
        · rw [if_neg hdl, if_neg hdl,
            splitCapsAux_fuel fuel (d :: rest2) fuel2 h1 h1']
      · rw [if_neg hcu, if_neg hcu, splitCapsAux_fuel fuel (d :: rest2) fuel2 h1 h1']

/-- The scanner passes over a run of digits, accumulating it into the
pending non-captured segment. -/
theorem splitCapsAux_digits : ∀ (num : List Char), num.all digitish = true →
    ∀ (rest : List Char) (fuel : ℕ), num.length + rest.length ≤ fuel →
    splitCapsAux fuel (num ++ rest) =
      (String.mk (num ++ (splitCapsAux rest.length rest).1.data),
        (splitCapsAux rest.length rest).2)
  | [], _, rest, fuel, h => by
    rw [List.nil_append, List.nil_append,
      splitCapsAux_fuel fuel rest rest.length (by omega) (le_refl _)]
  | c :: num', hall, rest, fuel, h => by
    have hc : digitish c = true := by
      rw [List.all_cons, Bool.and_eq_true] at hall
      exact hall.1
    have hcu : c.isUpper = false := by
      rw [digitish] at hc
      simp only [Bool.and_eq_true, Bool.not_eq_true'] at hc
      exact hc.1.2
    have hnum' : num'.all digitish = true := by
      rw [List.all_cons, Bool.and_eq_true] at hall
      exact hall.2
    rcases fuel with _ | fuel1
    · exact absurd h (by simp)
    · rw [List.cons_append]
      rcases he : num' ++ rest with _ | ⟨d, rest2⟩
      · rcases List.append_eq_nil.mp he with ⟨rfl, rfl⟩
        rw [show splitCapsAux (fuel1 + 1) [c] =
          if c.isUpper then ("", [(String.mk [c], "")]) else (String.mk [c], []) from rfl]
        rw [if_neg (by rw [hcu]; exact Bool.false_ne_true)]
        rfl
      · rw [show splitCapsAux (fuel1 + 1) (c :: d :: rest2) =
          if c.isUpper then
            (if d.isLower then
              (("", (String.mk [c, d], (splitCapsAux fuel1 rest2).1) ::
                (splitCapsAux fuel1 rest2).2))
            else ("", (String.mk [c], (splitCapsAux fuel1 (d :: rest2)).1) ::
                (splitCapsAux fuel1 (d :: rest2)).2))
          else (String.mk (c :: (splitCapsAux fuel1 (d :: rest2)).1.data),
            (splitCapsAux fuel1 (d :: rest2)).2) from by
            rw [splitCapsAux]]
        rw [if_neg (by rw [hcu]; exact Bool.false_ne_true)]
        rw [← he]
        have hlen : num'.length + rest.length ≤ fuel1 := by
          simp only [List.length_cons] at h
          omega
        rw [splitCapsAux_digits num' hnum' rest fuel1 hlen]
        rfl

/-- Shape analysis of a well-formed element symbol. -/
theorem symbolOK_cases (s : String) (h : symbolOK s = true) :
    (∃ C, s.data = [C] ∧ C.isUpper = true ∧ C.isLower = false ∧ C.isDigit = false) ∨
    (∃ C d, s.data = [C, d] ∧ C.isUpper = true ∧ C.isLower = false ∧ C.isDigit = false ∧
      d.isLower = true ∧ d.isUpper = false ∧ d.isDigit = false) := by
  unfold symbolOK at h
  rcases hd : s.data with _ | ⟨C, _ | ⟨d, _ | _⟩⟩ <;> rw [hd] at h
  · cases h
  · simp only [Bool.and_eq_true, Bool.not_eq_true'] at h
    exact Or.inl ⟨C, rfl, h.1.1, h.1.2, h.2⟩
  · simp only [Bool.and_eq_true, Bool.not_eq_true'] at h
    exact Or.inr ⟨C, d, rfl, h.1.1.1.1.1, h.1.1.1.1.2, h.1.1.1.2, h.1.1.2, h.1.2, h.2⟩
  · cases h

/-- Unfolding one token of the rendered sequence. -/
theorem renderPairs_cons (p : String × String) (ps : List (String × String)) :
    renderPairs (p :: ps) = p.1.data ++ (p.2.data ++ renderPairs ps) := by
  simp only [renderPairs, List.foldr_cons, List.append_assoc]

/-- A rendered token sequence is empty or starts with an uppercase
character. -/
theorem renderHead : ∀ ps : List (String × String),
    (∀ p ∈ ps, symbolOK p.1 = true ∧ p.2.data.all digitish = true) →
    (renderPairs ps = [] ∧ ps = []) ∨
      ∃ C tail, renderPairs ps = C :: tail ∧ C.isUpper = true ∧ C.isLower = false
  | [], _ => Or.inl ⟨rfl, rfl⟩
  | (s, num) :: ps', h => by
    rcases symbolOK_cases s (h (s, num) (List.mem_cons_self _ _)).1 with
      ⟨C, hdC, hCu, hCl, _⟩ | ⟨C, d, hdC, hCu, hCl, _, _, _, _⟩
    · refine Or.inr ⟨C, s.data.tail ++ (num.data ++ renderPairs ps'), ?_, hCu, hCl⟩
      rw [renderPairs_cons, hdC]
      rfl
    · refine Or.inr ⟨C, s.data.tail ++ (num.data ++ renderPairs ps'), ?_, hCu, hCl⟩
      rw [renderPairs_cons, hdC]
      rfl

/-- The scanner splits a rendered token sequence back into its tokens. -/
theorem splitCaps_render : ∀ ps : List (String × String),
    (∀ p ∈ ps, symbolOK p.1 = true ∧ p.2.data.all digitish = true) →
    splitCapsAux (renderPairs ps).length (renderPairs ps) = ("", ps)
  | [], _ => rfl
  | (s, num) :: ps', h => by
    rcases h (s, num) (List.mem_cons_self _ _) with ⟨hsym, hnum⟩
    have hps' : ∀ p ∈ ps', symbolOK p.1 = true ∧ p.2.data.all digitish = true :=
      fun p hp => h p (List.mem_cons_of_mem _ hp)
    have ih := splitCaps_render ps' hps'
    have hhead : ∀ d0 rest2, num.data ++ renderPairs ps' = d0 :: rest2 →
        d0.isLower = false := by
      intro d0 rest2 he
      rcases hn : num.data with _ | ⟨c0, num0⟩
      · rw [hn, List.nil_append] at he
        rcases renderHead ps' hps' with ⟨hre, _⟩ | ⟨C', tail', hre, _, hCl'⟩
        · rw [hre] at he; cases he
        · rw [hre] at he
          rw [List.cons.injEq] at he
          rw [← he.1]
          exact hCl'
      · rw [hn, List.cons_append, List.cons.injEq] at he
        have hds := List.all_eq_true.mp hnum c0 (by rw [hn]; exact List.mem_cons_self _ _)
        rw [digitish] at hds
        simp only [Bool.and_eq_true, Bool.not_eq_true'] at hds
        rw [← he.1]
        exact hds.2
    have hsmk : String.mk s.data = s := strMk_data s
    have hnmk : String.mk num.data = num := strMk_data num
    rcases symbolOK_cases s hsym with ⟨C, hdC, hCu, hCl, hCd⟩ |
      ⟨C, d, hdC, hCu, hCl, hCd, hdl, hdu, hdd⟩
    · rw [renderPairs_cons, hdC, List.singleton_append]
      rcases he : num.data ++ renderPairs ps' with _ | ⟨d0, rest2⟩
      · rcases List.append_eq_nil.mp he with ⟨hn0, hr0⟩
        rcases renderHead ps' hps' with ⟨_, hps0⟩ | ⟨C', tail', hre, _, _⟩
        · rw [show splitCapsAux [C].length [C] =
            (if C.isUpper then (("" : String), [(String.mk [C], ("" : String))])
             else (String.mk [C], ([] : List (String × String)))) from rfl]
          rw [if_pos hCu, hps0]
          have hs2 : String.mk [C] = s := by rw [← hdC]
          have hn2 : num = "" := by rw [← hnmk, hn0]
          rw [hs2, hn2]
        · rw [hr0] at hre
          cases hre
      · simp only [List.length_cons]
        rw [show splitCapsAux (rest2.length + 1 + 1) (C :: d0 :: rest2) =
          (if C.isUpper then
            (if d0.isLower then
              (("" : String), (String.mk [C, d0],
                  (splitCapsAux (rest2.length + 1) rest2).1) ::
                (splitCapsAux (rest2.length + 1) rest2).2)
             else (("" : String), (String.mk [C],
                  (splitCapsAux (rest2.length + 1) (d0 :: rest2)).1) ::
                (splitCapsAux (rest2.length + 1) (d0 :: rest2)).2))
           else (String.mk (C :: (splitCapsAux (rest2.length + 1) (d0 :: rest2)).1.data),
            (splitCapsAux (rest2.length + 1) (d0 :: rest2)).2)) from by
          rw [splitCapsAux]]
        rw [if_pos hCu, if_neg (by rw [hhead d0 rest2 he]; exact Bool.false_ne_true)]
        have hfuel : splitCapsAux (rest2.length + 1) (d0 :: rest2) =
            splitCapsAux (num.data ++ renderPairs ps').length (num.data ++ renderPairs ps') := by
          rw [← he]
          exact splitCapsAux_fuel _ _ _ (by rw [he]; simp) (le_refl _)
        rw [hfuel,
          splitCapsAux_digits num.data hnum (renderPairs ps')
            (num.data ++ renderPairs ps').length
            (le_of_eq (List.length_append num.data (renderPairs ps')).symm),
          ih]
        have hs2 : String.mk [C] = s := by rw [← hdC]
        have hn2 : String.mk (num.data ++ ("" : String).data) = num := by
          rw [show ("" : String).data = [] from rfl, List.append_nil]
        rw [hs2, hn2]
    · rw [renderPairs_cons, hdC]
      rw [show [C, d] ++ (num.data ++ renderPairs ps') =
        C :: d :: (num.data ++ renderPairs ps') from rfl]
      simp only [List.length_cons]
      rw [show splitCapsAux ((num.data ++ renderPairs ps').length + 1 + 1)
          (C :: d :: (num.data ++ renderPairs ps')) =
        (if C.isUpper then
          (if d.isLower then
            (("" : String), (String.mk [C, d],
                (splitCapsAux ((num.data ++ renderPairs ps').length + 1)
                  (num.data ++ renderPairs ps')).1) ::
              (splitCapsAux ((num.data ++ renderPairs ps').length + 1)
                (num.data ++ renderPairs ps')).2)
           else (("" : String), (String.mk [C],
              (splitCapsAux ((num.data ++ renderPairs ps').length + 1)
                (d :: (num.data ++ renderPairs ps'))).1) ::
            (splitCapsAux ((num.data ++ renderPairs ps').length + 1)
              (d :: (num.data ++ renderPairs ps'))).2))
         else (String.mk (C :: (splitCapsAux ((num.data ++ renderPairs ps').length + 1)
            (d :: (num.data ++ renderPairs ps'))).1.data),
          (splitCapsAux ((num.data ++ renderPairs ps').length + 1)
            (d :: (num.data ++ renderPairs ps'))).2)) from by
        rw [splitCapsAux]]
      rw [if_pos hCu, if_pos hdl]
      rw [splitCapsAux_fuel ((num.data ++ renderPairs ps').length + 1)
        (num.data ++ renderPairs ps') (num.data ++ renderPairs ps').length
        (by omega) (le_refl _)]
      rw [splitCapsAux_digits num.data hnum (renderPairs ps')
          (num.data ++ renderPairs ps').length
          (le_of_eq (List.length_append num.data (renderPairs ps')).symm),
        ih]
      have hs2 : String.mk [C, d] = s := by rw [← hdC]
      have hn2 : String.mk (num.data ++ ("" : String).data) = num := by
        rw [show ("" : String).data = [] from rfl, List.append_nil]
      rw [hs2, hn2]

/-- A string without sign characters is untouched by the charge-suffix
strip. -/
theorem pyStripChargeSuffix_id : ∀ l : List Char, (∀ c ∈ l, c ≠ '+' ∧ c ≠ '-') →
    pyStripChargeSuffix l = l
  | [], _ => rfl
  | c :: rest, h => by
    rw [pyStripChargeSuffix]
    rcases h c (List.mem_cons_self c rest) with ⟨h1, h2⟩
    have hnot : ¬ (c = '+' ∨ c = '-') := by
      rintro (h3 | h3)
      · exact h1 h3
      · exact h2 h3
    rw [if_neg (fun hh => hnot hh.1), if_neg (fun hh => hnot hh.1),
      pyStripChargeSuffix_id rest (fun x hx => h x (List.mem_cons_of_mem c hx))]

/-- A rendered token sequence contains no sign character. -/
theorem renderPairs_no_sign : ∀ ps : List (String × String),
    (∀ p ∈ ps, symbolOK p.1 = true ∧ p.2.data.all digitish = true) →
    ∀ c ∈ renderPairs ps, c ≠ '+' ∧ c ≠ '-'
  | [], _, c, hc => absurd hc (List.not_mem_nil c)
  | (s, num) :: ps', h, c, hc => by
    rw [renderPairs_cons] at hc
    rcases h (s, num) (List.mem_cons_self _ _) with ⟨hsym, hnum⟩
    rcases List.mem_append.mp hc with hc | hc
    · rcases symbolOK_cases s hsym with ⟨C, hdC, hCu, _, _⟩ |
        ⟨C, d, hdC, hCu, _, _, hdl, _, _⟩
      · rw [hdC] at hc
        rcases List.mem_cons.mp hc with rfl | hc
        · constructor <;> intro hh <;> rw [hh] at hCu <;> exact absurd hCu (by decide)
        · cases hc
      · rw [hdC] at hc
        rcases List.mem_cons.mp hc with rfl | hc
        · constructor <;> intro hh <;> rw [hh] at hCu <;> exact absurd hCu (by decide)
        · rcases List.mem_cons.mp hc with rfl | hc
          · constructor <;> intro hh <;> rw [hh] at hdl <;> exact absurd hdl (by decide)
          · cases hc
    · rcases List.mem_append.mp hc with hc | hc
      · have hd := List.all_eq_true.mp hnum c hc
        rw [digitish] at hd
        simp only [Bool.and_eq_true, Bool.not_eq_true'] at hd
        have hdig := hd.1.1
        constructor <;> intro hh <;> rw [hh] at hdig <;> exact absurd hdig (by decide)
      · exact renderPairs_no_sign ps' (fun p hp => h p (List.mem_cons_of_mem _ hp)) c hc

/-- The decimal rendering of a positive integer parses back to it. -/
theorem pyIntStr_pos (v : ℤ) (h : 1 ≤ v) :
    (pyIntStr v).data.all digitish = true ∧ pyInt (pyIntStr v) = some v := by
  have hlt : ¬ v < 0 := by omega
  have htn : v.toNat ≠ 0 := by omega
  rw [pyIntStr, if_neg hlt]
  rcases natToString_digitish v.toNat htn with ⟨hne, hall⟩
  refine ⟨hall, ?_⟩
  have halld : (natToString v.toNat).data.all Char.isDigit = true := by
    rw [List.all_eq_true] at hall ⊢
    intro c hcm
    have := hall c hcm
    rw [digitish] at this
    simp only [Bool.and_eq_true] at this
    exact this.1.1
  rw [pyInt_digits _ hne halld, natOfDigits_natToString v.toNat htn]
  rw [Int.toNat_of_nonneg (by omega)]

/-- The dictionary-building fold of `str_to_dict` on rendered counts. -/
theorem strToDict_fold : ∀ (l acc : List (String × ℤ)),
    (∀ kv ∈ l, 1 ≤ kv.2) →
    List.foldlM (fun acc (p : String × String) => do
        let n ← if p.2 = "" then some (1 : ℤ) else pyInt p.2
        some (dSet acc p.1 n))
      acc (l.map (fun kv => (kv.1, if kv.2 = 1 then "" else pyIntStr kv.2))) =
    some (l.foldl (fun acc kv => dSet acc kv.1 kv.2) acc)
  | [], acc, _ => rfl
  | kv :: l', acc, h => by
    rw [List.map_cons, List.foldlM_cons, List.foldl_cons]
    by_cases h1 : kv.2 = 1
    · rw [if_pos h1]
      simp only [reduceIte, Option.bind_eq_bind, Option.some_bind]
      rw [h1]
      exact strToDict_fold l' (dSet acc kv.1 1) (fun x hx => h x (List.mem_cons_of_mem _ hx))
    · rw [if_neg h1]
      have hv : 1 ≤ kv.2 := h kv (List.mem_cons_self _ _)
      have hne : pyIntStr kv.2 ≠ "" := by
        rw [pyIntStr, if_neg (by omega : ¬ kv.2 < 0)]
        intro hh
        rcases natToString_digitish kv.2.toNat (by omega) with ⟨hne2, _⟩
        exact hne2 (by rw [hh])
      rw [if_neg hne]
      rw [(pyIntStr_pos kv.2 hv).2]
      simp only [Option.bind_eq_bind, Option.some_bind]
      exact strToDict_fold l' (dSet acc kv.1 kv.2) (fun x hx => h x (List.mem_cons_of_mem _ hx))

/-- `str_to_dict` recovers the counts from a rendered formula. -/
theorem str_to_dict_render (l : List (String × ℤ))
    (hsym : ∀ kv ∈ l, symbolOK kv.1 = true)
    (hpos : ∀ kv ∈ l, 1 ≤ kv.2) :
    str_to_dict (String.mk (renderPairs (l.map (fun kv =>
        (kv.1, if kv.2 = 1 then "" else pyIntStr kv.2))))) =
      some (l.foldl (fun acc kv => dSet acc kv.1 kv.2) []) := by
  have hq : ∀ p ∈ l.map (fun kv =>
      (kv.1, if kv.2 = 1 then "" else pyIntStr kv.2)),
      symbolOK p.1 = true ∧ p.2.data.all digitish = true := by
    intro p hp
    rcases List.mem_map.mp hp with ⟨kv, hkv, rfl⟩
    refine ⟨hsym kv hkv, ?_⟩
    by_cases h1 : kv.2 = 1
    · rw [if_pos h1]
      rfl
    · rw [if_neg h1]
      exact (pyIntStr_pos kv.2 (hpos kv hkv)).1
  unfold str_to_dict
  rw [show (String.mk (renderPairs (l.map (fun kv =>
      (kv.1, if kv.2 = 1 then "" else pyIntStr kv.2))))).data =
    renderPairs (l.map (fun kv =>
      (kv.1, if kv.2 = 1 then "" else pyIntStr kv.2))) from rfl]
  rw [pyStripChargeSuffix_id _ (renderPairs_no_sign _ hq)]
  simp only [splitCaps]
  rw [splitCaps_render _ hq]
  exact strToDict_fold l [] hpos

/-- Flattening the formula-rendering fold into token pairs. -/
theorem renderFormula_data : ∀ (ec : List (Element × ℤ)) (s : String),
    (ec.foldl (fun s (p : Element × ℤ) =>
      s ++ p.1.symbol ++ (if p.2 = 1 then "" else pyIntStr p.2)) s).data =
    s.data ++ renderPairs (ec.map (fun p =>
      (p.1.symbol, if p.2 = 1 then "" else pyIntStr p.2)))
  | [], s => by
    rw [List.foldl_nil, List.map_nil, show renderPairs [] = [] from rfl, List.append_nil]
  | p :: ec', s => by
    rw [List.foldl_cons, List.map_cons, renderPairs_cons,
      renderFormula_data ec' (s ++ p.1.symbol ++ (if p.2 = 1 then "" else pyIntStr p.2))]
    simp only [String.data_append, List.append_assoc]

/-- Looking a key up on the left half of an appended dictionary. -/
theorem dFind_append [DecidableEq K] : ∀ (l1 l2 : List (K × V)) (k : K),
    dFind (l1 ++ l2) k = match dFind l1 k with
      | some v => some v
      | none => dFind l2 k
  | [], l2, k => rfl
  | a :: l1, l2, k => by
    rw [List.cons_append, dFind, dFind]
    by_cases h : a.1 = k
    · rw [if_pos h, if_pos h]
    · rw [if_neg h, if_neg h, dFind_append l1 l2 k]

/-- Key lookup in a filtered value table over distinct keys. -/
theorem dFind_filter_map [DecidableEq K] (g : K → V) (pr : V → Bool) :
    ∀ (ks : List K) (k : K), ks.Nodup → k ∈ ks →
    dFind ((ks.map (fun k => (k, g k))).filter (fun kv => pr kv.2)) k =
      if pr (g k) then some (g k) else none
  | [], k, _, hk => absurd hk (List.not_mem_nil k)
  | k0 :: ks, k, hnd, hk => by
    rw [List.map_cons, List.filter_cons]
    by_cases he : k = k0
    · subst he
      by_cases hp : pr (g k) = true
      · rw [if_pos hp, if_pos hp, dFind, if_pos rfl]
      · rw [if_neg hp, if_neg hp]
        have hknot : k ∉ ks := (List.nodup_cons.mp hnd).1
        apply dFind_eq_none
        intro hmem
        apply hknot
        simp only [dKeys] at hmem
        rcases List.mem_map.mp hmem with ⟨kv, hkv, hfst⟩
        rcases List.mem_map.mp (List.mem_of_mem_filter hkv) with ⟨k1, hk1, hpair⟩
        rw [← hfst, ← hpair]
        exact hk1
    · have hks : k ∈ ks := by
        rcases List.mem_cons.mp hk with h | h
        · exact absurd h he
        · exact h
      by_cases hp : pr (g k0) = true
      · rw [if_pos hp, dFind, if_neg (fun hh => he hh.symm)]
        exact dFind_filter_map g pr ks k (List.nodup_cons.mp hnd).2 hks
      · rw [if_neg hp]
        exact dFind_filter_map g pr ks k (List.nodup_cons.mp hnd).2 hks

/-- Setting a fresh key appends the binding. -/
theorem dSet_not_mem_append [DecidableEq K] : ∀ (d : List (K × V)) (k : K) (v : V),
    k ∉ dKeys d → dSet d k v = d ++ [(k, v)]
  | [], k, v, _ => rfl
  | a :: d, k, v, h => by
    simp only [dKeys, List.map_cons, List.mem_cons, not_or] at h
    rw [dSet, if_neg (fun hh => h.1 hh.symm), List.cons_append,
      dSet_not_mem_append d k v (by simpa [dKeys] using h.2)]

/-- Folding `dSet` over fresh distinct keys appends the bindings. -/
theorem foldl_dSet_eq_append [DecidableEq K] : ∀ (l acc : List (K × V)),
    NodupKeys l → (∀ k ∈ dKeys l, k ∉ dKeys acc) →
    l.foldl (fun acc (p : K × V) => dSet acc p.1 p.2) acc = acc ++ l
  | [], acc, _, _ => by rw [List.foldl_nil, List.append_nil]
  | ⟨k, v⟩ :: l', acc, hnd, hdisj => by
    rw [List.foldl_cons]
    rw [show dSet acc (k, v).1 (k, v).2 = dSet acc k v from rfl]
    rw [dSet_not_mem_append acc k v (hdisj k (by simp [dKeys]))]
    have hnd2 : NodupKeys l' := by
      simp only [NodupKeys, dKeys, List.map_cons, List.nodup_cons] at hnd ⊢
      exact hnd.2
    have hkl : k ∉ dKeys l' := by
      simp only [NodupKeys, dKeys, List.map_cons, List.nodup_cons] at hnd
      exact hnd.1
    have hdisj2 : ∀ k2 ∈ dKeys l', k2 ∉ dKeys (acc ++ [(k, v)]) := by
      intro k2 hk2 hmem
      rw [show dKeys (acc ++ [(k, v)]) = dKeys acc ++ [k] from by simp [dKeys]] at hmem
      rcases List.mem_append.mp hmem with hmem | hmem
      · exact hdisj k2
          (by simp only [dKeys, List.map_cons]; exact List.mem_cons_of_mem _ hk2) hmem
      · rw [List.mem_singleton] at hmem
        rw [hmem] at hk2
        exact hkl hk2
    rw [foldl_dSet_eq_append l' (acc ++ [(k, v)]) hnd2 hdisj2, List.append_assoc]
    rfl

/-- Resolving every key of a dictionary whose keys are proper element
symbols returns elements carrying exactly those symbols. -/
theorem lookupAll_map_symbol : ∀ (db : List Element) (l : List (String × ℤ))
    (ps : List (Element × ℤ)), lookupAll db l = .ok ps →
    (∀ kv ∈ l, ∀ e, strLookup db kv.1 = some e → e.symbol = kv.1) →
    ps.map (fun p => (p.1.symbol, p.2)) = l
  | db, [], ps, h, _ => by
    rw [lookupAll] at h
    cases h
    rfl
  | db, kv :: rest, ps, h, hk => by
    rw [lookupAll] at h
    cases hs : strLookup db kv.1 with
    | none => rw [hs] at h; cases h
    | some e =>
      rw [hs] at h
      cases hr : lookupAll db rest with
      | error err => rw [hr] at h; cases h
      | ok ps' =>
        rw [hr] at h
        cases h
        rw [List.map_cons,
          lookupAll_map_symbol db rest ps' hr (fun x hx => hk x (List.mem_cons_of_mem _ hx))]
        rw [show ((e, kv.2).1.symbol, (e, kv.2).2) = (e.symbol, kv.2) from rfl]
        rw [hk kv (List.mem_cons_self _ _) e hs, Prod.mk.eta]

/-- One-step lookup unfolding. -/
theorem dFind_cons [DecidableEq K] (a1 : K) (a2 : V) (d : List (K × V)) (k : K) :
    dFind ((a1, a2) :: d) k = if a1 = k then some a2 else dFind d k := rfl

/-- Updating a key present in a duplicate-free table, viewed through value
lookups in a table not containing the key. -/
theorem map_dSet_getD [DecidableEq K] (k1 : K) (v1 : V) (d2' : List (K × V))
    (hk2 : k1 ∉ dKeys d2') :
    ∀ d1 : List (K × V), NodupKeys d1 → k1 ∈ dKeys d1 →
    (dSet d1 k1 v1).map (fun x => (x.1, dGetD d2' x.1 x.2)) =
      d1.map (fun x => (x.1, dGetD ((k1, v1) :: d2') x.1 x.2))
  | [], _, h => absurd h (by simp [dKeys])
  | a :: d1, hnd, h => by
    have hnda : a.1 ∉ dKeys d1 := by
      simp only [NodupKeys, dKeys, List.map_cons, List.nodup_cons] at hnd
      exact hnd.1
    have hndd : NodupKeys d1 := by
      simp only [NodupKeys, dKeys, List.map_cons, List.nodup_cons] at hnd
      exact hnd.2
    by_cases ha : a.1 = k1
    · rw [dSet, if_pos ha, List.map_cons, List.map_cons]
      have h1 : dGetD d2' a.1 v1 = v1 := by
        rw [dGetD, dFind_eq_none d2' a.1 (by rw [ha]; exact hk2)]
        rfl
      have h2 : dGetD ((k1, v1) :: d2') a.1 a.2 = v1 := by
        rw [dGetD, dFind_cons, if_pos ha.symm]
        rfl
      rw [h1, h2]
      have hcong : ∀ x ∈ d1, ((fun x : K × V => (x.1, dGetD d2' x.1 x.2)) x) =
          ((fun x : K × V => (x.1, dGetD ((k1, v1) :: d2') x.1 x.2)) x) := by
        intro x hx
        have hxk : x.1 ≠ k1 := by
          intro hh
          rw [← ha] at hh
          exact hnda (by rw [← hh]; exact List.mem_map_of_mem Prod.fst hx)
        simp only
        rw [dGetD, dGetD, dFind_cons, if_neg (fun hh => hxk hh.symm)]
      rw [List.map_congr_left hcong]
    · rw [dSet, if_neg ha, List.map_cons, List.map_cons]
      have hmem2 : k1 ∈ dKeys d1 := by
        simp only [dKeys, List.map_cons, List.mem_cons] at h
        rcases h with h | h
        · exact absurd h.symm ha
        · exact h
      rw [map_dSet_getD k1 v1 d2' hk2 d1 hndd hmem2]
      have hhead : dGetD d2' a.1 a.2 = dGetD ((k1, v1) :: d2') a.1 a.2 := by
        rw [dGetD, dGetD, dFind_cons, if_neg (fun hh => ha hh.symm)]
      rw [hhead]

/-- Normal form of the Python dictionary union: the left keys with updated
values, then the fresh right entries in order. -/
theorem dMerge_normal [DecidableEq K] : ∀ (d2 d1 : List (K × V)),
    NodupKeys d2 → NodupKeys d1 →
    dMerge d1 d2 = d1.map (fun kv => (kv.1, dGetD d2 kv.1 kv.2)) ++
      d2.filter (fun kv => decide (kv.1 ∉ dKeys d1))
  | [], d1, _, _ => by
    rw [show dMerge d1 [] = d1 from rfl, List.filter_nil, List.append_nil]
    have hcong : ∀ kv ∈ d1, ((fun kv : K × V => (kv.1, dGetD [] kv.1 kv.2)) kv) =
        ((fun kv : K × V => kv) kv) := by
      intro kv _
      simp only
      rw [show dGetD ([] : List (K × V)) kv.1 kv.2 = kv.2 from rfl, Prod.mk.eta]
    rw [List.map_congr_left hcong, List.map_id']
  | ⟨k1, v1⟩ :: d2', d1, hnd2, hnd1 => by
    have hk2 : k1 ∉ dKeys d2' := by
      simp only [NodupKeys, dKeys, List.map_cons, List.nodup_cons] at hnd2
      exact hnd2.1
    have hnd2' : NodupKeys d2' := by
      simp only [NodupKeys, dKeys, List.map_cons, List.nodup_cons] at hnd2
      exact hnd2.2
    rw [show dMerge d1 ((k1, v1) :: d2') = dMerge (dSet d1 k1 v1) d2' from by
      rw [dMerge, dMerge, List.foldl_cons]]
    rw [dMerge_normal d2' (dSet d1 k1 v1) hnd2' (nodupKeys_dSet d1 k1 v1 hnd1)]
    by_cases hmem : k1 ∈ dKeys d1
    · rw [map_dSet_getD k1 v1 d2' hk2 d1 hnd1 hmem]
      rw [dKeys_dSet_mem d1 k1 v1 hmem]
      rw [List.filter_cons, if_neg (by simp [hmem])]
    · rw [dSet_not_mem_append d1 k1 v1 hmem, List.map_append]
      rw [show List.map (fun x : K × V => (x.1, dGetD d2' x.1 x.2)) [(k1, v1)] =
          [(k1, v1)] from by
        rw [List.map_cons, List.map_nil, dGetD, dFind_eq_none d2' k1 hk2]
        rfl]
      have hkeys : dKeys (d1 ++ [(k1, v1)]) = dKeys d1 ++ [k1] := by
        simp [dKeys]
      rw [hkeys]
      have hcong : ∀ x ∈ d1, ((fun x : K × V => (x.1, dGetD d2' x.1 x.2)) x) =
          ((fun x : K × V => (x.1, dGetD ((k1, v1) :: d2') x.1 x.2)) x) := by
        intro x hx
        have hxk : x.1 ≠ k1 := by
          intro hh
          exact hmem (by rw [← hh]; exact List.mem_map_of_mem Prod.fst hx)
        simp only
        rw [dGetD, dGetD, dFind_cons, if_neg (fun hh => hxk hh.symm)]
      rw [List.map_congr_left hcong]
      have hfcong : List.filter (fun kv : K × V => decide (kv.1 ∉ dKeys d1 ++ [k1])) d2' =
          List.filter (fun kv : K × V => decide (kv.1 ∉ dKeys d1)) d2' := by
        apply List.filter_congr
        intro x hx
        have hxk : x.1 ≠ k1 := by
          intro hh
          exact hk2 (by rw [← hh]; exact List.mem_map_of_mem Prod.fst hx)
        simp [hxk]
      rw [hfcong]
      rw [List.filter_cons, if_pos (by simp [hmem])]
      rw [List.append_assoc, List.singleton_append]

/-- Filtering preserves distinctness of keys. -/
theorem nodupKeys_filter [DecidableEq K] (l : List (K × V)) (p : K × V → Bool)
    (h : NodupKeys l) : NodupKeys (l.filter p) :=
  ((List.filter_sublist l).map Prod.fst).nodup h

/-- The zero-initialized whitelist dictionary. -/
theorem valid0_map (f : List (String × ℤ)) :
    (VALID_ELEMENTS.map (fun k => (k, (0 : ℤ)))).map
        (fun kv => (kv.1, dGetD f kv.1 kv.2)) =
      VALID_ELEMENTS.map (fun k => (k, dGetD f k 0)) := by
  rw [List.map_map]
  apply List.map_congr_left
  intro k _
  rfl

/-- The canonicalization pass of `order_elements` is idempotent on
duplicate-free dictionaries. -/
theorem canonical_idem (f : List (String × ℤ)) (hnd : NodupKeys f) :
    ((dMerge (VALID_ELEMENTS.map (fun k => (k, (0 : ℤ))))
        ((dMerge (VALID_ELEMENTS.map (fun k => (k, (0 : ℤ)))) f).filter
          (fun kv => kv.2 ≠ 0))).filter (fun kv => kv.2 ≠ 0)) =
      (dMerge (VALID_ELEMENTS.map (fun k => (k, (0 : ℤ)))) f).filter
        (fun kv => kv.2 ≠ 0) := by
  have hv0nd : NodupKeys (VALID_ELEMENTS.map (fun k => (k, (0 : ℤ)))) := by decide
  have hv0keys : dKeys (VALID_ELEMENTS.map (fun k => (k, (0 : ℤ)))) = VALID_ELEMENTS := by
    decide
  have hvnodup : VALID_ELEMENTS.Nodup := by decide
  have hM1 := dMerge_normal f (VALID_ELEMENTS.map (fun k => (k, (0 : ℤ)))) hnd hv0nd
  rw [valid0_map f, hv0keys] at hM1
  rw [hM1, List.filter_append]
  have hA : ∀ kv ∈ (VALID_ELEMENTS.map (fun k => (k, dGetD f k 0))).filter
      (fun kv => kv.2 ≠ 0), kv.1 ∈ VALID_ELEMENTS := by
    intro kv hkv
    rcases List.mem_map.mp (List.mem_of_mem_filter hkv) with ⟨k, hk, rfl⟩
    exact hk
  have hB : ∀ kv ∈ (f.filter (fun kv => decide (kv.1 ∉ VALID_ELEMENTS))).filter
      (fun kv => kv.2 ≠ 0), kv.1 ∉ VALID_ELEMENTS := by
    intro kv hkv
    have := List.of_mem_filter (List.mem_of_mem_filter hkv)
    simpa using this
  have hκnd : NodupKeys ((VALID_ELEMENTS.map (fun k => (k, dGetD f k 0))).filter
      (fun kv => kv.2 ≠ 0) ++
      (f.filter (fun kv => decide (kv.1 ∉ VALID_ELEMENTS))).filter
      (fun kv => kv.2 ≠ 0)) := by
    unfold NodupKeys
    rw [dKeys, List.map_append, List.nodup_append]
    refine ⟨?_, ?_, ?_⟩
    · have h1 : NodupKeys (VALID_ELEMENTS.map (fun k => (k, dGetD f k 0))) := by
        unfold NodupKeys
        have : dKeys (VALID_ELEMENTS.map (fun k => (k, dGetD f k 0))) = VALID_ELEMENTS := by
          rw [dKeys, List.map_map]
          exact List.map_congr_left (fun k _ => rfl) |>.trans (List.map_id' _)
        rw [this]
        exact hvnodup
      exact nodupKeys_filter _ _ h1
    · exact nodupKeys_filter _ _ (nodupKeys_filter _ _ hnd)
    · intro k hk1 hk2
      rcases List.mem_map.mp hk1 with ⟨kv1, hkv1, rfl⟩
      rcases List.mem_map.mp hk2 with ⟨kv2, hkv2, hkk⟩
      exact hB kv2 hkv2 (by rw [hkk]; exact hA kv1 hkv1)
  rw [dMerge_normal _ _ hκnd hv0nd, valid0_map, hv0keys, List.filter_append]
  have hgetD : ∀ k ∈ VALID_ELEMENTS,
      dGetD ((VALID_ELEMENTS.map (fun k => (k, dGetD f k 0))).filter
          (fun kv => kv.2 ≠ 0) ++
        (f.filter (fun kv => decide (kv.1 ∉ VALID_ELEMENTS))).filter
          (fun kv => kv.2 ≠ 0)) k 0 = dGetD f k 0 := by
    intro k hk
    have hfB : dFind ((f.filter (fun kv => decide (kv.1 ∉ VALID_ELEMENTS))).filter
        (fun kv => kv.2 ≠ 0)) k = none := by
      apply dFind_eq_none
      intro hmem
      rcases List.mem_map.mp hmem with ⟨kv, hkv, rfl⟩
      exact hB kv hkv hk
    have hfA := dFind_filter_map (fun k => dGetD f k 0) (fun v => decide (v ≠ 0))
      VALID_ELEMENTS k hvnodup hk
    rw [dGetD, dFind_append]
    rw [show dFind ((VALID_ELEMENTS.map (fun k => (k, dGetD f k 0))).filter
        (fun kv => kv.2 ≠ 0)) k =
      (if decide (dGetD f k 0 ≠ 0) = true then some (dGetD f k 0) else none) from hfA]
    by_cases h0 : dGetD f k 0 = 0
    · rw [if_neg (by simp [h0])]
      rw [hfB, h0]
      rfl
    · rw [if_pos (by simp [h0])]
      rfl
  have hAeq : VALID_ELEMENTS.map (fun k =>
      (k, dGetD ((VALID_ELEMENTS.map (fun k => (k, dGetD f k 0))).filter
          (fun kv => kv.2 ≠ 0) ++
        (f.filter (fun kv => decide (kv.1 ∉ VALID_ELEMENTS))).filter
          (fun kv => kv.2 ≠ 0)) k 0)) =
      VALID_ELEMENTS.map (fun k => (k, dGetD f k 0)) := by
    apply List.map_congr_left
    intro k hk
    rw [hgetD k hk]
  rw [hAeq]
  have hABfilter : ((VALID_ELEMENTS.map (fun k => (k, dGetD f k 0))).filter
        (fun kv => kv.2 ≠ 0) ++
      (f.filter (fun kv => decide (kv.1 ∉ VALID_ELEMENTS))).filter
        (fun kv => kv.2 ≠ 0)).filter
      (fun kv => decide (kv.1 ∉ VALID_ELEMENTS)) =
      (f.filter (fun kv => decide (kv.1 ∉ VALID_ELEMENTS))).filter
        (fun kv => kv.2 ≠ 0) := by
    rw [List.filter_append]
    rw [List.filter_eq_nil_iff.mpr (by
      intro a ha
      simp only [decide_eq_true_eq, not_not]
      exact hA a ha)]
    rw [List.nil_append]
    apply List.filter_eq_self.mpr
    intro a ha
    simp only [decide_eq_true_eq]
    exact hB a ha
  rw [hABfilter]
  have hBB : ((f.filter (fun kv => decide (kv.1 ∉ VALID_ELEMENTS))).filter
        (fun kv => kv.2 ≠ 0)).filter (fun kv => kv.2 ≠ 0) =
      (f.filter (fun kv => decide (kv.1 ∉ VALID_ELEMENTS))).filter
        (fun kv => kv.2 ≠ 0) := by
    apply List.filter_eq_self.mpr
    intro kv hkv
    have h2 := List.of_mem_filter hkv
    exact h2
  rw [hBB]

/-- Every key of a successfully resolved dictionary has a database entry. -/
theorem lookupAll_resolves : ∀ (db : List Element) (l : List (String × ℤ))
    (ps : List (Element × ℤ)), lookupAll db l = .ok ps →
    ∀ kv ∈ l, ∃ e, strLookup db kv.1 = some e
  | db, [], ps, _, kv, hkv => absurd hkv (List.not_mem_nil kv)
  | db, kv0 :: rest, ps, h, kv, hkv => by
    rw [lookupAll] at h
    cases hs : strLookup db kv0.1 with
    | none => rw [hs] at h; cases h
    | some e =>
      rw [hs] at h
      cases hr : lookupAll db rest with
      | error err => rw [hr] at h; cases h
      | ok ps' =>
        rcases List.mem_cons.mp hkv with rfl | hkv2
        · exact ⟨e, hs⟩
        · exact lookupAll_resolves db rest ps' hr kv hkv2

/-- The canonicalized dictionary has distinct keys. -/
theorem canonical_nodup (f : List (String × ℤ)) (hnd : NodupKeys f) :
    NodupKeys ((dMerge (VALID_ELEMENTS.map (fun k => (k, (0 : ℤ)))) f).filter
      (fun kv => kv.2 ≠ 0)) := by
  have hv0nd : NodupKeys (VALID_ELEMENTS.map (fun k => (k, (0 : ℤ)))) := by decide
  have hvnodup : VALID_ELEMENTS.Nodup := by decide
  have hM1 := dMerge_normal f (VALID_ELEMENTS.map (fun k => (k, (0 : ℤ)))) hnd hv0nd
  rw [valid0_map f, show dKeys (VALID_ELEMENTS.map (fun k => (k, (0 : ℤ)))) =
    VALID_ELEMENTS from by decide] at hM1
  rw [hM1, List.filter_append]
  unfold NodupKeys
  rw [dKeys, List.map_append, List.nodup_append]
  refine ⟨?_, ?_, ?_⟩
  · have h1 : NodupKeys (VALID_ELEMENTS.map (fun k => (k, dGetD f k 0))) := by
      unfold NodupKeys
      have h2 : dKeys (VALID_ELEMENTS.map (fun k => (k, dGetD f k 0))) = VALID_ELEMENTS := by
        rw [dKeys, List.map_map]
        exact List.map_congr_left (fun k _ => rfl) |>.trans (List.map_id' _)
      rw [h2]
      exact hvnodup
    exact nodupKeys_filter _ _ h1
  · exact nodupKeys_filter _ _ (nodupKeys_filter _ _ hnd)
  · intro k hk1 hk2
    rcases List.mem_map.mp hk1 with ⟨kv1, hkv1, rfl⟩
    rcases List.mem_map.mp hk2 with ⟨kv2, hkv2, hkk⟩
    rcases List.mem_map.mp (List.mem_of_mem_filter hkv1) with ⟨k0, hk0, hpair⟩
    have h3 := List.of_mem_filter (List.mem_of_mem_filter hkv2)
    simp only [decide_eq_true_eq] at h3
    apply h3
    rw [hkk, ← hpair]
    exact hk0

/-- Claim C4: for every compound constructed from a duplicate-free,
non-negative atom-count map whose keys are the symbols owned by the resolved
elements, over a database of well-formed symbols, parsing the canonical
formula string back yields the same compound:
`Compound.from_str c.formula db = c` (in particular the formulas agree). -/
theorem from_str_roundtrip (db : List Element) (f : List (String × ℤ)) (c : Compound)
    (hnd : NodupKeys f)
    (hpos : ∀ kv ∈ f, 0 ≤ kv.2)
    (hsymdb : ∀ e ∈ db, symbolOK e.symbol = true)
    (hkey : ∀ kv ∈ f, ∀ e, strLookup db kv.1 = some e → e.symbol = kv.1)
    (hc : mkCompound f db = .ok c) :
    from_str c.formula db = .ok c := by
  rw [mkCompound] at hc
  cases ho : order_elements db f with
  | error err => rw [ho] at hc; cases hc
  | ok ec =>
  rw [ho] at hc
  simp only at hc
  by_cases hm : monomassOf ec = 0
  · rw [if_pos hm] at hc
    cases hc
  · rw [if_neg hm] at hc
    rw [Except.ok.injEq] at hc
    unfold order_elements at ho
    cases hl : lookupAll db ((dMerge (VALID_ELEMENTS.map (fun k => (k, 0))) f).filter
        (fun kv => kv.2 ≠ 0)) with
    | error err => rw [hl] at ho; cases ho
    | ok pairs =>
    rw [hl] at ho
    simp only [Except.ok.injEq] at ho
    have hfnd : NodupKeys ((dMerge (VALID_ELEMENTS.map (fun k => (k, (0 : ℤ)))) f).filter
        (fun kv => kv.2 ≠ 0)) := canonical_nodup f hnd
    have hmemval : ∀ kv ∈ (dMerge (VALID_ELEMENTS.map (fun k => (k, (0 : ℤ)))) f).filter
        (fun kv => kv.2 ≠ 0), (∃ v, (kv.1, v) ∈ f) ∧ 0 ≤ kv.2 := by
      have hM1 := dMerge_normal f (VALID_ELEMENTS.map (fun k => (k, (0 : ℤ))))
        hnd (by decide)
      rw [valid0_map f, show dKeys (VALID_ELEMENTS.map (fun k => (k, (0 : ℤ)))) =
        VALID_ELEMENTS from by decide] at hM1
      intro kv hkv
      rw [hM1, List.filter_append] at hkv
      rcases List.mem_append.mp hkv with hkv | hkv
      · have hne := List.of_mem_filter hkv
        simp only [decide_eq_true_eq] at hne
        rcases List.mem_map.mp (List.mem_of_mem_filter hkv) with ⟨k, hkV, rfl⟩
        simp only at hne ⊢
        cases hf : dFind f k with
        | none =>
          exfalso
          apply hne
          rw [dGetD, hf]
          rfl
        | some v =>
          have hv : dGetD f k 0 = v := by rw [dGetD, hf]; rfl
          rw [hv]
          exact ⟨⟨v, mem_of_dFind f k v hf⟩, hpos (k, v) (mem_of_dFind f k v hf)⟩
      · have hkf := List.mem_of_mem_filter (List.mem_of_mem_filter hkv)
        exact ⟨⟨kv.2, by rw [Prod.mk.eta]; exact hkf⟩, hpos kv hkf⟩
    have hkeyg : ∀ kv ∈ (dMerge (VALID_ELEMENTS.map (fun k => (k, (0 : ℤ)))) f).filter
        (fun kv => kv.2 ≠ 0), ∀ e, strLookup db kv.1 = some e → e.symbol = kv.1 := by
      intro kv hkv e hse
      obtain ⟨⟨v, hvf⟩, _⟩ := hmemval kv hkv
      exact hkey (kv.1, v) hvf e hse
    have hposg : ∀ kv ∈ (dMerge (VALID_ELEMENTS.map (fun k => (k, (0 : ℤ)))) f).filter
        (fun kv => kv.2 ≠ 0), 1 ≤ kv.2 := by
      intro kv hkv
      have hne := List.of_mem_filter hkv
      simp only [decide_eq_true_eq] at hne
      have h0 := (hmemval kv hkv).2
      omega
    have hsymg : ∀ kv ∈ (dMerge (VALID_ELEMENTS.map (fun k => (k, (0 : ℤ)))) f).filter
        (fun kv => kv.2 ≠ 0), symbolOK kv.1 = true := by
      intro kv hkv
      obtain ⟨e, hse⟩ := lookupAll_resolves db _ pairs hl kv hkv
      rw [← hkeyg kv hkv e hse]
      exact hsymdb e (strLookup_mem db kv.1 e hse)
    have hmap := lookupAll_map_symbol db _ pairs hl hkeyg
    have hpnd : NodupKeys pairs := by
      unfold NodupKeys
      apply List.Nodup.of_map (fun e : Element => e.symbol)
      have hkk : (dKeys pairs).map (fun e : Element => e.symbol) =
          dKeys ((dMerge (VALID_ELEMENTS.map (fun k => (k, (0 : ℤ)))) f).filter
            (fun kv => kv.2 ≠ 0)) := by
        rw [← hmap, dKeys, dKeys, List.map_map, List.map_map]
        rfl
      rw [hkk]
      exact hfnd
    have hec : ec = pairs := by
      rw [← ho, foldl_dSet_eq_append pairs [] hpnd (fun k hk => by simp [dKeys]),
        List.nil_append]
    have hform : c.formula = renderFormula ec := by rw [← hc]
    have hdata : (renderFormula ec).data = renderPairs
        (((dMerge (VALID_ELEMENTS.map (fun k => (k, (0 : ℤ)))) f).filter
          (fun kv => kv.2 ≠ 0)).map
          (fun kv => (kv.1, if kv.2 = 1 then "" else pyIntStr kv.2))) := by
      rw [show renderFormula ec = ec.foldl (fun s (p : Element × ℤ) =>
        s ++ p.1.symbol ++ (if p.2 = 1 then "" else pyIntStr p.2)) "" from rfl]
      rw [renderFormula_data ec "", show ("" : String).data = [] from rfl, List.nil_append]
      rw [hec]
      congr 1
      rw [← hmap, List.map_map]
      apply List.map_congr_left
      intro p _
      rfl
    have hstd : str_to_dict (renderFormula ec) =
        some ((dMerge (VALID_ELEMENTS.map (fun k => (k, (0 : ℤ)))) f).filter
          (fun kv => kv.2 ≠ 0)) := by
      have h1 := str_to_dict_render _ hsymg hposg
      rw [foldl_dSet_eq_append _ [] hfnd (fun k hk => by simp [dKeys]),
        List.nil_append] at h1
      rw [show renderFormula ec = String.mk (renderFormula ec).data from
        (strMk_data _).symm, hdata]
      exact h1
    rw [hform]
    unfold from_str
    rw [hstd]
    simp only
    rw [mkCompound]
    unfold order_elements
    rw [canonical_idem f hnd, hl]
    simp only
    rw [foldl_dSet_eq_append pairs [] hpnd (fun k hk => by simp [dKeys]),
      List.nil_append, ← hec]
    rw [if_neg hm, hc]

/-- Witness for C4 at the fluorine compound `{F: 1}` over the sample
database. -/
theorem from_str_roundtrip_witness :
    (NodupKeys [(("F" : String), (1 : ℤ))] ∧
      (∀ kv ∈ [(("F" : String), (1 : ℤ))], 0 ≤ kv.2) ∧
      (∀ e ∈ sampleDB, symbolOK e.symbol = true) ∧
      (∀ kv ∈ [(("F" : String), (1 : ℤ))], ∀ e : Element,
        strLookup sampleDB kv.1 = some e → e.symbol = kv.1)) ∧
    from_str compoundF.formula sampleDB = .ok compoundF := by
  have hkey : ∀ kv ∈ [(("F" : String), (1 : ℤ))], ∀ e : Element,
      strLookup sampleDB kv.1 = some e → e.symbol = kv.1 := by
    intro kv hkv e hse
    rcases List.mem_cons.mp hkv with rfl | h2
    · rw [show strLookup sampleDB (("F", (1 : ℤ)) : String × ℤ).1 = some elemF from
        by decide] at hse
      cases hse
      rfl
    · cases h2
  refine ⟨⟨by decide, by decide, by decide, hkey⟩, ?_⟩
  exact from_str_roundtrip sampleDB [("F", 1)] compoundF (by decide) (by decide)
    (by decide) hkey mkCompound_F_eval


/-! ## Claim C1: termination of the isopattern generation loop -/

/-- A stopped row passes through the substitution step unchanged. -/
theorem perm_stop (db : List Element) (limit : ℚ) (r : Row) (hs : r.stop = true) :
    isotope_permutation db limit r = .ok (some r) := by
  unfold isotope_permutation
  rw [hs]
  rfl

/-- Any row produced by the substitution step advances the generation by at
most one. -/
theorem perm_gen (db : List Element) (limit : ℚ) (r : Row) (x : Row)
    (h : isotope_permutation db limit r = .ok (some x)) :
    x.generation ≤ r.generation + 1 := by
  unfold isotope_permutation at h
  by_cases hs : r.stop
  · rw [if_pos hs] at h
    cases h
    omega
  · rw [if_neg hs] at h
    cases hn : r.noniso with
    | none =>
      rw [hn] at h
      cases h
      omega
    | some t =>
      rw [hn] at h
      simp only [] at h
      cases hg : isoGetElem db t with
      | error e => rw [hg] at h; cases h
      | ok elem =>
        rw [hg] at h
        simp only at h
        by_cases hz : dGetD r.counts elem.monoisotope.symbol 0 = 0
        · rw [if_pos hz] at h
          cases h
        · rw [if_neg hz] at h
          cases h
          simp only
          omega

/-- Each row of the mapped frame stems from a row of the input frame. -/
theorem applyPerm_mem : ∀ (db : List Element) (limit : ℚ) (l : List Row)
    (l2 : List (Option Row)), applyPerm db limit l = .ok l2 →
    ∀ x ∈ l2.reduceOption, ∃ r ∈ l, isotope_permutation db limit r = .ok (some x)
  | db, limit, [], l2, h, x => by
    rw [applyPerm] at h
    cases h
    intro hx
    cases hx
  | db, limit, r :: rest, l2, h, x => by
    rw [applyPerm] at h
    cases hp : isotope_permutation db limit r with
    | error e => rw [hp] at h; cases h
    | ok o =>
      rw [hp] at h
      cases ha : applyPerm db limit rest with
      | error e => rw [ha] at h; cases h
      | ok os =>
        rw [ha] at h
        cases h
        intro hx
        cases o with
        | none =>
          rcases applyPerm_mem db limit rest os ha x hx with ⟨r2, hr2, hp2⟩
          exact ⟨r2, List.mem_cons_of_mem _ hr2, hp2⟩
        | some y =>
          rw [List.reduceOption_cons_of_some] at hx
          rcases List.mem_cons.mp hx with rfl | hx2
          · exact ⟨r, List.mem_cons_self _ _, hp⟩
          · rcases applyPerm_mem db limit rest os ha x hx2 with ⟨r2, hr2, hp2⟩
            exact ⟨r2, List.mem_cons_of_mem _ hr2, hp2⟩

/-- The count of stopped low-generation rows never drops under the mapped
frame. -/
theorem applyPerm_countP (it : ℕ) :
    ∀ (db : List Element) (limit : ℚ) (l : List Row) (l2 : List (Option Row)),
    applyPerm db limit l = .ok l2 →
    l.countP (fun r => r.stop && decide (r.generation ≤ it)) ≤
      l2.reduceOption.countP (fun r => r.stop && decide (r.generation ≤ it))
  | db, limit, [], l2, h => by
    rw [applyPerm] at h
    cases h
    exact le_refl _
  | db, limit, r :: rest, l2, h => by
    rw [applyPerm] at h
    cases hp : isotope_permutation db limit r with
    | error e => rw [hp] at h; cases h
    | ok o =>
      rw [hp] at h
      cases ha : applyPerm db limit rest with
      | error e => rw [ha] at h; cases h
      | ok os =>
        rw [ha] at h
        cases h
        have ih := applyPerm_countP it db limit rest os ha
        by_cases hs : r.stop = true
        · have ho : o = some r := by
            rw [perm_stop db limit r hs] at hp
            cases hp
            rfl
          rw [ho, List.reduceOption_cons_of_some, List.countP_cons, List.countP_cons]
          omega
        · have hsf : r.stop = false := by
            cases hb : r.stop
            · rfl
            · exact absurd hb hs
          have hq : (r.stop && decide (r.generation ≤ it)) = false := by
            simp [hsf]
          cases o with
          | none =>
            rw [List.reduceOption_cons_of_none, List.countP_cons, hq]
            simpa using ih
          | some y =>
            rw [List.reduceOption_cons_of_some, List.countP_cons, List.countP_cons, hq]
            simp only [Bool.false_eq_true, if_false]
            split_ifs <;> omega

/-- Deduplication preserves the count of rows of older generations. -/
theorem dedupGo_countP (it : ℕ) (Q : Row → Bool)
    (himp : ∀ r, Q r = true → r.generation ≠ it + 1) :
    ∀ (seen : List (List (String × ℚ) × ℚ × ℚ)) (l : List Row),
    (dedupGo it seen l).countP Q = l.countP Q
  | seen, [] => rfl
  | seen, r :: rest => by
    rw [dedupGo]
    by_cases hg : r.generation = it + 1
    · rw [if_pos hg]
      by_cases hd : dedupKey r ∈ seen
      · rw [if_pos hd, List.countP_cons]
        have hQ : Q r = false := by
          cases hq : Q r
          · rfl
          · exact absurd hg (himp r hq)
        rw [hQ]
        simp only [Bool.false_eq_true, if_false]
        rw [dedupGo_countP it Q himp seen rest]
        omega
      · rw [if_neg hd, List.countP_cons, List.countP_cons,
          dedupGo_countP it Q himp (dedupKey r :: seen) rest]
    · rw [if_neg hg, List.countP_cons, List.countP_cons,
        dedupGo_countP it Q himp seen rest]

/-- Deduplicated rows are rows of the input. -/
theorem dedupGo_mem (it : ℕ) :
    ∀ (seen : List (List (String × ℚ) × ℚ × ℚ)) (l : List Row),
    ∀ x ∈ dedupGo it seen l, x ∈ l
  | seen, [], x, hx => absurd hx (List.not_mem_nil x)
  | seen, r :: rest, x, hx => by
    rw [dedupGo] at hx
    by_cases hg : r.generation = it + 1
    · rw [if_pos hg] at hx
      by_cases hd : dedupKey r ∈ seen
      · rw [if_pos hd] at hx
        exact List.mem_cons_of_mem _ (dedupGo_mem it seen rest x hx)
      · rw [if_neg hd] at hx
        rcases List.mem_cons.mp hx with rfl | hx2
        · exact List.mem_cons_self _ _
        · exact List.mem_cons_of_mem _ (dedupGo_mem it (dedupKey r :: seen) rest x hx2)
    · rw [if_neg hg] at hx
      rcases List.mem_cons.mp hx with rfl | hx2
      · exact List.mem_cons_self _ _
      · exact List.mem_cons_of_mem _ (dedupGo_mem it seen rest x hx2)

/-- A predicate count is strictly below the length in the presence of a
failing member. -/
theorem countP_lt_length (l : List Row) (p : Row → Bool) (x : Row)
    (hx : x ∈ l) (hpx : p x = false) : l.countP p < l.length := by
  refine lt_of_le_of_ne (List.countP_le_length p) ?_
  intro heq
  have := List.countP_eq_length.mp heq x hx
  rw [hpx] at this
  cases this

/-- Counting with pointwise equal predicates. -/
theorem countP_mem_congr : ∀ (l : List Row) (p q : Row → Bool),
    (∀ a ∈ l, p a = q a) → l.countP p = l.countP q
  | [], p, q, _ => rfl
  | a :: l, p, q, h => by
    rw [List.countP_cons, List.countP_cons, h a (List.mem_cons_self a l),
      countP_mem_congr l p q (fun x hx => h x (List.mem_cons_of_mem a hx))]

/-- Marking every row stopped makes the stopped count the length. -/
theorem countP_setStop1 : ∀ l : List Row,
    (l.map setStop1).countP (fun r => r.stop) = l.length
  | [] => rfl
  | r :: l => by
    rw [List.map_cons, List.countP_cons, countP_setStop1 l]
    rfl

/-- Exploding a row preserves its generation. -/
theorem explode_gen (c : Compound) (r : Row) : ∀ x ∈ explodeRow c r,
    x.generation = r.generation := by
  intro x hx
  unfold explodeRow at hx
  rcases hn : c.nonmonoisos with _ | ⟨t, ts⟩
  · rw [hn] at hx
    rcases List.mem_cons.mp hx with rfl | hx2
    · rfl
    · cases hx2
  · rw [hn] at hx
    rcases List.mem_map.mp hx with ⟨t2, _, rfl⟩
    rfl

/-- One loop iteration advances the iteration counter, and either yields a
state whose loop condition fails or strictly increases the accumulated row
count while preserving the generation bound and the stopped-count bound. -/
theorem loopBody_step (db : List Element) (c : Compound) (limit : ℚ)
    (maxIter : ℕ) (s s' : PatState)
    (hgen : ∀ r ∈ s.peaks, r.generation ≤ s.iteration)
    (hstop : s.n_tries ≤ s.peaks.countP (fun r => r.stop))
    (hb : loopBody db c limit s = .ok s') :
    s'.iteration = s.iteration + 1 ∧
    (loopCond maxIter s' = false ∨
      ((∀ r ∈ s'.peaks, r.generation ≤ s'.iteration) ∧
        s'.n_tries ≤ s'.peaks.countP (fun r => r.stop) ∧
        s.n_tries + 1 ≤ s'.n_tries)) := by
  unfold loopBody at hb
  cases ha : applyPerm db limit s.peaks with
  | error e => rw [ha] at hb; cases hb
  | ok l2 =>
  rw [ha] at hb
  simp only at hb
  have hp3mem : ∀ x ∈ (if s.iteration ≠ 0 then dedupRows s.iteration l2.reduceOption
      else l2.reduceOption), x ∈ l2.reduceOption := by
    intro x hx
    by_cases hz : s.iteration ≠ 0
    · rw [if_pos hz] at hx
      exact dedupGo_mem s.iteration [] l2.reduceOption x hx
    · rw [if_neg hz] at hx
      exact hx
  have hp2gen : ∀ x ∈ l2.reduceOption, x.generation ≤ s.iteration + 1 := by
    intro x hx
    rcases applyPerm_mem db limit s.peaks l2 ha x hx with ⟨r, hr, hp⟩
    have h1 := perm_gen db limit r x hp
    have h2 := hgen r hr
    omega
  have hcount : s.n_tries ≤ (if s.iteration ≠ 0 then dedupRows s.iteration l2.reduceOption
      else l2.reduceOption).countP
      (fun r => r.stop && decide (r.generation ≤ s.iteration)) := by
    have h1 : s.peaks.countP (fun r => r.stop) =
        s.peaks.countP (fun r => r.stop && decide (r.generation ≤ s.iteration)) :=
      countP_mem_congr _ _ _ (fun a hamem => by
        have := hgen a hamem
        simp [this])
    have h2 := applyPerm_countP s.iteration db limit s.peaks l2 ha
    by_cases hz : s.iteration ≠ 0
    · rw [if_pos hz, dedupRows, dedupGo_countP s.iteration _ (fun r hq => by
        simp only [Bool.and_eq_true, decide_eq_true_eq] at hq
        omega) [] l2.reduceOption]
      omega
    · rw [if_neg hz]
      omega
  by_cases he : ((if s.iteration ≠ 0 then dedupRows s.iteration l2.reduceOption
      else l2.reduceOption).filter
      (fun r => decide (r.generation = s.iteration + 1) && !r.stop)).isEmpty = true
  · rw [if_pos he] at hb
    cases hb
    refine ⟨rfl, Or.inl ?_⟩
    rw [loopCond]
    have hall := List.filter_eq_nil_iff.mp (List.isEmpty_iff.mp he)
    have hany : (if s.iteration ≠ 0 then dedupRows s.iteration l2.reduceOption
        else l2.reduceOption).any
        (fun r => decide (r.generation = s.iteration + 1) && !r.stop) = false := by
      rw [List.any_eq_false]
      intro x hx
      exact hall x hx
    simp only
    rw [hany, Bool.false_and]
  · rw [if_neg he] at hb
    cases hb
    refine ⟨rfl, Or.inr ⟨?_, ?_, ?_⟩⟩
    · intro r hr
      simp only at hr ⊢
      rcases List.mem_append.mp hr with hr | hr
      · rcases List.mem_map.mp hr with ⟨x, hx, rfl⟩
        exact hp2gen x (hp3mem x hx)
      · rcases List.mem_flatMap.mp hr with ⟨x, hx, hxe⟩
        have hxp3 := List.mem_of_mem_filter hx
        rw [explode_gen c x r hxe]
        exact hp2gen x (hp3mem x hxp3)
    · simp only
      rw [List.countP_append, countP_setStop1]
      omega
    · simp only
      have hne : ((if s.iteration ≠ 0 then dedupRows s.iteration l2.reduceOption
          else l2.reduceOption).filter
          (fun r => decide (r.generation = s.iteration + 1) && !r.stop)) ≠ [] := by
        intro hh
        rw [hh] at he
        exact he rfl
      rcases List.exists_mem_of_ne_nil _ hne with ⟨x, hx⟩
      have hx3 := List.mem_of_mem_filter hx
      have hxq := List.of_mem_filter hx
      have hxQ : (x.stop && decide (x.generation ≤ s.iteration)) = false := by
        simp only [Bool.and_eq_true, decide_eq_true_eq, Bool.not_eq_true'] at hxq
        simp [hxq.2]
      have hlt := countP_lt_length _
        (fun r => r.stop && decide (r.generation ≤ s.iteration)) x hx3 hxQ
      omega

/-- A failed loop condition freezes the loop at any fuel. -/
theorem loopRun_cond_false (db : List Element) (c : Compound) (limit : ℚ)
    (maxIter : ℕ) (s : PatState) (h : loopCond maxIter s = false) :
    ∀ fuel, loopRun db c limit maxIter fuel s = .ok s
  | 0 => rfl
  | fuel + 1 => by
    rw [loopRun, if_neg (by rw [h]; exact Bool.false_ne_true)]

/-- The loop body always advances the iteration counter. -/
theorem loopBody_iter (db : List Element) (c : Compound) (limit : ℚ)
    (s s' : PatState) (hb : loopBody db c limit s = .ok s') :
    s'.iteration = s.iteration + 1 := by
  unfold loopBody at hb
  cases ha : applyPerm db limit s.peaks with
  | error e => rw [ha] at hb; cases hb
  | ok l2 =>
  rw [ha] at hb
  simp only at hb
  by_cases he : ((if s.iteration ≠ 0 then dedupRows s.iteration l2.reduceOption
      else l2.reduceOption).filter
      (fun r => decide (r.generation = s.iteration + 1) && !r.stop)).isEmpty = true
  · rw [if_pos he] at hb
    cases hb
    rfl
  · rw [if_neg he] at hb
    cases hb
    rfl

/-- Fuel beyond the bound derived from the accumulated row count does not
change the loop result. -/
theorem loopRun_stable (db : List Element) (c : Compound) (limit : ℚ) (maxIter : ℕ) :
    ∀ (d : ℕ) (s : PatState),
    (∀ r ∈ s.peaks, r.generation ≤ s.iteration) →
    s.n_tries ≤ s.peaks.countP (fun r => r.stop) →
    maxIter + 1 ≤ s.n_tries + d →
    ∀ fuel, d ≤ fuel →
    loopRun db c limit maxIter fuel s = loopRun db c limit maxIter d s := by
  intro d
  induction d with
  | zero =>
    intro s hgen hstop hm fuel hf
    have hcond : loopCond maxIter s = false := by
      rw [loopCond]
      have hd : decide (s.n_tries < maxIter) = false := by
        simp only [decide_eq_false_iff_not]
        omega
      rw [hd, Bool.and_false]
    rw [loopRun_cond_false db c limit maxIter s hcond fuel]
    rfl
  | succ d ih =>
    intro s hgen hstop hm fuel hf
    rcases fuel with _ | f
    · omega
    · by_cases hcond : loopCond maxIter s = true
      · rw [loopRun, loopRun, if_pos hcond, if_pos hcond]
        cases hb : loopBody db c limit s with
        | error e => rfl
        | ok s2 =>
          simp only [Except.bind]
          rcases loopBody_step db c limit maxIter s s2 hgen hstop hb with ⟨_, hcase⟩
          rcases hcase with hfalse | ⟨hg2, hs2, hinc⟩
          · rw [loopRun_cond_false db c limit maxIter s2 hfalse f,
              loopRun_cond_false db c limit maxIter s2 hfalse d]
          · exact ih s2 hg2 hs2 (by omega) f (by omega)
      · rw [loopRun, loopRun, if_neg hcond, if_neg hcond]

/-- If one more unit of fuel does not change an `ok` result, the loop
condition fails at the final state. -/
theorem loopRun_end (db : List Element) (c : Compound) (limit : ℚ) (maxIter : ℕ) :
    ∀ (fuel : ℕ) (s s' : PatState),
    loopRun db c limit maxIter fuel s = .ok s' →
    loopRun db c limit maxIter (fuel + 1) s = .ok s' →
    loopCond maxIter s' = false := by
  intro fuel
  induction fuel with
  | zero =>
    intro s s' h0 h1
    cases h0
    rw [loopRun] at h1
    by_cases hcond : loopCond maxIter s = true
    · rw [if_pos hcond] at h1
      cases hb : loopBody db c limit s with
      | error e =>
        rw [hb] at h1
        simp only [Except.bind] at h1
        cases h1
      | ok s2 =>
        rw [hb] at h1
        simp only [Except.bind] at h1
        rw [show loopRun db c limit maxIter 0 s2 = .ok s2 from rfl] at h1
        cases h1
        have := loopBody_iter db c limit s s hb
        omega
    · rw [if_neg hcond] at h1
      cases hc2 : loopCond maxIter s
      · rfl
      · exact absurd hc2 hcond
  | succ f ih =>
    intro s s' h0 h1
    rw [loopRun] at h0 h1
    by_cases hcond : loopCond maxIter s = true
    · rw [if_pos hcond] at h0 h1
      cases hb : loopBody db c limit s with
      | error e =>
        rw [hb] at h0
        simp only [Except.bind] at h0
        cases h0
      | ok s2 =>
        rw [hb] at h0 h1
        simp only [Except.bind] at h0 h1
        exact ih s2 s' h0 h1
    · rw [if_neg hcond] at h0
      cases h0
      cases hc2 : loopCond maxIter s
      · rfl
      · exact absurd hc2 hcond

/-- Claim C1: the generation loop of `isopattern` terminates.  The fuel
bound `max_iter + 1` is exact: adding any amount of fuel does not change the
result, and the loop stops exactly when the condition - an active row at the
current generation remains and the accumulated row count is below
`max_iter` - fails. -/
theorem isopattern_loop_terminates (db : List Element) (c : Compound)
    (limit : ℚ) (maxIter : ℕ) :
    (∀ fuel, maxIter + 1 ≤ fuel →
      loopRun db c limit maxIter fuel (initState c) =
        loopResult db c limit maxIter) ∧
    ∀ s', loopResult db c limit maxIter = .ok s' →
      loopCond maxIter s' = false := by
  have hgen : ∀ r ∈ (initState c).peaks, r.generation ≤ (initState c).iteration := by
    intro r hr
    unfold initState at hr
    simp only at hr
    rcases List.mem_cons.mp hr with rfl | hr2
    · exact le_refl _
    · rcases List.mem_map.mp hr2 with ⟨t, _, rfl⟩
      exact le_refl _
  have hstop : (initState c).n_tries ≤ (initState c).peaks.countP (fun r => r.stop) := by
    simp [initState]
  have hstable := loopRun_stable db c limit maxIter (maxIter + 1) (initState c)
    hgen hstop (by simp [initState])
  constructor
  · intro fuel hf
    exact hstable fuel hf
  · intro s' hs'
    have h1 : loopRun db c limit maxIter (maxIter + 1) (initState c) = .ok s' := hs'
    have h2 : loopRun db c limit maxIter (maxIter + 1 + 1) (initState c) = .ok s' := by
      rw [hstable (maxIter + 1 + 1) (by omega)]
      exact h1
    exact loopRun_end db c limit maxIter (maxIter + 1) (initState c) s' h1 h2

/-- Witness for C1: with `max_iter = 10` and twelve units of fuel the
fluorine loop result is already final, and its final state fails the loop
condition. -/
theorem isopattern_loop_terminates_witness :
    loopRun sampleDB compoundF (mkRat 1 1000) 10 12 (initState compoundF) =
      loopResult sampleDB compoundF (mkRat 1 1000) 10 ∧
    loopCond 10 (initState compoundF) = false := by
  have h := isopattern_loop_terminates sampleDB compoundF (mkRat 1 1000) 10
  refine ⟨h.1 12 (by decide), ?_⟩
  exact h.2 (initState compoundF) (by decide)


end Tools
